import Mathlib

/-!
Shallow embedding of the piece-table text buffer from
`crates/led/src/led/piece_table.rs` (together with `util.rs`'s
`count_line_breaks` and the `Position` type from `types.rs`).

Modelling conventions:

* Rust `String`s are modelled as `List Char` (`Str`).  Byte offsets are
  modelled faithfully: each `Char` contributes `Char.utf8Size` bytes, and
  Rust string slicing `&s[a..b]` is modelled by `sliceBytes s a b`, which
  returns `none` exactly when Rust would panic (an index out of bounds,
  `a > b`, or an index that is not a UTF-8 character boundary).
* `usize`/`u32` arithmetic is modelled on `Nat`.  Counts never get near
  `2^32`/`2^64` in the intended domain, so wrap-around is not modelled.
* Fallible operations return `Res`: `ok t'` models `Ok(())` with the
  mutated table, `err t'` models `Err(..)` carrying the table state at the
  moment of the error, and `panic` models a Rust panic (all panics in this
  code come from string slicing; `get_text`, `offset_to_position` and
  `position_to_offset` return `Option` for the same reason).
* The line/char caches of the Rust struct are omitted: they are write-only
  from the point of view of every public operation modelled here
  (`mark_caches_dirty_from` only sets dirty flags, and no modelled
  operation reads the caches), so they have no observable effect.
-/

namespace Spec2Proof

/-- Strings are lists of characters; byte offsets are derived from
`Char.utf8Size`. -/
abbrev Str := List Char

/-- Byte length of a string (Rust `str::len`). -/
def byteLen (s : Str) : Nat := (s.map Char.utf8Size).sum

/-- Model of `util::count_line_breaks`: the number of `'\n'` characters. -/
def count_line_breaks (s : Str) : Nat := (s.filter (fun c => c == '\n')).length

/-- Drop the first `n` bytes of a string; `none` when `n` overruns the
string or does not fall on a character boundary. -/
def byteDrop : Nat → Str → Option Str
  | 0, s => some s
  | _ + 1, [] => none
  | n + 1, c :: rest =>
    if c.utf8Size ≤ n + 1 then byteDrop (n + 1 - c.utf8Size) rest else none

/-- Take the first `n` bytes of a string; `none` when `n` overruns the
string or does not fall on a character boundary. -/
def byteTake : Nat → Str → Option Str
  | 0, _ => some []
  | _ + 1, [] => none
  | n + 1, c :: rest =>
    if c.utf8Size ≤ n + 1 then (byteTake (n + 1 - c.utf8Size) rest).map (c :: ·) else none

/-- Model of Rust string slicing `&s[a..b]`: `none` models the panic. -/
def sliceBytes (s : Str) (a b : Nat) : Option Str :=
  if a > b then none else (byteDrop a s).bind (byteTake (b - a))

/-- Offset `n` is a UTF-8 character boundary of `s` (including `n = byteLen s`). -/
def IsBoundary (s : Str) (n : Nat) : Prop := (byteDrop n s).isSome

instance (s : Str) (n : Nat) : Decidable (IsBoundary s n) := by
  unfold IsBoundary; infer_instance

/-- Model of `types::source::ID`: which backing buffer a piece slices. -/
inductive ID where
  | Original : ID
  | Add : ID
deriving DecidableEq, Repr

/-- Model of `piece::Piece`. `line_breaks` is `u32` in Rust, modelled on `Nat`. -/
structure Piece where
  source : ID
  start : Nat
  length : Nat
  line_breaks : Nat
deriving DecidableEq, Repr

/-- Model of `piece::Table` without its caches (see the module docstring). -/
structure Table where
  original : Str
  add_buffer : Str
  pieces : List Piece
  total_length : Nat
  total_lines : Nat
deriving DecidableEq, Repr

/-- Model of `types::Position` (zero-based line and column). -/
structure Position where
  line : Nat
  column : Nat
deriving DecidableEq, Repr

/-- Outcome of a fallible table operation.  `err` carries the table state
at the moment the error is returned (in the source these are the early
returns, so it is always the pre-call state); `panic` models a Rust panic. -/
inductive Res where
  | ok : Table → Res
  | err : Table → Res
  | panic : Res
deriving DecidableEq, Repr

/-- The backing buffer a source tag refers to. -/
def Table.buf (t : Table) : ID → Str
  | ID.Original => t.original
  | ID.Add => t.add_buffer

/-- Total accessor for a piece list (all source accesses are guarded by
index checks, so the default is never observable). -/
def getPiece (l : List Piece) (i : Nat) : Piece := l.getD i ⟨ID.Original, 0, 0, 0⟩

/-- Sum of the lengths of a list of pieces. -/
def sumLen (l : List Piece) : Nat := (l.map Piece.length).sum

/-- Sum of the cached line-break counts of a list of pieces. -/
def sumBreaks (l : List Piece) : Nat := (l.map Piece.line_breaks).sum

/-- Model of `Vec::insert` at a valid index. -/
def insertAt (l : List Piece) (i : Nat) (p : Piece) : List Piece :=
  l.take i ++ p :: l.drop i

/-- The left remainder built by `split_piece_at` (named for readability of
statements; identical to the structure literal in the source). -/
def splitLeftPiece (piece : Piece) (oip : Nat) (left_text : Str) : Piece :=
  ⟨piece.source, piece.start, oip, count_line_breaks left_text⟩

/-- The right remainder built by `split_piece_at` (also the right remainder
of the interior case of `delete_within_piece`). -/
def splitRightPiece (piece : Piece) (oip : Nat) (right_text : Str) : Piece :=
  ⟨piece.source, piece.start + oip, piece.length - oip, count_line_breaks right_text⟩

/-- A piece shrunk at its left edge by `delete_within_piece`
(`start += dl; length -= dl; line_breaks -= dlb`). -/
def shrinkLeftPiece (piece : Piece) (dl dlb : Nat) : Piece :=
  ⟨piece.source, piece.start + dl, piece.length - dl, piece.line_breaks - dlb⟩

/-- A piece shrunk at its right edge by `delete_within_piece`
(`length -= dl; line_breaks -= dlb`). -/
def shrinkRightPiece (piece : Piece) (dl dlb : Nat) : Piece :=
  ⟨piece.source, piece.start, piece.length - dl, piece.line_breaks - dlb⟩

/-- The kept tail of the last piece in `delete_across_pieces`
(`start += oip; length -= oip; line_breaks` recomputed from the kept text). -/
def tailPiece (piece : Piece) (oip : Nat) (keep : Str) : Piece :=
  ⟨piece.source, piece.start + oip, piece.length - oip, count_line_breaks keep⟩

/-- Model of `Table::new`. -/
def Table.new (initial : Str) : Table :=
  { original := initial
    add_buffer := []
    pieces := [⟨ID.Original, 0, byteLen initial, count_line_breaks initial⟩]
    total_length := byteLen initial
    total_lines := count_line_breaks initial + 1 }

/-- The text a piece denotes (a slice of its backing buffer); `none` when
the slice would panic. -/
def pieceText (t : Table) (p : Piece) : Option Str :=
  sliceBytes (t.buf p.source) p.start (p.start + p.length)

/-- Total version of `pieceText` (used to state results; meaningful on
well-formed tables, where every `pieceText` is `some`). -/
def pieceTextD (t : Table) (p : Piece) : Str := (pieceText t p).getD []

/-- The document a table denotes: the concatenation of its pieces' texts. -/
def docText (t : Table) : Str := (t.pieces.map (pieceTextD t)).flatten

/-- Loop of `Table::find_piece_containing_offset`. -/
def findLoop (offset : Nat) : List Piece → Nat → Nat → Nat
  | [], _, idx => idx
  | p :: rest, curOff, idx =>
    if curOff + p.length > offset then idx else findLoop offset rest (curOff + p.length) (idx + 1)

/-- Model of `Table::find_piece_containing_offset`. -/
def Table.find_piece_containing_offset (t : Table) (offset : Nat) : Nat :=
  if offset > 0 ∧ offset = t.total_length then t.pieces.length - 1
  else findLoop offset t.pieces 0 0

/-- Model of `Table::get_piece_start_offset`. -/
def Table.get_piece_start_offset (t : Table) (pieceIdx : Nat) : Nat :=
  sumLen (t.pieces.take pieceIdx)

/-- Loop of `Table::get_text` with explicit fuel; each iteration of the
Rust `while` copies at least one byte on a well-formed table, so fuel
`length + 1` is never exhausted there.  Exhausted fuel (a diverging loop)
is reported as `none`, like a panic. -/
def gtLoop (t : Table) (endOff : Nat) : Nat → Nat → Str → Option Str
  | 0, current, acc => if current ≥ endOff then some acc else none
  | fuel + 1, current, acc =>
    if current ≥ endOff then some acc
    else
      let pieceIdx := t.find_piece_containing_offset current
      if pieceIdx ≥ t.pieces.length then some acc
      else
        let piece := getPiece t.pieces pieceIdx
        let pso := t.get_piece_start_offset pieceIdx
        let oip := current - pso
        match sliceBytes (t.buf piece.source) piece.start (piece.start + piece.length) with
        | none => none
        | some piece_text =>
          let available := piece.length - oip
          let toCopy := min (endOff - current) available
          match sliceBytes piece_text oip (oip + toCopy) with
          | none => none
          | some copied => gtLoop t endOff fuel (current + toCopy) (acc ++ copied)

/-- Model of `Table::get_text`. -/
def Table.get_text (t : Table) (start length : Nat) : Option Str :=
  if start + length > t.total_length then some []
  else gtLoop t (start + length) (length + 1) start []

/-- Model of `Table::count_line_breaks_in_range`. -/
def Table.count_line_breaks_in_range (t : Table) (start e : Nat) : Option Nat :=
  (t.get_text start (e - start)).map count_line_breaks

/-- Model of `Table::split_piece_at`.  The outer `Option` is the panic
(slicing) case; the inner `Option Nat` is the Rust `Option<split::Result>`
(`insert_idx`), paired with the table after any mutation. -/
def Table.split_piece_at (t : Table) (pieceIdx offset : Nat) : Option (Table × Option Nat) :=
  if pieceIdx ≥ t.pieces.length then some (t, none)
  else
    let piece := getPiece t.pieces pieceIdx
    let pso := t.get_piece_start_offset pieceIdx
    let oip := offset - pso
    if oip = 0 then some (t, some pieceIdx)
    else if oip ≥ piece.length then some (t, some (pieceIdx + 1))
    else
      match sliceBytes (t.buf piece.source) piece.start (piece.start + piece.length) with
      | none => none
      | some piece_text =>
        match byteTake oip piece_text, byteDrop oip piece_text with
        | some left_text, some right_text =>
          let left_piece : Piece :=
            ⟨piece.source, piece.start, oip, count_line_breaks left_text⟩
          let right_piece : Piece :=
            ⟨piece.source, piece.start + oip, piece.length - oip, count_line_breaks right_text⟩
          some ({ t with
                    pieces := insertAt (t.pieces.set pieceIdx left_piece) (pieceIdx + 1) right_piece },
                some (pieceIdx + 1))
        | _, _ => none

/-- Model of `Table::coalesce_pieces_around`. -/
def Table.coalesce_pieces_around (t : Table) (pieceIdx : Nat) : Table :=
  if t.pieces.length < 2 ∨ pieceIdx = 0 ∨ pieceIdx ≥ t.pieces.length then t
  else
    let prev := getPiece t.pieces (pieceIdx - 1)
    let curr := getPiece t.pieces pieceIdx
    if prev.source = curr.source ∧ prev.start + prev.length = curr.start then
      { t with
          pieces :=
            (t.pieces.set (pieceIdx - 1)
              { prev with
                  length := prev.length + curr.length
                  line_breaks := prev.line_breaks + curr.line_breaks }).eraseIdx pieceIdx }
    else t

/-- Model of `Table::insert`. -/
def Table.insert (t : Table) (offset : Nat) (text : Str) : Res :=
  if offset > t.total_length then Res.err t
  else
    let pieceIdx := t.find_piece_containing_offset offset
    let addStart := byteLen t.add_buffer
    let t1 : Table := { t with add_buffer := t.add_buffer ++ text }
    let new_piece : Piece := ⟨ID.Add, addStart, byteLen text, count_line_breaks text⟩
    match t1.split_piece_at pieceIdx offset with
    | none => Res.panic
    | some (t2, splitRes) =>
      let t3 : Table :=
        match splitRes with
        | some insertIdx => { t2 with pieces := insertAt t2.pieces insertIdx new_piece }
        | none => { t2 with pieces := t2.pieces ++ [new_piece] }
      let t4 : Table :=
        { t3 with
            total_length := t3.total_length + byteLen text
            total_lines := t3.total_lines + new_piece.line_breaks }
      Res.ok (t4.coalesce_pieces_around pieceIdx)

/-- Model of `Table::delete_within_piece`. -/
def Table.delete_within_piece (t : Table) (pieceIdx start e : Nat) : Res :=
  if pieceIdx ≥ t.pieces.length then Res.err t
  else
    let pso := t.get_piece_start_offset pieceIdx
    let oipStart := start - pso
    let oipEnd := e - pso
    let piece := getPiece t.pieces pieceIdx
    if oipStart ≥ piece.length ∨ oipEnd > piece.length then Res.err t
    else
      let deletedLength := oipEnd - oipStart
      match sliceBytes (t.buf piece.source) (piece.start + oipStart) (piece.start + oipEnd) with
      | none => Res.panic
      | some deleted_text =>
        let deletedLineBreaks := count_line_breaks deleted_text
        if deletedLength = piece.length then
          Res.ok { t with pieces := t.pieces.eraseIdx pieceIdx }
        else if oipStart = 0 then
          Res.ok { t with
                     pieces := t.pieces.set pieceIdx
                       (shrinkLeftPiece piece deletedLength deletedLineBreaks) }
        else if oipEnd = piece.length then
          Res.ok { t with
                     pieces := t.pieces.set pieceIdx
                       (shrinkRightPiece piece deletedLength deletedLineBreaks) }
        else
          match sliceBytes (t.buf piece.source) (piece.start + oipEnd) (piece.start + piece.length),
                sliceBytes (t.buf piece.source) piece.start (piece.start + oipStart) with
          | some right_text, some left_text =>
            Res.ok { t with
                       pieces := insertAt
                         (t.pieces.set pieceIdx (splitLeftPiece piece oipStart left_text))
                         (pieceIdx + 1) (splitRightPiece piece oipEnd right_text) }
          | _, _ => Res.panic

/-- Model of the guarded removals at the end of `delete_across_pieces`
(`if idx < self.pieces.len() { self.pieces.remove(idx); }`). -/
def removeIdxs (l : List Piece) (idxs : List Nat) : List Piece :=
  idxs.foldl (fun acc i => if i < acc.length then acc.eraseIdx i else acc) l

/-- Model of the descending sort (`sort_by(|a, b| b.cmp(a))`) of the at
most two removal indices collected by `delete_across_pieces`. -/
def sortDesc2 : List Nat → List Nat
  | [a, b] => if b ≤ a then [a, b] else [b, a]
  | l => l

/-- Model of `Table::delete_across_pieces`. -/
def Table.delete_across_pieces (t : Table) (startPieceIdx endPieceIdx start e : Nat) : Res :=
  if startPieceIdx ≥ t.pieces.length ∨ endPieceIdx ≥ t.pieces.length then Res.err t
  else
    let firstPso := t.get_piece_start_offset startPieceIdx
    let oipFirst := start - firstPso
    let lastPso := t.get_piece_start_offset endPieceIdx
    let oipLast := e - lastPso
    let p1 := getPiece t.pieces startPieceIdx
    match sliceBytes (t.buf p1.source) p1.start (p1.start + oipFirst) with
    | none => Res.panic
    | some first_keep =>
      let pieces1 :=
        t.pieces.set startPieceIdx (splitLeftPiece p1 oipFirst first_keep)
      let p2 := getPiece pieces1 endPieceIdx
      match sliceBytes (t.buf p2.source) (p2.start + oipLast)
          (p2.start + oipLast + (p2.length - oipLast)) with
      | none => Res.panic
      | some last_keep =>
        let pieces2 :=
          pieces1.set endPieceIdx (tailPiece p2 oipLast last_keep)
        let drained := endPieceIdx > startPieceIdx + 1
        let pieces3 :=
          if drained then pieces2.take (startPieceIdx + 1) ++ pieces2.drop endPieceIdx
          else pieces2
        let endIdx := if drained then startPieceIdx + 1 else endPieceIdx
        let toRemove1 : List Nat :=
          if (getPiece pieces3 endIdx).length = 0 ∧ endIdx < pieces3.length then [endIdx] else []
        let toRemove2 : List Nat :=
          if (getPiece pieces3 startPieceIdx).length = 0 ∧ startPieceIdx < pieces3.length
              ∧ startPieceIdx ≠ endIdx then
            toRemove1 ++ [startPieceIdx]
          else toRemove1
        let sorted := sortDesc2 toRemove2
        Res.ok { t with pieces := removeIdxs pieces3 sorted }

/-- Inner loop of `Table::offset_to_position` over one piece's text.
`i` is the byte index within the piece (Rust `char_indices`), `curOff`
the absolute offset of the piece's start.  Returns either the early
`Position` or the final `(current_line, last_line_start)` pair (the local
`line_start` is re-initialised at the next piece, so it is not carried). -/
def o2pChars (offset curOff : Nat) :
    Str → Nat → Nat → Nat → Nat → Position ⊕ (Nat × Nat)
  | [], _, line, _, lls => Sum.inr (line, lls)
  | c :: rest, i, line, lineStart, lls =>
    if curOff + i = offset then Sum.inl ⟨line, offset - lineStart⟩
    else if c = '\n' then
      o2pChars offset curOff rest (i + c.utf8Size) (line + 1) (curOff + i + 1) (curOff + i + 1)
    else o2pChars offset curOff rest (i + c.utf8Size) line lineStart lls

/-- Outer loop of `Table::offset_to_position` over the piece list,
carrying `current_line`, `current_offset` and `last_line_start`.  The
final `offset - last_line_start` is a `usize` subtraction in the source;
it underflows (a panic in debug builds) when `last_line_start > offset`,
which the model renders as `none`. -/
def o2pPieces (t : Table) (offset : Nat) :
    List Piece → Nat → Nat → Nat → Option Position
  | [], line, _, lls =>
    if lls ≤ offset then some ⟨line, offset - lls⟩ else none
  | p :: rest, line, curOff, lls =>
    match pieceText t p with
    | none => none
    | some piece_txt =>
      match o2pChars offset curOff piece_txt 0 line curOff lls with
      | Sum.inl pos => some pos
      | Sum.inr (line', lls') => o2pPieces t offset rest line' (curOff + p.length) lls'

/-- Model of `Table::offset_to_position` (`none` models the panic of an
out-of-bounds or non-boundary internal slice). -/
def Table.offset_to_position (t : Table) (offset : Nat) : Option Position :=
  if offset > t.total_length then some ⟨0, 0⟩
  else o2pPieces t offset t.pieces 0 0 0

/-- Inner loop of `Table::position_to_offset` over one piece's text,
carrying `(current_line, current_column, offset)`; returns either the
early offset or the final state. -/
def p2oChars (pos : Position) :
    Str → Nat → Nat → Nat → Nat ⊕ (Nat × Nat × Nat)
  | [], line, col, off => Sum.inr (line, col, off)
  | c :: rest, line, col, off =>
    if line = pos.line ∧ col = pos.column then Sum.inl off
    else if c = '\n' then p2oChars pos rest (line + 1) 0 (off + c.utf8Size)
    else p2oChars pos rest line (col + 1) (off + c.utf8Size)

/-- Outer loop of `Table::position_to_offset` over the piece list. -/
def p2oPieces (t : Table) (pos : Position) :
    List Piece → Nat → Nat → Nat → Option Nat
  | [], _, _, _ => some t.total_length
  | p :: rest, line, col, off =>
    match pieceText t p with
    | none => none
    | some piece_txt =>
      match p2oChars pos piece_txt line col off with
      | Sum.inl o => some o
      | Sum.inr (line', col', off') => p2oPieces t pos rest line' col' off'

/-- Model of `Table::position_to_offset`. -/
def Table.position_to_offset (t : Table) (pos : Position) : Option Nat :=
  p2oPieces t pos t.pieces 0 0 0

/-- Model of `Table::delete`. -/
def Table.delete (t : Table) (start length : Nat) : Res :=
  if start + length > t.total_length then Res.err t
  else
    let e := start + length
    let startPieceIdx := t.find_piece_containing_offset start
    let endPieceIdx := t.find_piece_containing_offset e
    match t.count_line_breaks_in_range start e with
    | none => Res.panic
    | some deletedLines =>
      match
        (if startPieceIdx = endPieceIdx then t.delete_within_piece startPieceIdx start e
         else t.delete_across_pieces startPieceIdx endPieceIdx start e) with
      | Res.panic => Res.panic
      | Res.err t' => Res.err t'
      | Res.ok t1 =>
        let t2 : Table :=
          { t1 with
              total_length := t1.total_length - length
              total_lines := t1.total_lines - deletedLines }
        let t3 : Table := if t2.pieces = [] then { t2 with total_lines := 1 } else t2
        if t3.pieces = [] then Res.ok t3
        else Res.ok (t3.coalesce_pieces_around startPieceIdx)

/-! ### Byte-level algebra for `byteLen`, `byteDrop`, `byteTake`, `sliceBytes` -/

theorem byteLen_nil : byteLen ([] : Str) = 0 := rfl

theorem byteLen_cons (c : Char) (s : Str) : byteLen (c :: s) = c.utf8Size + byteLen s := by
  simp [byteLen]

theorem byteLen_append (s u : Str) : byteLen (s ++ u) = byteLen s + byteLen u := by
  simp [byteLen]

theorem count_line_breaks_append (s u : Str) :
    count_line_breaks (s ++ u) = count_line_breaks s + count_line_breaks u := by
  simp [count_line_breaks]

theorem byteLen_eq_zero {s : Str} (h : byteLen s = 0) : s = [] := by
  cases s with
  | nil => rfl
  | cons c rest =>
    rw [byteLen_cons] at h
    have := c.utf8Size_pos
    omega

theorem byteDrop_zero (s : Str) : byteDrop 0 s = some s := by cases s <;> rfl

theorem byteTake_zero (s : Str) : byteTake 0 s = some [] := by cases s <;> rfl

theorem byteDrop_cons_add (c : Char) (s : Str) (n : Nat) :
    byteDrop (c.utf8Size + n) (c :: s) = byteDrop n s := by
  have hpos := c.utf8Size_pos
  obtain ⟨m, hm⟩ : ∃ m, c.utf8Size + n = m + 1 := ⟨c.utf8Size + n - 1, by omega⟩
  rw [hm]
  show (if c.utf8Size ≤ m + 1 then byteDrop (m + 1 - c.utf8Size) s else none) = byteDrop n s
  rw [if_pos (by omega)]
  congr 1
  omega

theorem byteTake_cons_add (c : Char) (s : Str) (n : Nat) :
    byteTake (c.utf8Size + n) (c :: s) = (byteTake n s).map (c :: ·) := by
  have hpos := c.utf8Size_pos
  obtain ⟨m, hm⟩ : ∃ m, c.utf8Size + n = m + 1 := ⟨c.utf8Size + n - 1, by omega⟩
  rw [hm]
  show (if c.utf8Size ≤ m + 1 then (byteTake (m + 1 - c.utf8Size) s).map (c :: ·) else none)
      = (byteTake n s).map (c :: ·)
  rw [if_pos (by omega)]
  congr 2
  omega

theorem byteDrop_cons_small {c : Char} {n : Nat} (s : Str) (h1 : 0 < n) (h2 : n < c.utf8Size) :
    byteDrop n (c :: s) = none := by
  obtain ⟨m, hm⟩ : ∃ m, n = m + 1 := ⟨n - 1, by omega⟩
  rw [hm]
  show (if c.utf8Size ≤ m + 1 then byteDrop (m + 1 - c.utf8Size) s else none) = none
  rw [if_neg (by omega)]

theorem byteTake_cons_small {c : Char} {n : Nat} (s : Str) (h1 : 0 < n) (h2 : n < c.utf8Size) :
    byteTake n (c :: s) = none := by
  obtain ⟨m, hm⟩ : ∃ m, n = m + 1 := ⟨n - 1, by omega⟩
  rw [hm]
  show (if c.utf8Size ≤ m + 1 then (byteTake (m + 1 - c.utf8Size) s).map (c :: ·) else none) = none
  rw [if_neg (by omega)]

theorem byteDrop_byteLen_append (p u : Str) : byteDrop (byteLen p) (p ++ u) = some u := by
  induction p with
  | nil => simp [byteLen_nil, byteDrop_zero]
  | cons c rest ih =>
    rw [byteLen_cons, List.cons_append, byteDrop_cons_add]
    exact ih

theorem byteTake_byteLen_append (p u : Str) : byteTake (byteLen p) (p ++ u) = some p := by
  induction p with
  | nil => simp [byteLen_nil, byteTake_zero]
  | cons c rest ih =>
    rw [byteLen_cons, List.cons_append, byteTake_cons_add, ih]
    rfl

theorem byteDrop_eq_some_iff {n : Nat} {s u : Str} :
    byteDrop n s = some u ↔ ∃ p, s = p ++ u ∧ byteLen p = n := by
  constructor
  · intro h
    induction s generalizing n with
    | nil =>
      cases n with
      | zero =>
        rw [byteDrop_zero] at h
        cases h
        exact ⟨[], rfl, byteLen_nil⟩
      | succ m => exact absurd h (by simp [byteDrop])
    | cons c rest ih =>
      cases Nat.eq_zero_or_pos n with
      | inl h0 =>
        subst h0
        rw [byteDrop_zero] at h
        cases h
        exact ⟨[], rfl, byteLen_nil⟩
      | inr hpos =>
        by_cases hle : c.utf8Size ≤ n
        · obtain ⟨m, hm⟩ : ∃ m, n = c.utf8Size + m := ⟨n - c.utf8Size, by omega⟩
          subst hm
          rw [byteDrop_cons_add] at h
          obtain ⟨p, hp, hlen⟩ := ih h
          exact ⟨c :: p, by simp [hp], by rw [byteLen_cons, hlen]⟩
        · rw [byteDrop_cons_small rest hpos (by omega)] at h
          cases h
  · rintro ⟨p, rfl, rfl⟩
    exact byteDrop_byteLen_append p u

theorem byteTake_eq_some_iff {n : Nat} {s u : Str} :
    byteTake n s = some u ↔ ∃ v, s = u ++ v ∧ byteLen u = n := by
  constructor
  · intro h
    induction s generalizing n u with
    | nil =>
      cases n with
      | zero =>
        rw [byteTake_zero] at h
        cases h
        exact ⟨[], rfl, byteLen_nil⟩
      | succ m => exact absurd h (by simp [byteTake])
    | cons c rest ih =>
      cases Nat.eq_zero_or_pos n with
      | inl h0 =>
        subst h0
        rw [byteTake_zero] at h
        cases h
        exact ⟨c :: rest, rfl, byteLen_nil⟩
      | inr hpos =>
        by_cases hle : c.utf8Size ≤ n
        · obtain ⟨m, hm⟩ : ∃ m, n = c.utf8Size + m := ⟨n - c.utf8Size, by omega⟩
          subst hm
          rw [byteTake_cons_add] at h
          cases hu : byteTake m rest with
          | none => rw [hu] at h; cases h
          | some w =>
            rw [hu] at h
            cases h
            obtain ⟨v, hv, hlen⟩ := ih hu
            exact ⟨v, by simp [hv], by rw [byteLen_cons, hlen]⟩
        · rw [byteTake_cons_small rest hpos (by omega)] at h
          cases h
  · rintro ⟨v, rfl, rfl⟩
    exact byteTake_byteLen_append u v

theorem byteDrop_isSome_of_take {n : Nat} {s u : Str} (h : byteTake n s = some u) :
    ∃ v, byteDrop n s = some v ∧ s = u ++ v := by
  obtain ⟨v, rfl, rfl⟩ := byteTake_eq_some_iff.mp h
  exact ⟨v, byteDrop_byteLen_append u v, rfl⟩

theorem sliceBytes_eq_some_iff {s : Str} {a b : Nat} {u : Str} :
    sliceBytes s a b = some u ↔
      a ≤ b ∧ byteLen u = b - a ∧ ∃ p q, s = p ++ u ++ q ∧ byteLen p = a := by
  unfold sliceBytes
  by_cases hab : a > b
  · simp only [if_pos hab]
    constructor
    · intro h; cases h
    · rintro ⟨hle, -⟩; omega
  · simp only [if_neg hab]
    constructor
    · intro h
      cases hd : byteDrop a s with
      | none => rw [hd] at h; cases h
      | some r =>
        rw [hd] at h
        simp only [Option.some_bind] at h
        obtain ⟨p, hp, hpl⟩ := byteDrop_eq_some_iff.mp hd
        obtain ⟨q, hq, hul⟩ := byteTake_eq_some_iff.mp h
        exact ⟨by omega, by omega, p, q, by rw [hp, hq, List.append_assoc], hpl⟩
    · rintro ⟨hle, hul, p, q, rfl, hpl⟩
      rw [List.append_assoc] at *
      rw [show a = byteLen p from hpl.symm, byteDrop_byteLen_append]
      simp only [Option.some_bind]
      rw [show b - byteLen p = byteLen u by omega]
      exact byteTake_byteLen_append u q

theorem sliceBytes_byteLen {s : Str} {a b : Nat} {u : Str} (h : sliceBytes s a b = some u) :
    byteLen u = b - a :=
  (sliceBytes_eq_some_iff.mp h).2.1

theorem sliceBytes_full (s : Str) : sliceBytes s 0 (byteLen s) = some s := by
  rw [sliceBytes_eq_some_iff]
  exact ⟨Nat.zero_le _, by omega, [], [], by simp, byteLen_nil⟩

theorem sliceBytes_extend {s ext : Str} {a b : Nat} {u : Str} (h : sliceBytes s a b = some u) :
    sliceBytes (s ++ ext) a b = some u := by
  rw [sliceBytes_eq_some_iff] at h ⊢
  obtain ⟨hle, hul, p, q, rfl, hpl⟩ := h
  exact ⟨hle, hul, p, q ++ ext, by simp, hpl⟩

theorem IsBoundary_iff {s : Str} {n : Nat} :
    IsBoundary s n ↔ ∃ p q, s = p ++ q ∧ byteLen p = n := by
  unfold IsBoundary
  rw [Option.isSome_iff_exists]
  constructor
  · rintro ⟨q, hq⟩
    obtain ⟨p, hp, hpl⟩ := byteDrop_eq_some_iff.mp hq
    exact ⟨p, q, hp, hpl⟩
  · rintro ⟨p, q, rfl, rfl⟩
    exact ⟨q, byteDrop_byteLen_append p q⟩

theorem append_prefix_of_byteLen_le {p q p' q' : Str}
    (h : p ++ q = p' ++ q') (hl : byteLen p ≤ byteLen p') :
    ∃ mid, p' = p ++ mid ∧ mid ++ q' = q := by
  induction p generalizing p' with
  | nil => exact ⟨p', rfl, by simpa using h.symm⟩
  | cons c rest ih =>
    cases p' with
    | nil =>
      exfalso
      rw [byteLen_cons, byteLen_nil] at hl
      have := c.utf8Size_pos
      omega
    | cons c' rest' =>
      have hcc : c = c' := by simpa using congrArg (fun l => l.head?) h
      subst hcc
      have htail : rest ++ q = rest' ++ q' := by simpa using congrArg List.tail h
      rw [byteLen_cons, byteLen_cons] at hl
      obtain ⟨mid, h1, h2⟩ := ih htail (by omega)
      exact ⟨mid, by rw [h1, List.cons_append], h2⟩

theorem append_eq_of_byteLen_eq {p q p' q' : Str}
    (h : p ++ q = p' ++ q') (hl : byteLen p = byteLen p') : p = p' ∧ q = q' := by
  obtain ⟨mid, h1, h2⟩ := append_prefix_of_byteLen_le h hl.le
  have : byteLen mid = 0 := by
    have := congrArg byteLen h1
    rw [byteLen_append] at this
    omega
  rw [byteLen_eq_zero this] at h1 h2
  exact ⟨by simpa using h1.symm, by simpa using h2.symm⟩

theorem sliceBytes_isSome_of_boundaries {s : Str} {a b : Nat}
    (ha : IsBoundary s a) (hb : IsBoundary s b) (hab : a ≤ b) :
    ∃ u, sliceBytes s a b = some u := by
  obtain ⟨p, q, rfl, hpl⟩ := IsBoundary_iff.mp ha
  obtain ⟨p', q', hs, hpl'⟩ := IsBoundary_iff.mp hb
  obtain ⟨mid, h1, h2⟩ := append_prefix_of_byteLen_le hs (by omega)
  refine ⟨mid, sliceBytes_eq_some_iff.mpr ⟨hab, ?_, p, q', ?_, hpl⟩⟩
  · have := congrArg byteLen h1
    rw [byteLen_append] at this
    omega
  · rw [← h2, ← List.append_assoc]

theorem boundary_of_sliceBytes_left {s : Str} {a b : Nat} {u : Str}
    (h : sliceBytes s a b = some u) : IsBoundary s a := by
  obtain ⟨-, -, p, q, hs, hpl⟩ := sliceBytes_eq_some_iff.mp h
  exact IsBoundary_iff.mpr ⟨p, u ++ q, by rw [hs, List.append_assoc], hpl⟩

theorem boundary_of_sliceBytes_right {s : Str} {a b : Nat} {u : Str}
    (h : sliceBytes s a b = some u) : IsBoundary s b := by
  obtain ⟨hle, hul, p, q, hs, hpl⟩ := sliceBytes_eq_some_iff.mp h
  refine IsBoundary_iff.mpr ⟨p ++ u, q, by rw [hs, List.append_assoc], ?_⟩
  rw [byteLen_append]
  omega

theorem sliceBytes_join {s : Str} {a b c : Nat} {u v : Str}
    (h1 : sliceBytes s a b = some u) (h2 : sliceBytes s b c = some v) :
    sliceBytes s a c = some (u ++ v) := by
  rw [sliceBytes_eq_some_iff] at h1 h2 ⊢
  obtain ⟨hab, hul, p, q, hs, hpl⟩ := h1
  obtain ⟨hbc, hvl, p', q', hs', hpl'⟩ := h2
  have h3 : (p ++ u) ++ q = p' ++ (v ++ q') := by
    rw [← List.append_assoc, ← hs, hs', List.append_assoc]
  have hpp := append_eq_of_byteLen_eq h3 (by rw [byteLen_append]; omega)
  refine ⟨by omega, by rw [byteLen_append]; omega, p, q', ?_, hpl⟩
  rw [List.append_assoc, List.append_assoc, ← hpp.2, ← List.append_assoc, ← hs]

theorem sliceBytes_split {s : Str} {a b c : Nat} {w : Str}
    (h : sliceBytes s a c = some w) (hb : IsBoundary s b) (hab : a ≤ b) (hbc : b ≤ c) :
    ∃ u v, sliceBytes s a b = some u ∧ sliceBytes s b c = some v ∧ w = u ++ v := by
  obtain ⟨u, hu⟩ :=
    sliceBytes_isSome_of_boundaries (boundary_of_sliceBytes_left h) hb hab
  obtain ⟨v, hv⟩ :=
    sliceBytes_isSome_of_boundaries hb (boundary_of_sliceBytes_right h) hbc
  have := sliceBytes_join hu hv
  rw [h] at this
  cases this
  exact ⟨u, v, hu, hv, rfl⟩

theorem sliceBytes_sub_some {src ptext u : Str} {st len x y : Nat}
    (h : sliceBytes src st (st + len) = some ptext)
    (hsl : sliceBytes ptext x y = some u) :
    sliceBytes src (st + x) (st + y) = some u := by
  obtain ⟨-, hpl, p, q, rfl, hplen⟩ := sliceBytes_eq_some_iff.mp h
  obtain ⟨hxy, hul, p', q', hp, hpl'⟩ := sliceBytes_eq_some_iff.mp hsl
  refine sliceBytes_eq_some_iff.mpr ⟨by omega, by omega, p ++ p', q' ++ q, ?_, ?_⟩
  · rw [hp]; simp
  · rw [byteLen_append]; omega

theorem boundary_sub {src ptext : Str} {st len x : Nat}
    (h : sliceBytes src st (st + len) = some ptext)
    (hx : IsBoundary src (st + x)) (hxle : x ≤ len) : IsBoundary ptext x := by
  obtain ⟨-, hpl, p, q, hsrc, hplen⟩ := sliceBytes_eq_some_iff.mp h
  obtain ⟨pp, qq, hs, hppl⟩ := IsBoundary_iff.mp hx
  have hs2 : p ++ (ptext ++ q) = pp ++ qq := by
    rw [← hs, hsrc, List.append_assoc]
  obtain ⟨mid, h1, h2⟩ := append_prefix_of_byteLen_le hs2 (by omega)
  have hmid : byteLen mid = x := by
    have := congrArg byteLen h1
    rw [byteLen_append] at this
    omega
  obtain ⟨mid2, h3, h4⟩ := append_prefix_of_byteLen_le h2 (by omega)
  exact IsBoundary_iff.mpr ⟨mid, mid2, h3, hmid⟩

theorem boundary_sub_rev {src ptext : Str} {st len x : Nat}
    (h : sliceBytes src st (st + len) = some ptext)
    (hx : IsBoundary ptext x) : IsBoundary src (st + x) := by
  obtain ⟨-, hpl, p, q, rfl, hplen⟩ := sliceBytes_eq_some_iff.mp h
  obtain ⟨u, v, rfl, hul⟩ := IsBoundary_iff.mp hx
  refine IsBoundary_iff.mpr ⟨p ++ u, v ++ q, by simp, ?_⟩
  rw [byteLen_append]
  omega

/-! ### Well-formedness invariant and document decomposition -/

/-- Well-formedness of a table: every piece denotes a valid slice of its
backing buffer whose cached line-break count is accurate, and the totals
agree with the piece list.  `Table.new` establishes it and every successful
operation preserves it. -/
structure Inv (t : Table) : Prop where
  valid : ∀ p ∈ t.pieces, ∃ s, pieceText t p = some s ∧ p.line_breaks = count_line_breaks s
  tl : t.total_length = sumLen t.pieces
  lines : t.total_lines = 1 + sumBreaks t.pieces

theorem pieceText_eq_some {t : Table} (hInv : Inv t) {p : Piece} (hp : p ∈ t.pieces) :
    pieceText t p = some (pieceTextD t p) := by
  obtain ⟨s, hs, -⟩ := hInv.valid p hp
  rw [pieceTextD, hs]
  rfl

theorem byteLen_pieceTextD {t : Table} (hInv : Inv t) {p : Piece} (hp : p ∈ t.pieces) :
    byteLen (pieceTextD t p) = p.length := by
  have h := pieceText_eq_some hInv hp
  have := sliceBytes_byteLen (h ▸ rfl : pieceText t p = some (pieceTextD t p))
  unfold pieceText at h
  have := sliceBytes_byteLen h
  omega

theorem breaks_pieceTextD {t : Table} (hInv : Inv t) {p : Piece} (hp : p ∈ t.pieces) :
    p.line_breaks = count_line_breaks (pieceTextD t p) := by
  obtain ⟨s, hs, hb⟩ := hInv.valid p hp
  rw [pieceTextD, hs]
  exact hb

/-- Concatenation of the texts of a list of pieces of table `t`. -/
def flatTexts (t : Table) (l : List Piece) : Str := (l.map (pieceTextD t)).flatten

theorem docText_eq_flatTexts (t : Table) : docText t = flatTexts t t.pieces := rfl

theorem flatTexts_nil (t : Table) : flatTexts t [] = [] := rfl

theorem flatTexts_cons (t : Table) (p : Piece) (l : List Piece) :
    flatTexts t (p :: l) = pieceTextD t p ++ flatTexts t l := by
  simp [flatTexts]

theorem flatTexts_append (t : Table) (l1 l2 : List Piece) :
    flatTexts t (l1 ++ l2) = flatTexts t l1 ++ flatTexts t l2 := by
  simp [flatTexts]

theorem sumLen_nil : sumLen [] = 0 := rfl

theorem sumLen_cons (p : Piece) (l : List Piece) : sumLen (p :: l) = p.length + sumLen l := by
  simp [sumLen]

theorem sumLen_append (l1 l2 : List Piece) : sumLen (l1 ++ l2) = sumLen l1 + sumLen l2 := by
  simp [sumLen]

theorem sumBreaks_nil : sumBreaks [] = 0 := rfl

theorem sumBreaks_cons (p : Piece) (l : List Piece) :
    sumBreaks (p :: l) = p.line_breaks + sumBreaks l := by
  simp [sumBreaks]

theorem sumBreaks_append (l1 l2 : List Piece) :
    sumBreaks (l1 ++ l2) = sumBreaks l1 + sumBreaks l2 := by
  simp [sumBreaks]

theorem byteLen_flatTexts {t : Table} {l : List Piece}
    (h : ∀ p ∈ l, byteLen (pieceTextD t p) = p.length) :
    byteLen (flatTexts t l) = sumLen l := by
  induction l with
  | nil => rfl
  | cons p rest ih =>
    rw [flatTexts_cons, byteLen_append, sumLen_cons, h p (List.mem_cons_self p rest),
      ih (fun q hq => h q (List.mem_cons_of_mem p hq))]

theorem count_flatTexts {t : Table} {l : List Piece}
    (h : ∀ p ∈ l, p.line_breaks = count_line_breaks (pieceTextD t p)) :
    count_line_breaks (flatTexts t l) = sumBreaks l := by
  induction l with
  | nil => rfl
  | cons p rest ih =>
    rw [flatTexts_cons, count_line_breaks_append, sumBreaks_cons,
      ← h p (List.mem_cons_self p rest), ih (fun q hq => h q (List.mem_cons_of_mem p hq))]

theorem byteLen_docText {t : Table} (hInv : Inv t) : byteLen (docText t) = t.total_length := by
  rw [docText_eq_flatTexts, byteLen_flatTexts (fun p hp => byteLen_pieceTextD hInv hp), hInv.tl]

theorem count_docText {t : Table} (hInv : Inv t) :
    count_line_breaks (docText t) = sumBreaks t.pieces := by
  rw [docText_eq_flatTexts, count_flatTexts (fun p hp => breaks_pieceTextD hInv hp)]

theorem getPiece_mem {l : List Piece} {i : Nat} (h : i < l.length) : getPiece l i ∈ l := by
  rw [getPiece, List.getD_eq_getElem l _ h]
  exact List.getElem_mem h

theorem getPiece_cons_succ (p : Piece) (l : List Piece) (i : Nat) :
    getPiece (p :: l) (i + 1) = getPiece l i := by
  simp [getPiece, List.getD]

theorem getPiece_cons_zero (p : Piece) (l : List Piece) : getPiece (p :: l) 0 = p := rfl

theorem getPiece_append_left {A : List Piece} (B : List Piece) {i : Nat} (h : i < A.length) :
    getPiece (A ++ B) i = getPiece A i := by
  unfold getPiece
  exact List.getD_append _ _ _ _ h

theorem getPiece_append_right (A : List Piece) (B : List Piece) {i : Nat} (h : A.length ≤ i) :
    getPiece (A ++ B) i = getPiece B (i - A.length) := by
  unfold getPiece
  simp [List.getD, List.getElem?_append_right h]

theorem pieces_decomp {l : List Piece} {i : Nat} (h : i < l.length) :
    l = l.take i ++ getPiece l i :: l.drop (i + 1) := by
  rw [getPiece, List.getD_eq_getElem l _ h, ← List.drop_eq_getElem_cons h,
    List.take_append_drop]

theorem sumLen_take_succ {l : List Piece} {i : Nat} (h : i < l.length) :
    sumLen (l.take (i + 1)) = sumLen (l.take i) + (getPiece l i).length := by
  rw [← List.take_concat_get' l i h, sumLen_append, getPiece, List.getD_eq_getElem l _ h]
  simp [sumLen]

theorem sumLen_take_mono (l : List Piece) {k j : Nat} (h : k ≤ j) :
    sumLen (l.take k) ≤ sumLen (l.take j) := by
  conv_rhs => rw [← List.take_append_drop k (l.take j)]
  rw [sumLen_append, List.take_take, Nat.min_eq_left h]
  omega

/-! ### Specification of `find_piece_containing_offset` -/

theorem findLoop_spec :
    ∀ (ps : List Piece) (offset cur idx : Nat),
      cur ≤ offset → offset < cur + sumLen ps →
      ∃ j, j < ps.length ∧ findLoop offset ps cur idx = idx + j ∧
        cur + sumLen (ps.take j) ≤ offset ∧
        offset < cur + sumLen (ps.take j) + (getPiece ps j).length ∧
        ∀ j' < j, cur + sumLen (ps.take j') + (getPiece ps j').length ≤ offset := by
  intro ps
  induction ps with
  | nil =>
    intro offset cur idx h1 h2
    rw [sumLen_nil] at h2
    omega
  | cons p rest ih =>
    intro offset cur idx h1 h2
    by_cases hc : cur + p.length > offset
    · refine ⟨0, Nat.succ_pos _, ?_, ?_, ?_, ?_⟩
      · simp [findLoop, hc]
      · simpa [sumLen_nil] using h1
      · simpa [sumLen_nil, getPiece_cons_zero] using hc
      · omega
    · push_neg at hc
      rw [sumLen_cons] at h2
      obtain ⟨j, hj1, hj2, hj3, hj4, hj5⟩ :=
        ih offset (cur + p.length) (idx + 1) hc (by omega)
      refine ⟨j + 1, by simpa using hj1, ?_, ?_, ?_, ?_⟩
      · rw [findLoop, if_neg (by omega)]
        rw [hj2]
        omega
      · rw [List.take_succ_cons, sumLen_cons]
        omega
      · rw [List.take_succ_cons, sumLen_cons, getPiece_cons_succ]
        omega
      · intro j' hj'
        cases j' with
        | zero => simpa [sumLen_nil, getPiece_cons_zero] using hc
        | succ j'' =>
          rw [List.take_succ_cons, sumLen_cons, getPiece_cons_succ]
          have := hj5 j'' (by omega)
          omega

theorem find_spec_lt {t : Table} (hInv : Inv t) {offset : Nat} (h : offset < t.total_length) :
    t.find_piece_containing_offset offset < t.pieces.length ∧
    t.get_piece_start_offset (t.find_piece_containing_offset offset) ≤ offset ∧
    offset < t.get_piece_start_offset (t.find_piece_containing_offset offset)
      + (getPiece t.pieces (t.find_piece_containing_offset offset)).length ∧
    ∀ j' < t.find_piece_containing_offset offset,
      t.get_piece_start_offset j' + (getPiece t.pieces j').length ≤ offset := by
  have hne : ¬(offset > 0 ∧ offset = t.total_length) := by omega
  rw [Table.find_piece_containing_offset, if_neg hne]
  obtain ⟨j, hj1, hj2, hj3, hj4, hj5⟩ :=
    findLoop_spec t.pieces offset 0 0 (Nat.zero_le _) (by rw [← hInv.tl]; omega)
  rw [hj2]
  simp only [Nat.zero_add] at *
  exact ⟨hj1, hj3, hj4, fun j' hj' => hj5 j' hj'⟩

theorem find_eq_last {t : Table} {offset : Nat} (h1 : 0 < offset) (h2 : offset = t.total_length) :
    t.find_piece_containing_offset offset = t.pieces.length - 1 := by
  rw [Table.find_piece_containing_offset, if_pos ⟨h1, h2⟩]

theorem findLoop_all_zero :
    ∀ (ps : List Piece) (idx : Nat), sumLen ps = 0 → findLoop 0 ps 0 idx = idx + ps.length := by
  intro ps
  induction ps with
  | nil => intro idx _; rfl
  | cons p rest ih =>
    intro idx h
    rw [sumLen_cons] at h
    show (if 0 + p.length > 0 then idx else findLoop 0 rest (0 + p.length) (idx + 1))
        = idx + (p :: rest).length
    rw [if_neg (by omega), show 0 + p.length = 0 by omega, ih (idx + 1) (by omega),
      List.length_cons]
    omega

theorem find_tl_zero {t : Table} (hInv : Inv t) (h : t.total_length = 0) :
    t.find_piece_containing_offset 0 = t.pieces.length := by
  rw [Table.find_piece_containing_offset, if_neg (by omega)]
  simpa using findLoop_all_zero t.pieces 0 (by rw [← hInv.tl]; omega)

/-- On a well-formed table, an offset that is the total byte length of a
prefix of the piece list and is below the total length is located at the
first subsequent piece of non-zero length, whose start offset equals it. -/
theorem find_at_boundary {t : Table} (hInv : Inv t) {k : Nat} (hk : k ≤ t.pieces.length)
    (hlt : sumLen (t.pieces.take k) < t.total_length) :
    k ≤ t.find_piece_containing_offset (sumLen (t.pieces.take k)) ∧
    t.get_piece_start_offset (t.find_piece_containing_offset (sumLen (t.pieces.take k)))
      = sumLen (t.pieces.take k) ∧
    flatTexts t (t.pieces.drop (t.find_piece_containing_offset (sumLen (t.pieces.take k))))
      = flatTexts t (t.pieces.drop k) := by
  set o := sumLen (t.pieces.take k) with ho
  obtain ⟨hj1, hj2, hj3, hj4⟩ := find_spec_lt hInv hlt
  set j := t.find_piece_containing_offset o with hjdef
  have hkj : k ≤ j := by
    by_contra hkj
    push_neg at hkj
    have h1 : sumLen (t.pieces.take (j + 1)) ≤ o := by
      rw [ho]
      exact sumLen_take_mono t.pieces (by omega)
    rw [sumLen_take_succ hj1] at h1
    rw [Table.get_piece_start_offset] at hj3
    omega
  have heq : t.get_piece_start_offset j = o := by
    have := sumLen_take_mono t.pieces hkj
    rw [Table.get_piece_start_offset] at hj2 ⊢
    omega
  refine ⟨hkj, heq, ?_⟩
  -- the skipped pieces all have zero length, hence empty text
  have hdrop : ∀ n m, k ≤ m → m ≤ j → j - m = n → sumLen (t.pieces.take m) = o →
      flatTexts t (t.pieces.drop m) = flatTexts t (t.pieces.drop j) := by
    intro n
    induction n with
    | zero =>
      intro m _ hmj hn _
      have : m = j := by omega
      rw [this]
    | succ n ihn =>
      intro m hkm hmj hn hms
      have hmlt : m < j := by omega
      have hmlen : m < t.pieces.length := by omega
      have hzero : (getPiece t.pieces m).length = 0 := by
        have := hj4 m hmlt
        have h1 : sumLen (t.pieces.take m) ≤ sumLen (t.pieces.take j) :=
          sumLen_take_mono _ (by omega)
        rw [Table.get_piece_start_offset] at this
        rw [Table.get_piece_start_offset] at heq
        omega
      have hstep : sumLen (t.pieces.take (m + 1)) = o := by
        rw [sumLen_take_succ hmlen, hzero]
        omega
      have hempty : pieceTextD t (getPiece t.pieces m) = [] := by
        apply byteLen_eq_zero
        rw [byteLen_pieceTextD hInv (getPiece_mem hmlen), hzero]
      calc flatTexts t (t.pieces.drop m)
          = flatTexts t (getPiece t.pieces m :: t.pieces.drop (m + 1)) := by
            rw [getPiece, List.getD_eq_getElem _ _ hmlen, ← List.drop_eq_getElem_cons hmlen]
        _ = flatTexts t (t.pieces.drop (m + 1)) := by rw [flatTexts_cons, hempty]; rfl
        _ = flatTexts t (t.pieces.drop j) := ihn (m + 1) (by omega) (by omega) (by omega) hstep
  exact (hdrop (j - k) k (le_refl k) hkj rfl ho.symm).symm

/-! ### Correctness of `get_text` against byte slicing of the document -/

theorem sliceBytes_append_mid (F1 mid F2 : Str) :
    sliceBytes (F1 ++ mid ++ F2) (byteLen F1) (byteLen F1 + byteLen mid) = some mid := by
  refine sliceBytes_eq_some_iff.mpr ⟨by omega, by omega, F1, F2, by rw [List.append_assoc], rfl⟩

theorem slice_flat_mid (F1 : Str) {mid : Str} (F2 : Str) {x y : Nat} {u : Str}
    (hs : sliceBytes mid x y = some u) :
    sliceBytes (F1 ++ mid ++ F2) (byteLen F1 + x) (byteLen F1 + y) = some u := by
  obtain ⟨hxy, hul, p', q', hp, hpl⟩ := sliceBytes_eq_some_iff.mp hs
  refine sliceBytes_eq_some_iff.mpr ⟨by omega, by omega, F1 ++ p', q' ++ F2, ?_, ?_⟩
  · rw [hp]; simp
  · rw [byteLen_append]; omega

theorem slice_of_flat_mid (F1 : Str) {mid : Str} (F2 : Str) {x y : Nat} {u : Str}
    (h : sliceBytes (F1 ++ mid ++ F2) (byteLen F1 + x) (byteLen F1 + y) = some u)
    (hy : y ≤ byteLen mid) :
    sliceBytes mid x y = some u := by
  obtain ⟨hxy, hul, P, Q, hPQ, hPl⟩ := sliceBytes_eq_some_iff.mp h
  rw [List.append_assoc, List.append_assoc] at hPQ
  obtain ⟨m1, h1, h2⟩ := append_prefix_of_byteLen_le hPQ (by omega)
  have hm1l : byteLen m1 = x := by
    have := congrArg byteLen h1
    rw [byteLen_append] at this
    omega
  rw [← List.append_assoc] at h2
  obtain ⟨m2, h3, h4⟩ := append_prefix_of_byteLen_le h2 (by rw [byteLen_append]; omega)
  exact sliceBytes_eq_some_iff.mpr
    ⟨by omega, by omega, m1, m2, by rw [h3, List.append_assoc], hm1l⟩

/-- Decomposition of the document around piece `j`. -/
theorem doc_decomp {t : Table} (hInv : Inv t) {j : Nat} (hj : j < t.pieces.length) :
    docText t = flatTexts t (t.pieces.take j)
      ++ pieceTextD t (getPiece t.pieces j) ++ flatTexts t (t.pieces.drop (j + 1)) ∧
    byteLen (flatTexts t (t.pieces.take j)) = t.get_piece_start_offset j := by
  constructor
  · rw [docText_eq_flatTexts]
    conv_lhs => rw [pieces_decomp hj]
    rw [flatTexts_append, flatTexts_cons, List.append_assoc]
  · rw [Table.get_piece_start_offset]
    exact byteLen_flatTexts (fun p hp => byteLen_pieceTextD hInv (List.take_subset _ _ hp))

theorem gtLoop_model {t : Table} (hInv : Inv t) :
    ∀ (fuel current endOff : Nat) (acc mid : Str),
      current ≤ endOff → endOff ≤ t.total_length → endOff - current ≤ fuel →
      sliceBytes (docText t) current endOff = some mid →
      gtLoop t endOff fuel current acc = some (acc ++ mid) := by
  intro fuel
  induction fuel with
  | zero =>
    intro current endOff acc mid h1 h2 h3 h4
    have hce : current = endOff := by omega
    subst hce
    have : byteLen mid = 0 := by
      have := sliceBytes_byteLen h4
      omega
    rw [byteLen_eq_zero this]
    simp [gtLoop]
  | succ fuel ih =>
    intro current endOff acc mid h1 h2 h3 h4
    by_cases hce : current ≥ endOff
    · have hce2 : current = endOff := by omega
      subst hce2
      have : byteLen mid = 0 := by
        have := sliceBytes_byteLen h4
        omega
      rw [byteLen_eq_zero this]
      simp [gtLoop]
    · push_neg at hce
      obtain ⟨hj1, hj2, hj3, -⟩ :=
        find_spec_lt hInv (show current < t.total_length by omega)
      set j := t.find_piece_containing_offset current with hjdef
      set piece := getPiece t.pieces j with hpdef
      set pso := t.get_piece_start_offset j with hpsodef
      have hmem : piece ∈ t.pieces := getPiece_mem hj1
      have hpt : pieceText t piece = some (pieceTextD t piece) := pieceText_eq_some hInv hmem
      have hptl : byteLen (pieceTextD t piece) = piece.length := byteLen_pieceTextD hInv hmem
      obtain ⟨hdoc, hflatl⟩ := doc_decomp hInv hj1
      set oip := current - pso with hoipdef
      set available := piece.length - oip with havdef
      set toCopy := min (endOff - current) available with htcdef
      have htc1 : 1 ≤ toCopy := by omega
      have htcb : current + toCopy = pso + (oip + toCopy) := by omega
      -- the split point is a boundary of the document
      have hbsplit : IsBoundary (docText t) (current + toCopy) := by
        by_cases hcase : available ≤ endOff - current
        · have : current + toCopy = pso + piece.length := by omega
          rw [this]
          refine IsBoundary_iff.mpr
            ⟨flatTexts t (t.pieces.take j) ++ pieceTextD t piece,
             flatTexts t (t.pieces.drop (j + 1)), by rw [hdoc, List.append_assoc], ?_⟩
          rw [byteLen_append, hflatl, hptl]
        · have : current + toCopy = endOff := by omega
          rw [this]
          exact boundary_of_sliceBytes_right h4
      obtain ⟨mid1, mid2, hm1, hm2, hmsplit⟩ :=
        sliceBytes_split h4 hbsplit (by omega) (by omega)
      -- convert the first part to a slice of the piece text
      have hinner : sliceBytes (pieceTextD t piece) oip (oip + toCopy) = some mid1 := by
        apply slice_of_flat_mid (flatTexts t (t.pieces.take j))
          (flatTexts t (t.pieces.drop (j + 1)))
        · rw [hflatl, ← hdoc, ← htcb, show pso + oip = current by omega]
          exact hm1
        · omega
      -- evaluate one loop iteration
      show (if current ≥ endOff then some acc
            else if t.find_piece_containing_offset current ≥ t.pieces.length then some acc
            else
              match sliceBytes (t.buf (getPiece t.pieces (t.find_piece_containing_offset current)).source)
                  (getPiece t.pieces (t.find_piece_containing_offset current)).start
                  ((getPiece t.pieces (t.find_piece_containing_offset current)).start
                    + (getPiece t.pieces (t.find_piece_containing_offset current)).length) with
              | none => none
              | some piece_text =>
                match sliceBytes piece_text
                    (current - t.get_piece_start_offset (t.find_piece_containing_offset current))
                    ((current - t.get_piece_start_offset (t.find_piece_containing_offset current))
                      + min (endOff - current)
                          ((getPiece t.pieces (t.find_piece_containing_offset current)).length
                            - (current - t.get_piece_start_offset
                                (t.find_piece_containing_offset current)))) with
                | none => none
                | some copied =>
                  gtLoop t endOff fuel
                    (current + min (endOff - current)
                      ((getPiece t.pieces (t.find_piece_containing_offset current)).length
                        - (current - t.get_piece_start_offset
                            (t.find_piece_containing_offset current))))
                    (acc ++ copied)) = some (acc ++ mid)
      rw [if_neg (by omega), if_neg (by omega)]
      rw [show sliceBytes (t.buf piece.source) piece.start (piece.start + piece.length)
            = some (pieceTextD t piece) from hpt]
      simp only []
      rw [hinner]
      simp only []
      rw [ih (current + toCopy) endOff (acc ++ mid1) mid2 (by omega) h2 (by omega) hm2]
      rw [hmsplit, List.append_assoc]

theorem get_text_model {t : Table} (hInv : Inv t) {a l : Nat} {mid : Str}
    (hal : a + l ≤ t.total_length)
    (h : sliceBytes (docText t) a (a + l) = some mid) :
    t.get_text a l = some mid := by
  rw [Table.get_text, if_neg (by omega)]
  have := gtLoop_model hInv (l + 1) a (a + l) [] mid (by omega) hal (by omega) h
  rw [this]
  rfl

theorem get_text_full {t : Table} (hInv : Inv t) :
    t.get_text 0 t.total_length = some (docText t) := by
  apply get_text_model hInv (by omega)
  have := sliceBytes_full (docText t)
  rw [byteLen_docText hInv] at this
  simpa using this

/-! ### Operations preserve the buffers; the splice model -/

theorem buf_congr {t t' : Table} (ho : t'.original = t.original)
    (ha : t'.add_buffer = t.add_buffer) (src : ID) : t'.buf src = t.buf src := by
  cases src <;> simp [Table.buf, ho, ha]

theorem pieceText_congr {t t' : Table} (ho : t'.original = t.original)
    (ha : t'.add_buffer = t.add_buffer) (p : Piece) : pieceText t' p = pieceText t p := by
  rw [pieceText, pieceText, buf_congr ho ha]

theorem pieceTextD_congr {t t' : Table} (ho : t'.original = t.original)
    (ha : t'.add_buffer = t.add_buffer) (p : Piece) : pieceTextD t' p = pieceTextD t p := by
  rw [pieceTextD, pieceTextD, pieceText_congr ho ha]

theorem flatTexts_congr {t t' : Table} (ho : t'.original = t.original)
    (ha : t'.add_buffer = t.add_buffer) (l : List Piece) : flatTexts t' l = flatTexts t l := by
  unfold flatTexts
  rw [List.map_congr_left (fun p _ => pieceTextD_congr ho ha p)]

theorem pieceText_extend_add {t : Table} (text : Str) {p : Piece} {s : Str}
    (h : pieceText t p = some s) :
    pieceText { t with add_buffer := t.add_buffer ++ text } p = some s := by
  rw [pieceText] at h ⊢
  cases hs : p.source with
  | Original =>
    rw [hs] at h
    simp only [Table.buf] at h ⊢
    exact h
  | Add =>
    rw [hs] at h
    simp only [Table.buf] at h ⊢
    exact sliceBytes_extend h

/-- Plain string splicing for `insert` (the round-trip model of §8). -/
def spliceInsert (s : Str) (o : Nat) (text : Str) : Option Str :=
  match byteTake o s, byteDrop o s with
  | some a, some b => some (a ++ text ++ b)
  | _, _ => none

/-- Plain string splicing for `delete` (the round-trip model of §8). -/
def spliceDelete (s : Str) (a l : Nat) : Option Str :=
  match byteTake a s, byteDrop (a + l) s with
  | some p, some q => some (p ++ q)
  | _, _ => none

/-! ### Coalescing preserves everything observable -/

theorem coalesce_preserves {t : Table} (hInv : Inv t) (i : Nat) :
    Inv (t.coalesce_pieces_around i) ∧
    docText (t.coalesce_pieces_around i) = docText t ∧
    (t.coalesce_pieces_around i).total_length = t.total_length ∧
    (t.coalesce_pieces_around i).total_lines = t.total_lines ∧
    (t.coalesce_pieces_around i).original = t.original ∧
    (t.coalesce_pieces_around i).add_buffer = t.add_buffer := by
  rw [Table.coalesce_pieces_around]
  by_cases hguard : t.pieces.length < 2 ∨ i = 0 ∨ i ≥ t.pieces.length
  · rw [if_pos hguard]
    exact ⟨hInv, rfl, rfl, rfl, rfl, rfl⟩
  · rw [if_neg hguard]
    push_neg at hguard
    obtain ⟨hlen2, hi0, hilen⟩ := hguard
    set prev := getPiece t.pieces (i - 1) with hprev
    set curr := getPiece t.pieces i with hcurr
    by_cases hmerge : prev.source = curr.source ∧ prev.start + prev.length = curr.start
    · rw [if_pos hmerge]
      set merged : Piece :=
        { prev with length := prev.length + curr.length,
                    line_breaks := prev.line_breaks + curr.line_breaks } with hmerged
      -- decompose the piece list around positions i-1 and i
      have hname : t.pieces =
          t.pieces.take (i - 1) ++ prev :: curr :: t.pieces.drop (i + 1) := by
        have h1 := pieces_decomp (show i - 1 < t.pieces.length by omega)
        have h2 := pieces_decomp hilen
        have h3 : t.pieces.drop (i - 1 + 1) = t.pieces.drop i := by
          congr 1
          omega
        rw [h3] at h1
        conv_lhs => rw [h1]
        congr 1
        rw [show t.pieces.drop i = curr :: t.pieces.drop (i + 1) by
          rw [hcurr, getPiece, List.getD_eq_getElem _ _ hilen,
            ← List.drop_eq_getElem_cons hilen]]
      have hAlen : (t.pieces.take (i - 1)).length = i - 1 := by
        rw [List.length_take]
        omega
      -- the mutated list
      have hset : (t.pieces.set (i - 1) merged).eraseIdx i =
          t.pieces.take (i - 1) ++ merged :: t.pieces.drop (i + 1) := by
        conv_lhs => rw [hname]
        rw [List.set_append_right _ _ (by omega), List.eraseIdx_append_of_length_le (by omega)]
        congr 1
        rw [show i - 1 - (t.pieces.take (i - 1)).length = 0 by omega,
          show i - (t.pieces.take (i - 1)).length = 1 by omega]
        rfl
      set t' : Table :=
        { t with pieces := (t.pieces.set (i - 1) merged).eraseIdx i } with ht'
      have hpieces' : t'.pieces = t.pieces.take (i - 1) ++ merged :: t.pieces.drop (i + 1) :=
        hset
      obtain ⟨uprev, hup, hupb⟩ := hInv.valid prev (by rw [hname]; simp)
      obtain ⟨ucurr, hcp, hcpb⟩ := hInv.valid curr (by rw [hname]; simp)
      have hupl : byteLen uprev = prev.length := by
        have := sliceBytes_byteLen hup
        omega
      have hucl : byteLen ucurr = curr.length := by
        have := sliceBytes_byteLen hcp
        omega
      -- the merged piece's text is the concatenation
      have hup' := hup
      have hcp' := hcp
      rw [pieceText] at hup' hcp'
      rw [← hmerge.1, ← hmerge.2] at hcp'
      have hjoin := sliceBytes_join hup' hcp'
      have hmtext : pieceText t merged = some (uprev ++ ucurr) := by
        show sliceBytes (t.buf merged.source) merged.start (merged.start + merged.length)
          = some (uprev ++ ucurr)
        have hfix : merged.start + merged.length = prev.start + prev.length + curr.length := by
          show prev.start + (prev.length + curr.length) = prev.start + prev.length + curr.length
          omega
        rw [hfix]
        exact hjoin
      refine ⟨⟨?_, ?_, ?_⟩, ?_, rfl, rfl, rfl, rfl⟩
      · -- validity of every piece of t'
        intro p hp
        rw [hpieces'] at hp
        have hbufs : pieceText t' p = pieceText t p := pieceText_congr rfl rfl p
        rcases List.mem_append.mp hp with hL | hR
        · obtain ⟨s, hs, hb⟩ := hInv.valid p (List.take_subset _ _ hL)
          exact ⟨s, by rw [hbufs, hs], hb⟩
        · rcases List.mem_cons.mp hR with rfl | hB
          · refine ⟨uprev ++ ucurr, by rw [hbufs, hmtext], ?_⟩
            rw [count_line_breaks_append]
            have : merged.line_breaks = prev.line_breaks + curr.line_breaks := rfl
            rw [this, hupb, hcpb]
          · obtain ⟨s, hs, hb⟩ := hInv.valid p (List.drop_subset _ _ hB)
            exact ⟨s, by rw [hbufs, hs], hb⟩
      · -- total_length
        show t.total_length = sumLen t'.pieces
        rw [hpieces', sumLen_append, sumLen_cons, hInv.tl]
        conv_lhs => rw [hname]
        rw [sumLen_append, sumLen_cons, sumLen_cons]
        have : merged.length = prev.length + curr.length := rfl
        rw [this]
        omega
      · -- total_lines
        show t.total_lines = 1 + sumBreaks t'.pieces
        rw [hpieces', sumBreaks_append, sumBreaks_cons, hInv.lines]
        conv_lhs => rw [hname]
        rw [sumBreaks_append, sumBreaks_cons, sumBreaks_cons]
        have : merged.line_breaks = prev.line_breaks + curr.line_breaks := rfl
        rw [this]
        omega
      · -- document text unchanged
        show docText t' = docText t
        rw [docText_eq_flatTexts, docText_eq_flatTexts, hpieces']
        conv_rhs => rw [hname]
        rw [@flatTexts_congr t t' rfl rfl]
        have hm : pieceTextD t merged = uprev ++ ucurr := by rw [pieceTextD, hmtext]; rfl
        have hpv : pieceTextD t prev = uprev := by rw [pieceTextD, hup]; rfl
        have hcv : pieceTextD t curr = ucurr := by rw [pieceTextD, hcp]; rfl
        simp only [flatTexts_append, flatTexts_cons, hm, hpv, hcv]
        simp [List.append_assoc]
    · rw [if_neg hmerge]
      exact ⟨hInv, rfl, rfl, rfl, rfl, rfl⟩

/-! ### Small corollaries of the slicing algebra -/

theorem sliceBytes_zero_take (s : Str) (n : Nat) : sliceBytes s 0 n = byteTake n s := by
  rw [sliceBytes, if_neg (by omega), byteDrop_zero]
  simp

theorem byteTake_full (s : Str) : byteTake (byteLen s) s = some s := by
  have := byteTake_byteLen_append s []
  rwa [List.append_nil] at this

theorem byteDrop_full (s : Str) : byteDrop (byteLen s) s = some [] := by
  have := byteDrop_byteLen_append s []
  rwa [List.append_nil] at this

theorem sliceBytes_of_byteDrop {s u : Str} {n : Nat} (h : byteDrop n s = some u) :
    sliceBytes s n (byteLen s) = some u := by
  obtain ⟨p, rfl, rfl⟩ := byteDrop_eq_some_iff.mp h
  refine sliceBytes_eq_some_iff.mpr ⟨?_, ?_, p, [], by simp, rfl⟩ <;>
    rw [byteLen_append] <;> omega

theorem pieces_ne_nil_of_tl_pos {t : Table} (hInv : Inv t) (h : 0 < t.total_length) :
    t.pieces ≠ [] := by
  intro hnil
  rw [hInv.tl, hnil, sumLen_nil] at h
  omega

theorem flatTexts_extend_add {t : Table} (text : Str) {l : List Piece}
    (h : ∀ p ∈ l, ∃ s, pieceText t p = some s) :
    flatTexts { t with add_buffer := t.add_buffer ++ text } l = flatTexts t l := by
  unfold flatTexts
  apply congrArg
  apply List.map_congr_left
  intro p hp
  obtain ⟨s, hs⟩ := h p hp
  rw [pieceTextD, pieceTextD, hs, pieceText_extend_add text hs]

theorem Inv_extend_add {t : Table} (hInv : Inv t) (text : Str) :
    Inv { t with add_buffer := t.add_buffer ++ text } := by
  refine ⟨?_, hInv.tl, hInv.lines⟩
  intro p hp
  obtain ⟨s, hs, hb⟩ := hInv.valid p hp
  exact ⟨s, pieceText_extend_add text hs, hb⟩

theorem docText_extend_add {t : Table} (hInv : Inv t) (text : Str) :
    docText { t with add_buffer := t.add_buffer ++ text } = docText t := by
  rw [docText_eq_flatTexts, docText_eq_flatTexts]
  exact flatTexts_extend_add text (fun p hp => ⟨_, (hInv.valid p hp).choose_spec.1⟩)

/-- The piece `insert` builds for the inserted text. -/
def newAddPiece (t : Table) (text : Str) : Piece :=
  ⟨ID.Add, byteLen t.add_buffer, byteLen text, count_line_breaks text⟩

theorem pieceText_new_piece (t : Table) (text : Str) :
    pieceText { t with add_buffer := t.add_buffer ++ text } (newAddPiece t text) = some text := by
  show sliceBytes (t.add_buffer ++ text) (byteLen t.add_buffer)
    (byteLen t.add_buffer + byteLen text) = some text
  refine sliceBytes_eq_some_iff.mpr ⟨by omega, by omega, t.add_buffer, [], by simp, rfl⟩

/-! ### Characterization of `split_piece_at` -/

theorem split_piece_at_spec {t : Table} {pieceIdx o : Nat} {t2 : Table} {r : Option Nat}
    (h : t.split_piece_at pieceIdx o = some (t2, r)) :
    (t.pieces.length ≤ pieceIdx ∧ t2 = t ∧ r = none) ∨
    (pieceIdx < t.pieces.length ∧ o - t.get_piece_start_offset pieceIdx = 0 ∧
      t2 = t ∧ r = some pieceIdx) ∨
    (pieceIdx < t.pieces.length ∧ 0 < o - t.get_piece_start_offset pieceIdx ∧
      (getPiece t.pieces pieceIdx).length ≤ o - t.get_piece_start_offset pieceIdx ∧
      t2 = t ∧ r = some (pieceIdx + 1)) ∨
    (pieceIdx < t.pieces.length ∧ 0 < o - t.get_piece_start_offset pieceIdx ∧
      o - t.get_piece_start_offset pieceIdx < (getPiece t.pieces pieceIdx).length ∧
      ∃ left_text right_text,
        pieceText t (getPiece t.pieces pieceIdx)
          = some (left_text ++ right_text) ∧
        byteLen left_text = o - t.get_piece_start_offset pieceIdx ∧
        t2 = { t with pieces := insertAt (t.pieces.set pieceIdx (splitLeftPiece (getPiece t.pieces pieceIdx) (o - t.get_piece_start_offset pieceIdx) left_text)) (pieceIdx + 1) (splitRightPiece (getPiece t.pieces pieceIdx) (o - t.get_piece_start_offset pieceIdx) right_text) } ∧
        r = some (pieceIdx + 1)) := by
  simp only [Table.split_piece_at] at h
  split at h
  · rename_i hge
    simp only [Option.some.injEq, Prod.mk.injEq] at h
    exact Or.inl ⟨by omega, h.1.symm, h.2.symm⟩
  · rename_i hlt
    push_neg at hlt
    split at h
    · rename_i hz
      simp only [Option.some.injEq, Prod.mk.injEq] at h
      exact Or.inr (Or.inl ⟨hlt, hz, h.1.symm, h.2.symm⟩)
    · rename_i hz
      split at h
      · rename_i hge
        simp only [Option.some.injEq, Prod.mk.injEq] at h
        exact Or.inr (Or.inr (Or.inl ⟨hlt, by omega, by omega, h.1.symm, h.2.symm⟩))
      · rename_i hge
        push_neg at hge
        split at h
        · cases h
        · rename_i piece_text hpt
          split at h
          · rename_i left_text right_text htk hdr
            simp only [Option.some.injEq, Prod.mk.injEq] at h
            refine Or.inr (Or.inr (Or.inr ⟨hlt, by omega, by omega,
              left_text, right_text, ?_, ?_, h.1.symm, h.2.symm⟩))
            · rw [pieceText, hpt]
              obtain ⟨v, hv, hsplit⟩ := byteDrop_isSome_of_take htk
              rw [hdr] at hv
              cases hv
              rw [hsplit]
            · exact (byteTake_eq_some_iff.mp htk).choose_spec.2
          · rename_i hno
            cases h

/-! ### `insertAt` surgery lemmas -/

theorem insertAt_at_append {A : List Piece} (B : List Piece) (x : Piece) {i : Nat}
    (h : i = A.length) : insertAt (A ++ B) i x = A ++ x :: B := by
  subst h
  rw [insertAt, List.take_left, List.drop_left]

theorem insertAt_ge {l : List Piece} {i : Nat} (h : l.length ≤ i) (x : Piece) :
    insertAt l i x = l ++ [x] := by
  rw [insertAt, List.take_of_length_le h, List.drop_of_length_le h]

theorem insertAt_succ_append {A : List Piece} (r : List Piece) (y x : Piece) {i : Nat}
    (h : i = A.length + 1) : insertAt (A ++ y :: r) i x = A ++ y :: x :: r := by
  subst h
  rw [insertAt, List.take_append 1, List.drop_append 1]
  simp

theorem set_at_append {A : List Piece} (r : List Piece) (y x : Piece) {i : Nat}
    (h : i = A.length) : (A ++ y :: r).set i x = A ++ x :: r := by
  subst h
  rw [List.set_append_right _ _ (le_refl _), Nat.sub_self]
  rfl

/-! ### Assembling the table produced by `insert` -/

/-- The table `insert` builds just before coalescing (buffer extended, new
piece list, totals bumped). -/
def insertResult (t : Table) (text : Str) (P : List Piece) : Table :=
  { original := t.original
    add_buffer := t.add_buffer ++ text
    pieces := P
    total_length := t.total_length + byteLen text
    total_lines := t.total_lines + count_line_breaks text }

theorem insert_assemble {t : Table} (hInv : Inv t) (text : Str) (P : List Piece)
    {A B : Str} {o : Nat}
    (hv : ∀ p ∈ P, ∃ s, pieceText { t with add_buffer := t.add_buffer ++ text } p = some s ∧
          p.line_breaks = count_line_breaks s)
    (hsl : sumLen P = sumLen t.pieces + byteLen text)
    (hsb : sumBreaks P = sumBreaks t.pieces + count_line_breaks text)
    (hflat : flatTexts { t with add_buffer := t.add_buffer ++ text } P = A ++ text ++ B)
    (hA : byteTake o (docText t) = some A) (hB : byteDrop o (docText t) = some B) :
    Inv (insertResult t text P) ∧ docText (insertResult t text P) = A ++ text ++ B := by
  constructor
  · refine ⟨?_, ?_, ?_⟩
    · intro p hp
      obtain ⟨s, hs, hb⟩ := hv p hp
      exact ⟨s, by rw [pieceText_congr rfl rfl p]; exact hs, hb⟩
    · show t.total_length + byteLen text = sumLen P
      rw [hsl, hInv.tl]
    · show t.total_lines + count_line_breaks text = 1 + sumBreaks P
      rw [hsb, hInv.lines]
      omega
  · show flatTexts (insertResult t text P) P = A ++ text ++ B
    rw [← hflat]
    exact flatTexts_congr rfl rfl P

/-! ### The `insert` step theorem -/

theorem insert_ok {t : Table} (hInv : Inv t) {o : Nat} {text : Str} {t' : Table}
    (h : t.insert o text = Res.ok t') :
    Inv t' ∧ o ≤ t.total_length ∧
    (∃ A B, byteTake o (docText t) = some A ∧ byteDrop o (docText t) = some B ∧
      docText t' = A ++ text ++ B) ∧
    t'.total_length = t.total_length + byteLen text ∧
    t'.total_lines = t.total_lines + count_line_breaks text ∧
    t'.original = t.original ∧ t'.add_buffer = t.add_buffer ++ text := by
  simp only [Table.insert] at h
  split at h
  · cases h
  · rename_i ho
    push_neg at ho
    split at h
    · cases h
    · rename_i t2 splitRes heq
      split at h
      · -- the split returned an insertion index
        rename_i insertIdx
        simp only [Res.ok.injEq] at h
        subst h
        rcases split_piece_at_spec heq with
          ⟨hge, rfl, hr⟩ | ⟨hlt, hz, rfl, hr⟩ | ⟨hlt, hpos, hge2, rfl, hr⟩ |
          ⟨hlt, hpos, hlt2, left_text, right_text, hpt, hll, rfl, hr⟩
        · cases hr
        · -- offset at the start of the containing piece
          have hr' : insertIdx = t.find_piece_containing_offset o :=
            Option.some.injEq .. ▸ hr
          have hjlt : t.find_piece_containing_offset o < t.pieces.length := hlt
          have hz' : o - t.get_piece_start_offset (t.find_piece_containing_offset o) = 0 := hz
          subst hr'
          set j := t.find_piece_containing_offset o with hjdef
          -- the offset coincides with the start offset of piece j
          have hop : o = t.get_piece_start_offset j := by
            rcases Nat.lt_or_ge o t.total_length with hlto | hgeo
            · obtain ⟨-, h2, -, -⟩ := find_spec_lt hInv hlto
              rw [← hjdef] at h2
              omega
            · have ho' : o = t.total_length := by omega
              have htl0 : t.total_length ≠ 0 := by
                intro h0
                have h1 : t.find_piece_containing_offset o = t.pieces.length := by
                  rw [ho', h0]
                  exact find_tl_zero hInv h0
                omega
              have hmono := sumLen_take_mono t.pieces (le_of_lt hjlt)
              rw [List.take_length] at hmono
              have htl := hInv.tl
              rw [Table.get_piece_start_offset] at hz' ⊢
              omega
          have hvsub : ∀ p ∈ t.pieces, ∃ s, pieceText t p = some s :=
            fun p hp => ⟨_, (hInv.valid p hp).choose_spec.1⟩
          have hdocsplit : docText t
              = flatTexts t (t.pieces.take j) ++ flatTexts t (t.pieces.drop j) := by
            rw [docText_eq_flatTexts]
            conv_lhs => rw [← List.take_append_drop j t.pieces]
            rw [flatTexts_append]
          have hlenA : byteLen (flatTexts t (t.pieces.take j)) = o := by
            rw [byteLen_flatTexts
              (fun p hp => byteLen_pieceTextD hInv (List.take_subset _ _ hp)), hop]
            rfl
          have hA : byteTake o (docText t) = some (flatTexts t (t.pieces.take j)) := by
            rw [hdocsplit, ← hlenA]
            exact byteTake_byteLen_append _ _
          have hB : byteDrop o (docText t) = some (flatTexts t (t.pieces.drop j)) := by
            rw [hdocsplit, ← hlenA]
            exact byteDrop_byteLen_append _ _
          have hsums : sumLen (t.pieces.take j) + sumLen (t.pieces.drop j) = sumLen t.pieces := by
            rw [← sumLen_append, List.take_append_drop]
          have hbrs : sumBreaks (t.pieces.take j) + sumBreaks (t.pieces.drop j)
              = sumBreaks t.pieces := by
            rw [← sumBreaks_append, List.take_append_drop]
          have hP : insertAt t.pieces j (newAddPiece t text)
              = t.pieces.take j ++ newAddPiece t text :: t.pieces.drop j := rfl
          obtain ⟨hInv4, hdoc4⟩ := insert_assemble hInv text
            (insertAt t.pieces j (newAddPiece t text))
            (by
              intro p hp
              rw [hP] at hp
              rcases List.mem_append.mp hp with hl | hr2
              · obtain ⟨s, hs, hb⟩ := hInv.valid p (List.take_subset _ _ hl)
                exact ⟨s, pieceText_extend_add text hs, hb⟩
              · rcases List.mem_cons.mp hr2 with rfl | hd
                · exact ⟨text, pieceText_new_piece t text, rfl⟩
                · obtain ⟨s, hs, hb⟩ := hInv.valid p (List.drop_subset _ _ hd)
                  exact ⟨s, pieceText_extend_add text hs, hb⟩)
            (by
              rw [hP, sumLen_append, sumLen_cons]
              show sumLen _ + (byteLen text + sumLen _) = _
              omega)
            (by
              rw [hP, sumBreaks_append, sumBreaks_cons]
              show sumBreaks _ + (count_line_breaks text + sumBreaks _) = _
              omega)
            (by
              rw [hP, flatTexts_append, flatTexts_cons]
              rw [flatTexts_extend_add text (fun p hp => hvsub p (List.take_subset _ _ hp)),
                flatTexts_extend_add text (fun p hp => hvsub p (List.drop_subset _ _ hp))]
              rw [show pieceTextD { t with add_buffer := t.add_buffer ++ text }
                    (newAddPiece t text) = text by
                rw [pieceTextD, pieceText_new_piece]; rfl]
              rw [List.append_assoc])
            hA hB
          obtain ⟨hcoInv, hcoDoc, hcoTl, hcoLines, hcoOrig, hcoAdd⟩ :=
            coalesce_preserves hInv4 j
          exact ⟨hcoInv, by omega,
            ⟨flatTexts t (t.pieces.take j), flatTexts t (t.pieces.drop j), hA, hB,
              hcoDoc.trans hdoc4⟩,
            hcoTl, hcoLines, hcoOrig, hcoAdd⟩
        · -- offset at the end boundary of the containing piece: append at the very end
          have hr' : insertIdx = t.find_piece_containing_offset o + 1 :=
            Option.some.injEq .. ▸ hr
          subst hr'
          have hjlt : t.find_piece_containing_offset o < t.pieces.length := hlt
          have hpos' : 0 < o - t.get_piece_start_offset (t.find_piece_containing_offset o) :=
            hpos
          have hge2' : (getPiece t.pieces (t.find_piece_containing_offset o)).length
              ≤ o - t.get_piece_start_offset (t.find_piece_containing_offset o) := hge2
          set j := t.find_piece_containing_offset o with hjdef
          have hotl : o = t.total_length := by
            rcases Nat.lt_or_ge o t.total_length with hlto | hgeo
            · obtain ⟨-, h2, h3, -⟩ := find_spec_lt hInv hlto
              rw [← hjdef] at h2 h3
              omega
            · omega
          have htlpos : 0 < t.total_length := by
            by_contra h0
            push_neg at h0
            omega
          have hj : j = t.pieces.length - 1 := by
            rw [hjdef]
            exact find_eq_last (by omega) hotl
          have hiend : t.pieces.length ≤ j + 1 := by omega
          have hP : insertAt t.pieces (j + 1) (newAddPiece t text)
              = t.pieces ++ [newAddPiece t text] := insertAt_ge hiend _
          have hdoclen : byteLen (docText t) = t.total_length := byteLen_docText hInv
          have hA : byteTake o (docText t) = some (docText t) := by
            rw [hotl, ← hdoclen]
            exact byteTake_full _
          have hB : byteDrop o (docText t) = some [] := by
            rw [hotl, ← hdoclen]
            exact byteDrop_full _
          have hvsub : ∀ p ∈ t.pieces, ∃ s, pieceText t p = some s :=
            fun p hp => ⟨_, (hInv.valid p hp).choose_spec.1⟩
          obtain ⟨hInv4, hdoc4⟩ := insert_assemble hInv text
            (insertAt t.pieces (j + 1) (newAddPiece t text))
            (by
              intro p hp
              rw [hP] at hp
              rcases List.mem_append.mp hp with hl | hr2
              · obtain ⟨s, hs, hb⟩ := hInv.valid p hl
                exact ⟨s, pieceText_extend_add text hs, hb⟩
              · rcases List.mem_singleton.mp hr2 with rfl
                exact ⟨text, pieceText_new_piece t text, rfl⟩)
            (by
              rw [hP, sumLen_append, sumLen_cons, sumLen_nil]
              show sumLen t.pieces + (byteLen text + 0) = _
              omega)
            (by
              rw [hP, sumBreaks_append, sumBreaks_cons, sumBreaks_nil]
              show sumBreaks t.pieces + (count_line_breaks text + 0) = _
              omega)
            (by
              rw [hP, flatTexts_append, flatTexts_cons, flatTexts_nil]
              rw [flatTexts_extend_add text hvsub]
              rw [show pieceTextD { t with add_buffer := t.add_buffer ++ text }
                    (newAddPiece t text) = text by
                rw [pieceTextD, pieceText_new_piece]; rfl]
              rw [← docText_eq_flatTexts]
              simp)
            hA hB
          obtain ⟨hcoInv, hcoDoc, hcoTl, hcoLines, hcoOrig, hcoAdd⟩ :=
            coalesce_preserves hInv4 j
          exact ⟨hcoInv, by omega,
            ⟨docText t, [], hA, hB, hcoDoc.trans hdoc4⟩,
            hcoTl, hcoLines, hcoOrig, hcoAdd⟩
        · -- interior split: piece j is split around the offset
          have hr' : insertIdx = t.find_piece_containing_offset o + 1 :=
            Option.some.injEq .. ▸ hr
          subst hr'
          have hjlt : t.find_piece_containing_offset o < t.pieces.length := hlt
          set j := t.find_piece_containing_offset o with hjdef
          set piece := getPiece t.pieces j with hpiecedef
          have hpos' : 0 < o - t.get_piece_start_offset j := hpos
          have hlt2' : o - t.get_piece_start_offset j < piece.length := hlt2
          have hpt' : pieceText { t with add_buffer := t.add_buffer ++ text } piece
              = some (left_text ++ right_text) := hpt
          have hll' : byteLen left_text = o - t.get_piece_start_offset j := hll
          set oip := o - t.get_piece_start_offset j with hoipdef
          have holt : o < t.total_length := by
            rcases Nat.lt_or_ge o t.total_length with hlto | hgeo
            · exact hlto
            · exfalso
              have hotl : o = t.total_length := by omega
              rcases Nat.eq_zero_or_pos t.total_length with h0 | hpos0
              · omega
              · have hj : j = t.pieces.length - 1 := by
                  rw [hjdef]
                  exact find_eq_last (by omega) hotl
                have hsucc : sumLen (t.pieces.take (j + 1))
                    = sumLen (t.pieces.take j) + piece.length := sumLen_take_succ hjlt
                have hjp1 : j + 1 = t.pieces.length := by
                  have hne2 : t.pieces ≠ [] := pieces_ne_nil_of_tl_pos hInv hpos0
                  have : 0 < t.pieces.length := List.length_pos.mpr hne2
                  omega
                rw [hjp1, List.take_length] at hsucc
                have htl := hInv.tl
                rw [Table.get_piece_start_offset] at hoipdef
                omega
          obtain ⟨-, hps1, hps2, -⟩ := find_spec_lt hInv holt
          rw [← hjdef] at hps1 hps2
          obtain ⟨s0, hs0, hb0⟩ := hInv.valid piece (getPiece_mem hjlt)
          have hs0' := pieceText_extend_add text hs0
          have hs0eq : s0 = left_text ++ right_text :=
            Option.some_inj.mp (hs0'.symm.trans hpt')
          subst hs0eq
          have hptl : byteLen (left_text ++ right_text) = piece.length := by
            have := sliceBytes_byteLen
              (show sliceBytes (t.buf piece.source) piece.start (piece.start + piece.length)
                = some (left_text ++ right_text) from hs0)
            omega
          obtain ⟨hdoc, hflatl⟩ := doc_decomp hInv hjlt
          have hptD : pieceTextD t piece = left_text ++ right_text := by
            rw [pieceTextD, hs0]
            rfl
          rw [hptD] at hdoc
          set FT := flatTexts t (t.pieces.take j) with hFT
          set FD := flatTexts t (t.pieces.drop (j + 1)) with hFD
          have hdoc' : docText t = (FT ++ left_text) ++ (right_text ++ FD) := by
            rw [hdoc]
            simp [List.append_assoc]
          have hlenA : byteLen (FT ++ left_text) = o := by
            rw [byteLen_append, hflatl]
            omega
          have hA : byteTake o (docText t) = some (FT ++ left_text) := by
            rw [hdoc', ← hlenA]
            exact byteTake_byteLen_append _ _
          have hB : byteDrop o (docText t) = some (right_text ++ FD) := by
            rw [hdoc', ← hlenA]
            exact byteDrop_byteLen_append _ _
          have hAlen : (t.pieces.take j).length = j := by
            rw [List.length_take]
            omega
          have hdecomp : t.pieces = t.pieces.take j ++ piece :: t.pieces.drop (j + 1) :=
            pieces_decomp hjlt
          set LP := splitLeftPiece piece oip left_text with hLPdef
          set RP := splitRightPiece piece oip right_text with hRPdef
          have h1 : t.pieces.set j LP = t.pieces.take j ++ LP :: t.pieces.drop (j + 1) := by
            conv_lhs => rw [hdecomp]
            exact set_at_append _ _ _ hAlen.symm
          have h2 : insertAt (t.pieces.take j ++ LP :: t.pieces.drop (j + 1)) (j + 1) RP
              = t.pieces.take j ++ LP :: RP :: t.pieces.drop (j + 1) :=
            insertAt_succ_append _ _ _ (by rw [hAlen])
          have h3 : insertAt (t.pieces.take j ++ LP :: RP :: t.pieces.drop (j + 1)) (j + 1)
                (newAddPiece t text)
              = t.pieces.take j ++ LP :: newAddPiece t text :: RP :: t.pieces.drop (j + 1) :=
            insertAt_succ_append _ _ _ (by rw [hAlen])
          have hP : insertAt (insertAt (t.pieces.set j LP) (j + 1) RP) (j + 1)
                (newAddPiece t text)
              = t.pieces.take j ++ LP :: newAddPiece t text :: RP :: t.pieces.drop (j + 1) := by
            rw [h1, h2, h3]
          have hpt'' := hpt'
          rw [pieceText] at hpt''
          have hLPtext : pieceText { t with add_buffer := t.add_buffer ++ text } LP
              = some left_text := by
            rw [pieceText]
            simp only [hLPdef, splitLeftPiece]
            have htk : sliceBytes (left_text ++ right_text) 0 oip = some left_text := by
              rw [sliceBytes_zero_take, ← hll']
              exact byteTake_byteLen_append _ _
            have hsub := sliceBytes_sub_some hpt'' htk
            simpa using hsub
          have hRPtext : pieceText { t with add_buffer := t.add_buffer ++ text } RP
              = some right_text := by
            rw [pieceText]
            simp only [hRPdef, splitRightPiece]
            have hdr : sliceBytes (left_text ++ right_text) oip
                (byteLen (left_text ++ right_text)) = some right_text :=
              sliceBytes_of_byteDrop (by rw [← hll']; exact byteDrop_byteLen_append _ _)
            rw [hptl] at hdr
            have hsub := sliceBytes_sub_some hpt'' hdr
            rw [show piece.start + oip + (piece.length - oip) = piece.start + piece.length
              by omega]
            exact hsub
          have hsldecomp : sumLen t.pieces
              = sumLen (t.pieces.take j) + piece.length + sumLen (t.pieces.drop (j + 1)) := by
            conv_lhs => rw [hdecomp]
            rw [sumLen_append, sumLen_cons]
            omega
          have hsbdecomp : sumBreaks t.pieces
              = sumBreaks (t.pieces.take j) + piece.line_breaks
                + sumBreaks (t.pieces.drop (j + 1)) := by
            conv_lhs => rw [hdecomp]
            rw [sumBreaks_append, sumBreaks_cons]
            omega
          have hLPlen : LP.length = oip := rfl
          have hRPlen : RP.length = piece.length - oip := rfl
          have hNPlen : (newAddPiece t text).length = byteLen text := rfl
          have hLPbr : LP.line_breaks = count_line_breaks left_text := rfl
          have hRPbr : RP.line_breaks = count_line_breaks right_text := rfl
          have hNPbr : (newAddPiece t text).line_breaks = count_line_breaks text := rfl
          have hb0' : piece.line_breaks
              = count_line_breaks left_text + count_line_breaks right_text := by
            rw [hb0, count_line_breaks_append]
          obtain ⟨hInv4, hdoc4⟩ := insert_assemble hInv text
            (insertAt (insertAt (t.pieces.set j LP) (j + 1) RP) (j + 1) (newAddPiece t text))
            (by
              intro p hp
              rw [hP] at hp
              rcases List.mem_append.mp hp with hl | hr2
              · obtain ⟨s, hs, hb⟩ := hInv.valid p (List.take_subset _ _ hl)
                exact ⟨s, pieceText_extend_add text hs, hb⟩
              · rcases List.mem_cons.mp hr2 with rfl | hr3
                · exact ⟨left_text, hLPtext, hLPbr⟩
                · rcases List.mem_cons.mp hr3 with rfl | hr4
                  · exact ⟨text, pieceText_new_piece t text, hNPbr⟩
                  · rcases List.mem_cons.mp hr4 with rfl | hr5
                    · exact ⟨right_text, hRPtext, hRPbr⟩
                    · obtain ⟨s, hs, hb⟩ := hInv.valid p (List.drop_subset _ _ hr5)
                      exact ⟨s, pieceText_extend_add text hs, hb⟩)
            (by
              rw [hP, sumLen_append, sumLen_cons, sumLen_cons, sumLen_cons, hLPlen, hRPlen,
                hNPlen]
              omega)
            (by
              rw [hP, sumBreaks_append, sumBreaks_cons, sumBreaks_cons, sumBreaks_cons, hLPbr,
                hRPbr, hNPbr]
              omega)
            (by
              rw [hP, flatTexts_append, flatTexts_cons, flatTexts_cons, flatTexts_cons]
              rw [flatTexts_extend_add text
                  (fun p hp => ⟨_, (hInv.valid p (List.take_subset _ _ hp)).choose_spec.1⟩),
                flatTexts_extend_add text
                  (fun p hp => ⟨_, (hInv.valid p (List.drop_subset _ _ hp)).choose_spec.1⟩)]
              rw [show pieceTextD { t with add_buffer := t.add_buffer ++ text } LP = left_text
                by rw [pieceTextD, hLPtext]; rfl]
              rw [show pieceTextD { t with add_buffer := t.add_buffer ++ text } RP = right_text
                by rw [pieceTextD, hRPtext]; rfl]
              rw [show pieceTextD { t with add_buffer := t.add_buffer ++ text }
                    (newAddPiece t text) = text by
                rw [pieceTextD, pieceText_new_piece]; rfl]
              simp [List.append_assoc])
            hA hB
          obtain ⟨hcoInv, hcoDoc, hcoTl, hcoLines, hcoOrig, hcoAdd⟩ :=
            coalesce_preserves hInv4 j
          exact ⟨hcoInv, by omega,
            ⟨FT ++ left_text, right_text ++ FD, hA, hB, hcoDoc.trans hdoc4⟩,
            hcoTl, hcoLines, hcoOrig, hcoAdd⟩
      · -- the split returned `None`: the piece index was out of range (empty document)
        simp only [Res.ok.injEq] at h
        subst h
        rcases split_piece_at_spec heq with
          ⟨hge, rfl, -⟩ | ⟨-, -, -, hr⟩ | ⟨-, -, -, -, hr⟩ |
          ⟨-, -, -, l1, r1, -, -, -, hr⟩
        rotate_left
        · cases hr
        · cases hr
        · cases hr
        have hge' : t.pieces.length ≤ t.find_piece_containing_offset o := hge
        have htl0 : t.total_length = 0 := by
          rcases Nat.lt_or_ge o t.total_length with hlto | hgeo
          · obtain ⟨h1, -, -, -⟩ := find_spec_lt hInv hlto
            omega
          · by_contra hne
            have hpos : 0 < t.total_length := by omega
            have hj := find_eq_last (show 0 < o by omega) (show o = t.total_length by omega)
            have hne2 : t.pieces ≠ [] := pieces_ne_nil_of_tl_pos hInv hpos
            have : 0 < t.pieces.length := List.length_pos.mpr hne2
            omega
        have ho0 : o = 0 := by omega
        have hdoc0 : docText t = [] :=
          byteLen_eq_zero (by rw [byteLen_docText hInv, htl0])
        have hA : byteTake o (docText t) = some [] := by
          rw [ho0]
          exact byteTake_zero _
        have hB : byteDrop o (docText t) = some [] := by
          rw [ho0, hdoc0]
          exact byteDrop_zero _
        have hvsub : ∀ p ∈ t.pieces, ∃ s, pieceText t p = some s :=
          fun p hp => ⟨_, (hInv.valid p hp).choose_spec.1⟩
        obtain ⟨hInv4, hdoc4⟩ := insert_assemble hInv text
          (t.pieces ++ [newAddPiece t text])
          (by
            intro p hp
            rcases List.mem_append.mp hp with hl | hr2
            · obtain ⟨s, hs, hb⟩ := hInv.valid p hl
              exact ⟨s, pieceText_extend_add text hs, hb⟩
            · rcases List.mem_singleton.mp hr2 with rfl
              exact ⟨text, pieceText_new_piece t text, rfl⟩)
          (by
            rw [sumLen_append, sumLen_cons, sumLen_nil]
            show sumLen t.pieces + (byteLen text + 0) = _
            omega)
          (by
            rw [sumBreaks_append, sumBreaks_cons, sumBreaks_nil]
            show sumBreaks t.pieces + (count_line_breaks text + 0) = _
            omega)
          (by
            rw [flatTexts_append, flatTexts_cons, flatTexts_nil]
            rw [flatTexts_extend_add text hvsub]
            rw [show pieceTextD { t with add_buffer := t.add_buffer ++ text }
                  (newAddPiece t text) = text by
              rw [pieceTextD, pieceText_new_piece]; rfl]
            rw [← docText_eq_flatTexts, hdoc0]
            simp)
          hA hB
        obtain ⟨hcoInv, hcoDoc, hcoTl, hcoLines, hcoOrig, hcoAdd⟩ :=
          coalesce_preserves hInv4 (t.find_piece_containing_offset o)
        exact ⟨hcoInv, by omega,
          ⟨[], [], hA, hB, hcoDoc.trans hdoc4⟩,
          hcoTl, hcoLines, hcoOrig, hcoAdd⟩

/-! ### `insert`: error characterization and absence of panics -/

theorem insert_err {t : Table} {o : Nat} {text : Str} {t2 : Table}
    (h : t.insert o text = Res.err t2) : t.total_length < o ∧ t2 = t := by
  simp only [Table.insert] at h
  split at h
  · rename_i hgt
    cases h
    exact ⟨by omega, rfl⟩
  · split at h
    · cases h
    · split at h <;> cases h

theorem insert_err_of_gt {t : Table} {o : Nat} (text : Str) (h : t.total_length < o) :
    t.insert o text = Res.err t := by
  simp only [Table.insert]
  rw [if_pos (by omega)]

theorem pieceTextD_extend {t : Table} (hInv : Inv t) (text : Str) {p : Piece}
    (hp : p ∈ t.pieces) :
    pieceTextD { t with add_buffer := t.add_buffer ++ text } p = pieceTextD t p := by
  obtain ⟨s, hs, -⟩ := hInv.valid p hp
  rw [pieceTextD, pieceTextD, hs, pieceText_extend_add text hs]

theorem split_piece_at_ne_none {t : Table} (hInv : Inv t) {j o : Nat}
    (hb : j < t.pieces.length →
      IsBoundary (pieceTextD t (getPiece t.pieces j)) (o - t.get_piece_start_offset j)) :
    t.split_piece_at j o ≠ none := by
  intro hno
  simp only [Table.split_piece_at] at hno
  split at hno
  · cases hno
  · rename_i hge
    push_neg at hge
    split at hno
    · cases hno
    · split at hno
      · cases hno
      · split at hno
        · -- the piece's own slice failed: contradicts validity
          rename_i hsl
          obtain ⟨s, hs, -⟩ := hInv.valid (getPiece t.pieces j) (getPiece_mem hge)
          rw [pieceText] at hs
          rw [hs] at hsl
          cases hsl
        · rename_i piece_text hsl
          split at hno
          · cases hno
          · -- a take/drop at the split offset failed: contradicts the boundary
            rename_i htkdr
            obtain ⟨s, hs, -⟩ := hInv.valid (getPiece t.pieces j) (getPiece_mem hge)
            rw [pieceText] at hs
            rw [hs] at hsl
            cases hsl
            have hbd := hb hge
            rw [pieceTextD, pieceText, hs] at hbd
            simp only [Option.getD_some] at hbd
            obtain ⟨pfx, sfx, hps, hpl⟩ := IsBoundary_iff.mp hbd
            have htk : byteTake (o - t.get_piece_start_offset j) piece_text = some pfx := by
              rw [hps, ← hpl]
              exact byteTake_byteLen_append _ _
            have hdr : byteDrop (o - t.get_piece_start_offset j) piece_text = some sfx := by
              rw [hps, ← hpl]
              exact byteDrop_byteLen_append _ _
            exact htkdr pfx sfx htk hdr

theorem boundary_byteLen (s : Str) : IsBoundary s (byteLen s) := by
  show (byteDrop (byteLen s) s).isSome
  rw [byteDrop_full]
  rfl

theorem insert_no_panic {t : Table} (hInv : Inv t) {o : Nat} (text : Str)
    (ho : o ≤ t.total_length) (hb : IsBoundary (docText t) o) :
    ∃ t', t.insert o text = Res.ok t' := by
  simp only [Table.insert]
  rw [if_neg (by omega)]
  have hInv1 := Inv_extend_add hInv text
  have hbnd : t.find_piece_containing_offset o < t.pieces.length →
      IsBoundary (pieceTextD t (getPiece t.pieces (t.find_piece_containing_offset o)))
        (o - t.get_piece_start_offset (t.find_piece_containing_offset o)) := by
    intro hjlt
    set j := t.find_piece_containing_offset o with hjdef
    rcases Nat.lt_or_ge o t.total_length with hlto | hgeo
    · obtain ⟨-, hps1, hps2, -⟩ := find_spec_lt hInv hlto
      rw [← hjdef] at hps1 hps2
      obtain ⟨hdoc, hflatl⟩ := doc_decomp hInv hjlt
      have hmem := getPiece_mem hjlt
      have hlenp : byteLen (pieceTextD t (getPiece t.pieces j)) = (getPiece t.pieces j).length :=
        byteLen_pieceTextD hInv hmem
      have hmid : sliceBytes (docText t) (t.get_piece_start_offset j)
          (t.get_piece_start_offset j + (getPiece t.pieces j).length)
          = some (pieceTextD t (getPiece t.pieces j)) := by
        have hm := sliceBytes_append_mid (flatTexts t (t.pieces.take j))
          (pieceTextD t (getPiece t.pieces j)) (flatTexts t (t.pieces.drop (j + 1)))
        rw [hflatl, hlenp] at hm
        rw [hdoc]
        exact hm
      have hxle : o - t.get_piece_start_offset j ≤ (getPiece t.pieces j).length := by omega
      have hb' : IsBoundary (docText t)
          (t.get_piece_start_offset j + (o - t.get_piece_start_offset j)) := by
        rw [show t.get_piece_start_offset j + (o - t.get_piece_start_offset j) = o by omega]
        exact hb
      exact boundary_sub hmid hb' hxle
    · have hotl : o = t.total_length := by omega
      rcases Nat.eq_zero_or_pos t.total_length with h0 | hpos0
      · exfalso
        have hfz := find_tl_zero hInv h0
        have ho0 : o = 0 := by omega
        rw [hjdef, ho0] at hjlt
        omega
      · have hj : j = t.pieces.length - 1 := by
          rw [hjdef]
          exact find_eq_last (by omega) hotl
        have hsucc := sumLen_take_succ hjlt
        have hjp1 : j + 1 = t.pieces.length := by
          have hne2 : t.pieces ≠ [] := pieces_ne_nil_of_tl_pos hInv hpos0
          have := List.length_pos.mpr hne2
          omega
        rw [hjp1, List.take_length] at hsucc
        have htl := hInv.tl
        have hlenp : byteLen (pieceTextD t (getPiece t.pieces j))
            = (getPiece t.pieces j).length :=
          byteLen_pieceTextD hInv (getPiece_mem hjlt)
        have hfull : o - t.get_piece_start_offset j
            = byteLen (pieceTextD t (getPiece t.pieces j)) := by
          rw [hlenp, Table.get_piece_start_offset]
          omega
        rw [hfull]
        exact boundary_byteLen _
  have hbnd1 : t.find_piece_containing_offset o
        < ({ t with add_buffer := t.add_buffer ++ text } : Table).pieces.length →
      IsBoundary (pieceTextD { t with add_buffer := t.add_buffer ++ text }
          (getPiece ({ t with add_buffer := t.add_buffer ++ text } : Table).pieces
            (t.find_piece_containing_offset o)))
        (o - ({ t with add_buffer := t.add_buffer ++ text } : Table).get_piece_start_offset
          (t.find_piece_containing_offset o)) := by
    intro hjlt
    have hjlt' : t.find_piece_containing_offset o < t.pieces.length := hjlt
    have heq := pieceTextD_extend hInv text (getPiece_mem hjlt')
    exact heq ▸ hbnd hjlt'
  have hne := split_piece_at_ne_none hInv1 hbnd1
  obtain ⟨⟨t2, r⟩, hsome⟩ := Option.ne_none_iff_exists'.mp hne
  rw [hsome]
  cases r with
  | some idx => exact ⟨_, rfl⟩
  | none => exact ⟨_, rfl⟩

/-! ### `delete_within_piece`: core lemma -/

theorem slice_within {src ptext u : Str} {st len x y : Nat}
    (hp : sliceBytes src st (st + len) = some ptext)
    (hu : sliceBytes src (st + x) (st + y) = some u)
    (hy : y ≤ len) :
    sliceBytes ptext x y = some u := by
  obtain ⟨-, hpl, P, Q, rfl, hPl⟩ := sliceBytes_eq_some_iff.mp hp
  apply slice_of_flat_mid P Q
  · rw [hPl]
    exact hu
  · omega

theorem eraseIdx_at_append {A : List Piece} (r : List Piece) (y : Piece) {i : Nat}
    (h : i = A.length) : (A ++ y :: r).eraseIdx i = A ++ r := by
  subst h
  rw [List.eraseIdx_append_of_length_le (le_refl _), Nat.sub_self]
  rfl

theorem delete_within_ok {t : Table} (hInv : Inv t) {a e : Nat} {t1 : Table}
    (hae : a ≤ e) (he : e ≤ t.total_length)
    (hok : t.delete_within_piece (t.find_piece_containing_offset a) a e = Res.ok t1) :
    ∃ A M B, byteTake a (docText t) = some A ∧ sliceBytes (docText t) a e = some M ∧
      byteDrop e (docText t) = some B ∧
      t1.original = t.original ∧ t1.add_buffer = t.add_buffer ∧
      t1.total_length = t.total_length ∧ t1.total_lines = t.total_lines ∧
      (∀ p ∈ t1.pieces, ∃ s, pieceText t p = some s ∧ p.line_breaks = count_line_breaks s) ∧
      sumLen t1.pieces + byteLen M = sumLen t.pieces ∧
      sumBreaks t1.pieces + count_line_breaks M = sumBreaks t.pieces ∧
      flatTexts t t1.pieces = A ++ B := by
  set i := t.find_piece_containing_offset a with hidef
  simp only [Table.delete_within_piece] at hok
  split at hok
  · cases hok
  · rename_i hilt
    push_neg at hilt
    split at hok
    · cases hok
    · rename_i hguard
      push_neg at hguard
      obtain ⟨h1, h2⟩ := hguard
      split at hok
      · cases hok
      · rename_i deleted_text hdel
        set piece := getPiece t.pieces i with hpiecedef
        -- the offset `a` is strictly below the end of the document
        have halt : a < t.total_length := by
          rcases Nat.lt_or_ge a t.total_length with hcase | hcase
          · exact hcase
          · exfalso
            have hatl : a = t.total_length := by omega
            rcases Nat.eq_zero_or_pos t.total_length with h0 | hpos
            · have hfz := find_tl_zero hInv h0
              have ha0 : a = 0 := by omega
              rw [hidef, ha0] at hilt
              omega
            · have hlast : i = t.pieces.length - 1 := by
                rw [hidef]
                exact find_eq_last (by omega) hatl
              have hsucc := sumLen_take_succ hilt
              rw [← hpiecedef] at hsucc
              have hjp1 : i + 1 = t.pieces.length := by
                have hne2 : t.pieces ≠ [] := pieces_ne_nil_of_tl_pos hInv hpos
                have := List.length_pos.mpr hne2
                omega
              rw [hjp1, List.take_length] at hsucc
              have htl := hInv.tl
              rw [Table.get_piece_start_offset] at h1
              omega
        obtain ⟨-, hps1, hps2, -⟩ := find_spec_lt hInv halt
        rw [← hidef] at hps1 hps2
        rw [← hpiecedef] at hps2
        obtain ⟨ptext, hpt, hbr⟩ := hInv.valid piece (getPiece_mem hilt)
        rw [pieceText] at hpt
        have hptlen : byteLen ptext = piece.length := by
          have := sliceBytes_byteLen hpt
          omega
        obtain ⟨hdoc, hflatl⟩ := doc_decomp hInv hilt
        rw [← hpiecedef] at hdoc
        have hptD : pieceTextD t piece = ptext := by
          rw [pieceTextD, pieceText, hpt]
          rfl
        rw [hptD] at hdoc
        have hdelp : sliceBytes ptext (a - t.get_piece_start_offset i)
            (e - t.get_piece_start_offset i) = some deleted_text :=
          slice_within hpt hdel h2
        obtain ⟨hxy', hdlen, u, w, hptss, hul⟩ := sliceBytes_eq_some_iff.mp hdelp
        have hwlen : byteLen w = piece.length - (e - t.get_piece_start_offset i) := by
          have := congrArg byteLen hptss
          rw [byteLen_append, byteLen_append] at this
          omega
        have hea : a = t.get_piece_start_offset i + (a - t.get_piece_start_offset i) := by
          omega
        have hee : e = t.get_piece_start_offset i + (e - t.get_piece_start_offset i) := by
          omega
        set FT := flatTexts t (t.pieces.take i) with hFT
        set FD := flatTexts t (t.pieces.drop (i + 1)) with hFD
        have hdoc2 : docText t = FT ++ (u ++ deleted_text ++ w) ++ FD := by
          rw [hdoc, hptss]
        have hA : byteTake a (docText t) = some (FT ++ u) := by
          have hdoc3 : docText t = (FT ++ u) ++ (deleted_text ++ (w ++ FD)) := by
            rw [hdoc2]
            simp [List.append_assoc]
          rw [hdoc3, show a = byteLen (FT ++ u) by rw [byteLen_append, hflatl]; omega]
          exact byteTake_byteLen_append _ _
        have hM : sliceBytes (docText t) a e = some deleted_text := by
          have hsl := slice_flat_mid FT FD hdelp
          rw [hflatl, ← hea, ← hee, ← hdoc] at hsl
          exact hsl
        have hB : byteDrop e (docText t) = some (w ++ FD) := by
          have hdoc3 : docText t = (FT ++ u ++ deleted_text) ++ (w ++ FD) := by
            rw [hdoc2]
            simp [List.append_assoc]
          rw [hdoc3, show e = byteLen (FT ++ u ++ deleted_text) by
            rw [byteLen_append, byteLen_append, hflatl]; omega]
          exact byteDrop_byteLen_append _ _
        have hbr' : piece.line_breaks
            = count_line_breaks u + count_line_breaks deleted_text + count_line_breaks w := by
          rw [hbr, hptss, count_line_breaks_append, count_line_breaks_append]
        have hAlen : (t.pieces.take i).length = i := by
          rw [List.length_take]
          omega
        have hdecomp : t.pieces = t.pieces.take i ++ piece :: t.pieces.drop (i + 1) := by
          rw [hpiecedef]
          exact pieces_decomp hilt
        have hsldecomp : sumLen t.pieces
            = sumLen (t.pieces.take i) + piece.length + sumLen (t.pieces.drop (i + 1)) := by
          conv_lhs => rw [hdecomp]
          rw [sumLen_append, sumLen_cons]
          omega
        have hsbdecomp : sumBreaks t.pieces
            = sumBreaks (t.pieces.take i) + piece.line_breaks
              + sumBreaks (t.pieces.drop (i + 1)) := by
          conv_lhs => rw [hdecomp]
          rw [sumBreaks_append, sumBreaks_cons]
          omega
        have hvsub : ∀ p, p ∈ t.pieces.take i ∨ p ∈ t.pieces.drop (i + 1) →
            ∃ s, pieceText t p = some s ∧ p.line_breaks = count_line_breaks s := by
          intro p hp
          rcases hp with hp | hp
          · exact hInv.valid p (List.take_subset _ _ hp)
          · exact hInv.valid p (List.drop_subset _ _ hp)
        refine ⟨FT ++ u, deleted_text, w ++ FD, hA, hM, hB, ?_⟩
        have hsetp : ∀ pc : Piece, t.pieces.set i pc
            = t.pieces.take i ++ pc :: t.pieces.drop (i + 1) := by
          intro pc
          conv_lhs => rw [hdecomp]
          exact set_at_append _ _ _ hAlen.symm
        have hcu0 : a - t.get_piece_start_offset i = 0 → count_line_breaks u = 0 := by
          intro h0
          have h1 : byteLen u = 0 := by omega
          rw [byteLen_eq_zero h1]
          rfl
        have hcw0 : e - t.get_piece_start_offset i = piece.length → count_line_breaks w = 0 := by
          intro h0
          have h1 : byteLen w = 0 := by omega
          rw [byteLen_eq_zero h1]
          rfl
        have huslice : sliceBytes (t.buf piece.source) piece.start
            (piece.start + (a - t.get_piece_start_offset i)) = some u := by
          have htk : sliceBytes ptext 0 (a - t.get_piece_start_offset i) = some u := by
            rw [sliceBytes_zero_take, ← hul, hptss, List.append_assoc]
            exact byteTake_byteLen_append _ _
          have hsub := sliceBytes_sub_some hpt htk
          simpa using hsub
        have hwslice : sliceBytes (t.buf piece.source)
            (piece.start + (e - t.get_piece_start_offset i))
            (piece.start + piece.length) = some w := by
          have hdr : sliceBytes ptext (e - t.get_piece_start_offset i)
              (byteLen ptext) = some w := by
            have hd := sliceBytes_of_byteDrop
              (byteDrop_byteLen_append (u ++ deleted_text) w)
            rw [← hptss] at hd
            rw [show byteLen (u ++ deleted_text) = e - t.get_piece_start_offset i
              from by rw [byteLen_append]; omega] at hd
            exact hd
          rw [hptlen] at hdr
          exact sliceBytes_sub_some hpt hdr
        split at hok
        · -- the whole piece is deleted
          rename_i hwhole
          cases hok
          have herase : t.pieces.eraseIdx i = t.pieces.take i ++ t.pieces.drop (i + 1) := by
            conv_lhs => rw [hdecomp]
            exact eraseIdx_at_append _ _ hAlen.symm
          have hu0 : u = [] := byteLen_eq_zero (by omega)
          have hw0 : w = [] := byteLen_eq_zero (by omega)
          refine ⟨rfl, rfl, rfl, rfl, ?_, ?_, ?_, ?_⟩
          · intro p hp
            have hp' : p ∈ t.pieces.take i ++ t.pieces.drop (i + 1) := by
              rw [← herase]
              exact hp
            exact hvsub p (List.mem_append.mp hp')
          · show sumLen (t.pieces.eraseIdx i) + byteLen deleted_text = sumLen t.pieces
            rw [herase, sumLen_append]
            omega
          · show sumBreaks (t.pieces.eraseIdx i) + count_line_breaks deleted_text
              = sumBreaks t.pieces
            rw [herase, sumBreaks_append]
            have h1 := hcu0 (by omega)
            have h2 := hcw0 (by omega)
            omega
          · show flatTexts t (t.pieces.eraseIdx i) = FT ++ u ++ (w ++ FD)
            rw [herase, flatTexts_append, hu0, hw0]
            simp
        · rename_i hwhole
          split at hok
          · -- left-edge shrink
            rename_i hzero
            cases hok
            have hok2 : shrinkLeftPiece piece
                (e - t.get_piece_start_offset i - (a - t.get_piece_start_offset i))
                (count_line_breaks deleted_text) = shrinkLeftPiece piece
                (e - t.get_piece_start_offset i) (count_line_breaks deleted_text) := by
              rw [hzero]
              rfl
            have hu0 : u = [] := byteLen_eq_zero (by omega)
            have hpcpt : pieceText t (shrinkLeftPiece piece
                (e - t.get_piece_start_offset i - (a - t.get_piece_start_offset i))
                (count_line_breaks deleted_text)) = some w := by
              rw [hok2]
              show sliceBytes (t.buf piece.source)
                (piece.start + (e - t.get_piece_start_offset i))
                (piece.start + (e - t.get_piece_start_offset i)
                  + (piece.length - (e - t.get_piece_start_offset i))) = some w
              rw [show piece.start + (e - t.get_piece_start_offset i)
                  + (piece.length - (e - t.get_piece_start_offset i))
                = piece.start + piece.length by omega]
              exact hwslice
            refine ⟨rfl, rfl, rfl, rfl, ?_, ?_, ?_, ?_⟩
            · intro p hp
              have hp' : p ∈ t.pieces.take i ++ shrinkLeftPiece piece
                  (e - t.get_piece_start_offset i - (a - t.get_piece_start_offset i))
                  (count_line_breaks deleted_text) :: t.pieces.drop (i + 1) := by
                rw [← hsetp]
                exact hp
              rcases List.mem_append.mp hp' with hl | hc
              · exact hvsub p (Or.inl hl)
              · rcases List.mem_cons.mp hc with rfl | hd
                · refine ⟨w, hpcpt, ?_⟩
                  show piece.line_breaks - count_line_breaks deleted_text = count_line_breaks w
                  have h1 := hcu0 (by omega)
                  omega
                · exact hvsub p (Or.inr hd)
            · show sumLen (t.pieces.set i _) + byteLen deleted_text = sumLen t.pieces
              rw [hsetp, sumLen_append, sumLen_cons]
              show sumLen _ + (piece.length - (e - t.get_piece_start_offset i
                - (a - t.get_piece_start_offset i)) + sumLen _) + _ = _
              omega
            · show sumBreaks (t.pieces.set i _) + count_line_breaks deleted_text
                = sumBreaks t.pieces
              rw [hsetp, sumBreaks_append, sumBreaks_cons]
              show sumBreaks _ + (piece.line_breaks - count_line_breaks deleted_text
                + sumBreaks _) + _ = _
              have h1 := hcu0 (by omega)
              omega
            · show flatTexts t (t.pieces.set i _) = FT ++ u ++ (w ++ FD)
              rw [hsetp, flatTexts_append, flatTexts_cons]
              rw [show pieceTextD t (shrinkLeftPiece piece
                  (e - t.get_piece_start_offset i - (a - t.get_piece_start_offset i))
                  (count_line_breaks deleted_text)) = w from by rw [pieceTextD, hpcpt]; rfl]
              rw [hu0]
              simp
          · rename_i hzero
            split at hok
            · -- right-edge shrink
              rename_i hend
              cases hok
              have hw0 : w = [] := byteLen_eq_zero (by omega)
              have hpcpt : pieceText t (shrinkRightPiece piece
                  (e - t.get_piece_start_offset i - (a - t.get_piece_start_offset i))
                  (count_line_breaks deleted_text)) = some u := by
                show sliceBytes (t.buf piece.source) piece.start
                  (piece.start + (piece.length - (e - t.get_piece_start_offset i
                    - (a - t.get_piece_start_offset i)))) = some u
                rw [show piece.length - (e - t.get_piece_start_offset i
                    - (a - t.get_piece_start_offset i))
                  = a - t.get_piece_start_offset i by omega]
                exact huslice
              refine ⟨rfl, rfl, rfl, rfl, ?_, ?_, ?_, ?_⟩
              · intro p hp
                have hp' : p ∈ t.pieces.take i ++ shrinkRightPiece piece
                    (e - t.get_piece_start_offset i - (a - t.get_piece_start_offset i))
                    (count_line_breaks deleted_text) :: t.pieces.drop (i + 1) := by
                  rw [← hsetp]
                  exact hp
                rcases List.mem_append.mp hp' with hl | hc
                · exact hvsub p (Or.inl hl)
                · rcases List.mem_cons.mp hc with rfl | hd
                  · refine ⟨u, hpcpt, ?_⟩
                    show piece.line_breaks - count_line_breaks deleted_text
                      = count_line_breaks u
                    have h2 := hcw0 (by omega)
                    omega
                  · exact hvsub p (Or.inr hd)
              · show sumLen (t.pieces.set i _) + byteLen deleted_text = sumLen t.pieces
                rw [hsetp, sumLen_append, sumLen_cons]
                show sumLen _ + (piece.length - (e - t.get_piece_start_offset i
                  - (a - t.get_piece_start_offset i)) + sumLen _) + _ = _
                omega
              · show sumBreaks (t.pieces.set i _) + count_line_breaks deleted_text
                  = sumBreaks t.pieces
                rw [hsetp, sumBreaks_append, sumBreaks_cons]
                show sumBreaks _ + (piece.line_breaks - count_line_breaks deleted_text
                  + sumBreaks _) + _ = _
                have h2 := hcw0 (by omega)
                omega
              · show flatTexts t (t.pieces.set i _) = FT ++ u ++ (w ++ FD)
                rw [hsetp, flatTexts_append, flatTexts_cons]
                rw [show pieceTextD t (shrinkRightPiece piece
                    (e - t.get_piece_start_offset i - (a - t.get_piece_start_offset i))
                    (count_line_breaks deleted_text)) = u from by rw [pieceTextD, hpcpt]; rfl]
                rw [hw0]
                simp
            · rename_i hend
              split at hok
              · -- interior split into left and right remainders
                rename_i right_text left_text hrt hlt3
                cases hok
                have hltu : left_text = u := by
                  have h1 : sliceBytes (t.buf piece.source)
                      (piece.start + 0) (piece.start + (a - t.get_piece_start_offset i))
                      = some left_text := by
                    rw [Nat.add_zero]
                    exact hlt3
                  have h2 := slice_within hpt h1 (by omega)
                  have h3 : sliceBytes ptext 0 (a - t.get_piece_start_offset i) = some u := by
                    rw [sliceBytes_zero_take, ← hul, hptss, List.append_assoc]
                    exact byteTake_byteLen_append _ _
                  exact Option.some_inj.mp (h2.symm.trans h3)
                have hrtw : right_text = w := by
                  have h2 := slice_within hpt hrt (le_refl _)
                  have h3 : sliceBytes ptext (e - t.get_piece_start_offset i)
                      (byteLen ptext) = some w := by
                    have hd := sliceBytes_of_byteDrop
                      (byteDrop_byteLen_append (u ++ deleted_text) w)
                    rw [← hptss] at hd
                    rw [show byteLen (u ++ deleted_text) = e - t.get_piece_start_offset i
                      from by rw [byteLen_append]; omega] at hd
                    exact hd
                  rw [hptlen] at h3
                  exact Option.some_inj.mp (h2.symm.trans h3)
                rw [hltu, hrtw]
                have hpieces2 : insertAt
                    (t.pieces.set i (splitLeftPiece piece (a - t.get_piece_start_offset i) u))
                    (i + 1) (splitRightPiece piece (e - t.get_piece_start_offset i) w)
                    = t.pieces.take i
                      ++ splitLeftPiece piece (a - t.get_piece_start_offset i) u
                      :: splitRightPiece piece (e - t.get_piece_start_offset i) w
                      :: t.pieces.drop (i + 1) := by
                  rw [hsetp]
                  exact insertAt_succ_append _ _ _ (by rw [hAlen])
                have hLPpt : pieceText t
                    (splitLeftPiece piece (a - t.get_piece_start_offset i) u) = some u := by
                  show sliceBytes (t.buf piece.source) piece.start
                    (piece.start + (a - t.get_piece_start_offset i)) = some u
                  exact huslice
                have hRPpt : pieceText t
                    (splitRightPiece piece (e - t.get_piece_start_offset i) w) = some w := by
                  show sliceBytes (t.buf piece.source)
                    (piece.start + (e - t.get_piece_start_offset i))
                    (piece.start + (e - t.get_piece_start_offset i)
                      + (piece.length - (e - t.get_piece_start_offset i))) = some w
                  rw [show piece.start + (e - t.get_piece_start_offset i)
                      + (piece.length - (e - t.get_piece_start_offset i))
                    = piece.start + piece.length by omega]
                  exact hwslice
                refine ⟨rfl, rfl, rfl, rfl, ?_, ?_, ?_, ?_⟩
                · intro p hp
                  have hp' : p ∈ t.pieces.take i
                      ++ splitLeftPiece piece (a - t.get_piece_start_offset i) u
                      :: splitRightPiece piece (e - t.get_piece_start_offset i) w
                      :: t.pieces.drop (i + 1) := by
                    rw [← hpieces2]
                    exact hp
                  rcases List.mem_append.mp hp' with hl | hc
                  · exact hvsub p (Or.inl hl)
                  · rcases List.mem_cons.mp hc with rfl | hd
                    · exact ⟨u, hLPpt, rfl⟩
                    · rcases List.mem_cons.mp hd with rfl | hd2
                      · exact ⟨w, hRPpt, rfl⟩
                      · exact hvsub p (Or.inr hd2)
                · show sumLen (insertAt _ _ _) + byteLen deleted_text = sumLen t.pieces
                  rw [hpieces2, sumLen_append, sumLen_cons, sumLen_cons]
                  show sumLen _ + (a - t.get_piece_start_offset i
                    + (piece.length - (e - t.get_piece_start_offset i) + sumLen _)) + _ = _
                  omega
                · show sumBreaks (insertAt _ _ _) + count_line_breaks deleted_text
                    = sumBreaks t.pieces
                  rw [hpieces2, sumBreaks_append, sumBreaks_cons, sumBreaks_cons]
                  show sumBreaks _ + (count_line_breaks u
                    + (count_line_breaks w + sumBreaks _)) + _ = _
                  omega
                · show flatTexts t (insertAt _ _ _) = FT ++ u ++ (w ++ FD)
                  rw [hpieces2, flatTexts_append, flatTexts_cons, flatTexts_cons]
                  rw [show pieceTextD t
                      (splitLeftPiece piece (a - t.get_piece_start_offset i) u) = u
                    from by rw [pieceTextD, hLPpt]; rfl]
                  rw [show pieceTextD t
                      (splitRightPiece piece (e - t.get_piece_start_offset i) w) = w
                    from by rw [pieceTextD, hRPpt]; rfl]
                  simp
              · cases hok

theorem sortDesc2_nil : sortDesc2 [] = [] := rfl

theorem sortDesc2_single (x : Nat) : sortDesc2 [x] = [x] := rfl

theorem sortDesc2_pair (x y : Nat) :
    sortDesc2 [x, y] = if y ≤ x then [x, y] else [y, x] := rfl

theorem take_at_append {A : List Piece} (r : List Piece) {i : Nat}
    (h : i = A.length) : (A ++ r).take i = A := by
  subst h
  rw [List.take_left]

theorem drop_at_append {A : List Piece} (r : List Piece) {i : Nat}
    (h : i = A.length) : (A ++ r).drop i = r := by
  subst h
  rw [List.drop_left]

/-- Correctness of `delete_across_pieces` when called, as `delete` calls it,
on the piece indices containing the two endpoints: the surviving pieces
spell the document with the byte range `[a, e)` removed, and the length and
line-break sums drop by exactly the deleted text's contribution. -/
theorem delete_across_ok {t : Table} (hInv : Inv t) {a e : Nat} {t1 : Table}
    (hae : a ≤ e) (he : e ≤ t.total_length)
    (hne : t.find_piece_containing_offset a ≠ t.find_piece_containing_offset e)
    (hok : t.delete_across_pieces (t.find_piece_containing_offset a)
      (t.find_piece_containing_offset e) a e = Res.ok t1) :
    ∃ A M B, byteTake a (docText t) = some A ∧ sliceBytes (docText t) a e = some M ∧
      byteDrop e (docText t) = some B ∧
      t1.original = t.original ∧ t1.add_buffer = t.add_buffer ∧
      t1.total_length = t.total_length ∧ t1.total_lines = t.total_lines ∧
      (∀ p ∈ t1.pieces, ∃ s, pieceText t p = some s ∧ p.line_breaks = count_line_breaks s) ∧
      sumLen t1.pieces + byteLen M = sumLen t.pieces ∧
      sumBreaks t1.pieces + count_line_breaks M = sumBreaks t.pieces ∧
      flatTexts t t1.pieces = A ++ B := by
  set spi := t.find_piece_containing_offset a with hspidef
  set epi := t.find_piece_containing_offset e with hepidef
  have haelt : a < e := by
    rcases Nat.lt_or_ge a e with h | h
    · exact h
    · exact absurd (by rw [hspidef, hepidef, show a = e by omega]) hne
  have halt : a < t.total_length := by omega
  obtain ⟨hsl, hsp1, hsp2, -⟩ := find_spec_lt hInv halt
  rw [← hspidef] at hsl hsp1 hsp2
  have hpsospi : t.get_piece_start_offset spi = sumLen (t.pieces.take spi) := rfl
  have hpsoepi : t.get_piece_start_offset epi = sumLen (t.pieces.take epi) := rfl
  have hepifacts : epi < t.pieces.length ∧ t.get_piece_start_offset epi ≤ e ∧
      e ≤ t.get_piece_start_offset epi + (getPiece t.pieces epi).length := by
    rcases Nat.lt_or_ge e t.total_length with hcase | hcase
    · obtain ⟨h1, h2, h3, -⟩ := find_spec_lt hInv hcase
      rw [← hepidef] at h1 h2 h3
      exact ⟨h1, h2, by omega⟩
    · have hetl : e = t.total_length := by omega
      have hlast : epi = t.pieces.length - 1 := by
        rw [hepidef]
        exact find_eq_last (by omega) hetl
      have hnn : t.pieces ≠ [] := pieces_ne_nil_of_tl_pos hInv (by omega)
      have hlenpos : 0 < t.pieces.length := List.length_pos.mpr hnn
      have hel : epi < t.pieces.length := by omega
      have hsucc := sumLen_take_succ hel
      have hfull : epi + 1 = t.pieces.length := by omega
      rw [hfull, List.take_length] at hsucc
      have htl := hInv.tl
      have hmono := sumLen_take_mono t.pieces (Nat.le_of_lt hel)
      rw [List.take_length] at hmono
      exact ⟨hel, by rw [hpsoepi]; omega, by rw [hpsoepi]; omega⟩
  obtain ⟨hel, hep1, hep2⟩ := hepifacts
  have hspilt : spi < epi := by
    by_contra hcon
    push_neg at hcon
    have hlt : epi < spi := by
      rcases Nat.lt_or_eq_of_le hcon with h2 | h2
      · exact h2
      · exact absurd h2.symm hne
    have hsucc := sumLen_take_succ hel
    have hmono := sumLen_take_mono t.pieces (show epi + 1 ≤ spi by omega)
    omega
  obtain ⟨s1, hpt1, hbr1⟩ := hInv.valid (getPiece t.pieces spi) (getPiece_mem hsl)
  rw [pieceText] at hpt1
  have hs1len : byteLen s1 = (getPiece t.pieces spi).length := by
    have := sliceBytes_byteLen hpt1
    omega
  obtain ⟨s2, hpt2, hbr2⟩ := hInv.valid (getPiece t.pieces epi) (getPiece_mem hel)
  rw [pieceText] at hpt2
  have hs2len : byteLen s2 = (getPiece t.pieces epi).length := by
    have := sliceBytes_byteLen hpt2
    omega
  have hAlen : (t.pieces.take spi).length = spi := by
    rw [List.length_take]
    omega
  have hdropepi : t.pieces.drop epi = getPiece t.pieces epi :: t.pieces.drop (epi + 1) := by
    rw [getPiece, List.getD_eq_getElem t.pieces _ hel]
    exact List.drop_eq_getElem_cons hel
  have hdropsplit : t.pieces.drop (spi + 1)
      = (t.pieces.drop (spi + 1)).take (epi - (spi + 1))
        ++ getPiece t.pieces epi :: t.pieces.drop (epi + 1) := by
    conv_lhs => rw [← List.take_append_drop (epi - (spi + 1)) (t.pieces.drop (spi + 1))]
    rw [List.drop_drop, show spi + 1 + (epi - (spi + 1)) = epi by omega, hdropepi]
  have hMlen : ((t.pieces.drop (spi + 1)).take (epi - (spi + 1))).length
      = epi - (spi + 1) := by
    rw [List.length_take, List.length_drop]
    omega
  have hdecomp : t.pieces = t.pieces.take spi ++ getPiece t.pieces spi
      :: ((t.pieces.drop (spi + 1)).take (epi - (spi + 1))
        ++ getPiece t.pieces epi :: t.pieces.drop (epi + 1)) := by
    conv_lhs => rw [pieces_decomp hsl]
    rw [← hdropsplit]
  have hsumtake : sumLen (t.pieces.take epi)
      = sumLen (t.pieces.take spi) + (getPiece t.pieces spi).length
        + sumLen ((t.pieces.drop (spi + 1)).take (epi - (spi + 1))) := by
    have htk : t.pieces.take epi
        = t.pieces.take spi ++ getPiece t.pieces spi
          :: (t.pieces.drop (spi + 1)).take (epi - (spi + 1)) := by
      conv_lhs => rw [hdecomp]
      rw [show t.pieces.take spi ++ getPiece t.pieces spi
          :: ((t.pieces.drop (spi + 1)).take (epi - (spi + 1))
            ++ getPiece t.pieces epi :: t.pieces.drop (epi + 1))
        = (t.pieces.take spi ++ getPiece t.pieces spi
            :: (t.pieces.drop (spi + 1)).take (epi - (spi + 1)))
          ++ getPiece t.pieces epi :: t.pieces.drop (epi + 1) by simp]
      exact take_at_append _ (by rw [List.length_append, List.length_cons, hAlen, hMlen]; omega)
    rw [htk, sumLen_append, sumLen_cons]
    omega
  have hsumall : sumLen t.pieces
      = sumLen (t.pieces.take spi) + (getPiece t.pieces spi).length
        + sumLen ((t.pieces.drop (spi + 1)).take (epi - (spi + 1)))
        + (getPiece t.pieces epi).length + sumLen (t.pieces.drop (epi + 1)) := by
    conv_lhs => rw [hdecomp]
    rw [sumLen_append, sumLen_cons, sumLen_append, sumLen_cons]
    omega
  have hsumbr : sumBreaks t.pieces
      = sumBreaks (t.pieces.take spi) + (getPiece t.pieces spi).line_breaks
        + sumBreaks ((t.pieces.drop (spi + 1)).take (epi - (spi + 1)))
        + (getPiece t.pieces epi).line_breaks + sumBreaks (t.pieces.drop (epi + 1)) := by
    conv_lhs => rw [hdecomp]
    rw [sumBreaks_append, sumBreaks_cons, sumBreaks_append, sumBreaks_cons]
    omega
  simp only [Table.delete_across_pieces] at hok
  split at hok
  · cases hok
  · split at hok
    · cases hok
    · rename_i first_keep hfk
      have hoipF : a - t.get_piece_start_offset spi ≤ (getPiece t.pieces spi).length := by
        omega
      have hfk1 : byteTake (a - t.get_piece_start_offset spi) s1 = some first_keep := by
        rw [← sliceBytes_zero_take]
        refine slice_within hpt1 ?_ hoipF
        rw [Nat.add_zero]
        exact hfk
      obtain ⟨v1, hs1ss, hfklen⟩ := byteTake_eq_some_iff.mp hfk1
      have hv1len : byteLen v1
          = (getPiece t.pieces spi).length - (a - t.get_piece_start_offset spi) := by
        have := congrArg byteLen hs1ss
        rw [byteLen_append] at this
        omega
      set P1 := splitLeftPiece (getPiece t.pieces spi)
        (a - t.get_piece_start_offset spi) first_keep with hP1def
      have hsetP1 : t.pieces.set spi P1
          = t.pieces.take spi ++ P1
            :: ((t.pieces.drop (spi + 1)).take (epi - (spi + 1))
              ++ getPiece t.pieces epi :: t.pieces.drop (epi + 1)) := by
        conv_lhs => rw [hdecomp]
        exact set_at_append _ _ _ hAlen.symm
      have hXlen : (t.pieces.take spi ++ P1
          :: (t.pieces.drop (spi + 1)).take (epi - (spi + 1))).length = epi := by
        rw [List.length_append, List.length_cons, hAlen, hMlen]
        omega
      have hgp2 : getPiece (t.pieces.set spi P1) epi = getPiece t.pieces epi := by
        rw [hsetP1]
        rw [show t.pieces.take spi ++ P1
            :: ((t.pieces.drop (spi + 1)).take (epi - (spi + 1))
              ++ getPiece t.pieces epi :: t.pieces.drop (epi + 1))
          = (t.pieces.take spi ++ P1
              :: (t.pieces.drop (spi + 1)).take (epi - (spi + 1)))
            ++ getPiece t.pieces epi :: t.pieces.drop (epi + 1) by simp]
        rw [getPiece_append_right _ _ hXlen.le, hXlen, Nat.sub_self]
        rfl
      rw [hgp2] at hok
      split at hok
      · cases hok
      · rename_i last_keep hlk
        have hoipL : e - t.get_piece_start_offset epi ≤ (getPiece t.pieces epi).length := by
          omega
        have hlk1 : sliceBytes s2 (e - t.get_piece_start_offset epi)
            (getPiece t.pieces epi).length = some last_keep := by
          refine slice_within hpt2 ?_ (le_refl _)
          rw [show (getPiece t.pieces epi).start + (getPiece t.pieces epi).length
            = (getPiece t.pieces epi).start + (e - t.get_piece_start_offset epi)
              + ((getPiece t.pieces epi).length - (e - t.get_piece_start_offset epi))
            by omega]
          exact hlk
        obtain ⟨-, hlklen, u2, w2, hs2ss, hu2len⟩ := sliceBytes_eq_some_iff.mp hlk1
        have hw2nil : w2 = [] := by
          apply byteLen_eq_zero
          have := congrArg byteLen hs2ss
          rw [byteLen_append, byteLen_append] at this
          omega
        rw [hw2nil, List.append_nil] at hs2ss
        set P2 := tailPiece (getPiece t.pieces epi)
          (e - t.get_piece_start_offset epi) last_keep with hP2def
        cases hok
        set FA := flatTexts t (t.pieces.take spi) with hFA
        set FM := flatTexts t ((t.pieces.drop (spi + 1)).take (epi - (spi + 1))) with hFM
        set FB := flatTexts t (t.pieces.drop (epi + 1)) with hFB
        have hFAlen : byteLen FA = sumLen (t.pieces.take spi) :=
          byteLen_flatTexts (fun p hp => byteLen_pieceTextD hInv (List.take_subset _ _ hp))
        have hFMlen : byteLen FM
            = sumLen ((t.pieces.drop (spi + 1)).take (epi - (spi + 1))) :=
          byteLen_flatTexts (fun p hp => byteLen_pieceTextD hInv
            (List.drop_subset _ _ (List.take_subset _ _ hp)))
        have hFBlen : byteLen FB = sumLen (t.pieces.drop (epi + 1)) :=
          byteLen_flatTexts (fun p hp => byteLen_pieceTextD hInv (List.drop_subset _ _ hp))
        have hFMbr : count_line_breaks FM
            = sumBreaks ((t.pieces.drop (spi + 1)).take (epi - (spi + 1))) :=
          count_flatTexts (fun p hp => breaks_pieceTextD hInv
            (List.drop_subset _ _ (List.take_subset _ _ hp)))
        have hdoc : docText t = FA ++ (s1 ++ (FM ++ (s2 ++ FB))) := by
          rw [docText_eq_flatTexts]
          conv_lhs => rw [hdecomp]
          rw [flatTexts_append, flatTexts_cons, flatTexts_append, flatTexts_cons]
          rw [show pieceTextD t (getPiece t.pieces spi) = s1 by
            rw [pieceTextD, pieceText, hpt1]; rfl]
          rw [show pieceTextD t (getPiece t.pieces epi) = s2 by
            rw [pieceTextD, pieceText, hpt2]; rfl]
        have hAeq : a = byteLen (FA ++ first_keep) := by
          rw [byteLen_append]
          omega
        have hdoc2 : docText t
            = (FA ++ first_keep) ++ (v1 ++ (FM ++ (u2 ++ (last_keep ++ FB)))) := by
          rw [hdoc, hs1ss, hs2ss]
          simp [List.append_assoc]
        have hA : byteTake a (docText t) = some (FA ++ first_keep) := by
          rw [hdoc2, hAeq]
          exact byteTake_byteLen_append _ _
        have hBeq : e = byteLen ((FA ++ first_keep) ++ (v1 ++ (FM ++ u2))) := by
          simp only [byteLen_append]
          omega
        have hdoc3 : docText t
            = ((FA ++ first_keep) ++ (v1 ++ (FM ++ u2))) ++ (last_keep ++ FB) := by
          rw [hdoc, hs1ss, hs2ss]
          simp [List.append_assoc]
        have hB : byteDrop e (docText t) = some (last_keep ++ FB) := by
          rw [hdoc3, hBeq]
          exact byteDrop_byteLen_append _ _
        have hM : sliceBytes (docText t) a e = some (v1 ++ (FM ++ u2)) := by
          rw [sliceBytes_eq_some_iff]
          refine ⟨by omega, ?_, FA ++ first_keep, last_keep ++ FB, ?_, hAeq.symm⟩
          · simp only [byteLen_append]
            omega
          · rw [hdoc, hs1ss, hs2ss]
            simp [List.append_assoc]
        refine ⟨FA ++ first_keep, v1 ++ (FM ++ u2), last_keep ++ FB, hA, hM, hB, ?_⟩
        have hR : (t.pieces.set spi P1).set epi P2
            = t.pieces.take spi ++ P1
              :: ((t.pieces.drop (spi + 1)).take (epi - (spi + 1))
                ++ P2 :: t.pieces.drop (epi + 1)) := by
          rw [hsetP1]
          rw [show t.pieces.take spi ++ P1
              :: ((t.pieces.drop (spi + 1)).take (epi - (spi + 1))
                ++ getPiece t.pieces epi :: t.pieces.drop (epi + 1))
            = (t.pieces.take spi ++ P1
                :: (t.pieces.drop (spi + 1)).take (epi - (spi + 1)))
              ++ getPiece t.pieces epi :: t.pieces.drop (epi + 1) by simp]
          rw [set_at_append _ _ _ hXlen.symm]
          simp
        have hfold : (if epi > spi + 1
            then (t.pieces.take spi ++ P1
              :: ((t.pieces.drop (spi + 1)).take (epi - (spi + 1))
                ++ P2 :: t.pieces.drop (epi + 1))).take (spi + 1)
              ++ (t.pieces.take spi ++ P1
                :: ((t.pieces.drop (spi + 1)).take (epi - (spi + 1))
                  ++ P2 :: t.pieces.drop (epi + 1))).drop epi
            else t.pieces.take spi ++ P1
              :: ((t.pieces.drop (spi + 1)).take (epi - (spi + 1))
                ++ P2 :: t.pieces.drop (epi + 1)))
            = t.pieces.take spi ++ P1 :: P2 :: t.pieces.drop (epi + 1) := by
          by_cases hdr : epi > spi + 1
          · rw [if_pos hdr]
            have h1 : (t.pieces.take spi ++ P1
                :: ((t.pieces.drop (spi + 1)).take (epi - (spi + 1))
                  ++ P2 :: t.pieces.drop (epi + 1))).take (spi + 1)
                = t.pieces.take spi ++ [P1] := by
              rw [show t.pieces.take spi ++ P1
                  :: ((t.pieces.drop (spi + 1)).take (epi - (spi + 1))
                    ++ P2 :: t.pieces.drop (epi + 1))
                = (t.pieces.take spi ++ [P1])
                  ++ ((t.pieces.drop (spi + 1)).take (epi - (spi + 1))
                    ++ P2 :: t.pieces.drop (epi + 1)) by simp]
              exact take_at_append _ (by simp [hAlen])
            have hXlen2 : (t.pieces.take spi ++ P1
                :: (t.pieces.drop (spi + 1)).take (epi - (spi + 1))).length = epi := hXlen
            have h2 : (t.pieces.take spi ++ P1
                :: ((t.pieces.drop (spi + 1)).take (epi - (spi + 1))
                  ++ P2 :: t.pieces.drop (epi + 1))).drop epi
                = P2 :: t.pieces.drop (epi + 1) := by
              rw [show t.pieces.take spi ++ P1
                  :: ((t.pieces.drop (spi + 1)).take (epi - (spi + 1))
                    ++ P2 :: t.pieces.drop (epi + 1))
                = (t.pieces.take spi ++ P1
                    :: (t.pieces.drop (spi + 1)).take (epi - (spi + 1)))
                  ++ P2 :: t.pieces.drop (epi + 1) by simp]
              exact drop_at_append _ hXlen2.symm
            rw [h1, h2]
            simp
          · rw [if_neg hdr]
            have hM0 : (t.pieces.drop (spi + 1)).take (epi - (spi + 1)) = [] := by
              rw [show epi - (spi + 1) = 0 by omega, List.take_zero]
            rw [hM0]
            rfl
        have hendIdx : (if epi > spi + 1 then spi + 1 else epi) = spi + 1 := by
          by_cases hdr : epi > spi + 1
          · rw [if_pos hdr]
          · rw [if_neg hdr]
            omega
        have hLg1 : getPiece (t.pieces.take spi ++ P1 :: P2 :: t.pieces.drop (epi + 1))
            (spi + 1) = P2 := by
          rw [show t.pieces.take spi ++ P1 :: P2 :: t.pieces.drop (epi + 1)
            = (t.pieces.take spi ++ [P1]) ++ P2 :: t.pieces.drop (epi + 1) by simp]
          rw [getPiece_append_right _ _ (by simp [hAlen])]
          rw [show spi + 1 - (t.pieces.take spi ++ [P1]).length = 0 by simp [hAlen]]
          rfl
        have hLg0 : getPiece (t.pieces.take spi ++ P1 :: P2 :: t.pieces.drop (epi + 1)) spi
            = P1 := by
          rw [getPiece_append_right _ _ hAlen.le]
          rw [show spi - (t.pieces.take spi).length = 0 by rw [hAlen]; omega]
          rfl
        have hLlen : (t.pieces.take spi ++ P1 :: P2 :: t.pieces.drop (epi + 1)).length
            = spi + 2 + (t.pieces.drop (epi + 1)).length := by
          rw [List.length_append, List.length_cons, List.length_cons, hAlen]
          omega
        have hP1len : P1.length = a - t.get_piece_start_offset spi := rfl
        have hP2len : P2.length
            = (getPiece t.pieces epi).length - (e - t.get_piece_start_offset epi) := rfl
        have hP1br : P1.line_breaks = count_line_breaks first_keep := rfl
        have hP2br : P2.line_breaks = count_line_breaks last_keep := rfl
        have hptP1 : pieceText t P1 = some first_keep := by
          rw [hP1def]
          show sliceBytes (t.buf (getPiece t.pieces spi).source) (getPiece t.pieces spi).start
            ((getPiece t.pieces spi).start + (a - t.get_piece_start_offset spi))
            = some first_keep
          exact hfk
        have hptP2 : pieceText t P2 = some last_keep := by
          rw [hP2def]
          show sliceBytes (t.buf (getPiece t.pieces epi).source)
            ((getPiece t.pieces epi).start + (e - t.get_piece_start_offset epi))
            ((getPiece t.pieces epi).start + (e - t.get_piece_start_offset epi)
              + ((getPiece t.pieces epi).length - (e - t.get_piece_start_offset epi)))
            = some last_keep
          exact hlk
        have hptdP1 : pieceTextD t P1 = first_keep := by
          rw [pieceTextD, hptP1]
          rfl
        have hptdP2 : pieceTextD t P2 = last_keep := by
          rw [pieceTextD, hptP2]
          rfl
        have hbr1' : (getPiece t.pieces spi).line_breaks
            = count_line_breaks first_keep + count_line_breaks v1 := by
          rw [hbr1, hs1ss, count_line_breaks_append]
        have hbr2' : (getPiece t.pieces epi).line_breaks
            = count_line_breaks u2 + count_line_breaks last_keep := by
          rw [hbr2, hs2ss, count_line_breaks_append]
        have hvsub : ∀ p, p ∈ t.pieces.take spi ∨ p ∈ t.pieces.drop (epi + 1) →
            ∃ s, pieceText t p = some s ∧ p.line_breaks = count_line_breaks s := by
          intro p hp
          rcases hp with hp | hp
          · exact hInv.valid p (List.take_subset _ _ hp)
          · exact hInv.valid p (List.drop_subset _ _ hp)
        have hEr1 : (t.pieces.take spi ++ P1 :: P2 :: t.pieces.drop (epi + 1)).eraseIdx
            (spi + 1) = t.pieces.take spi ++ P1 :: t.pieces.drop (epi + 1) := by
          rw [show t.pieces.take spi ++ P1 :: P2 :: t.pieces.drop (epi + 1)
            = (t.pieces.take spi ++ [P1]) ++ P2 :: t.pieces.drop (epi + 1) by simp]
          rw [eraseIdx_at_append _ _ (by simp [hAlen])]
          simp
        have hEr0 : (t.pieces.take spi ++ P1 :: P2 :: t.pieces.drop (epi + 1)).eraseIdx spi
            = t.pieces.take spi ++ P2 :: t.pieces.drop (epi + 1) :=
          eraseIdx_at_append _ _ hAlen.symm
        have hEr0' : (t.pieces.take spi ++ P1 :: t.pieces.drop (epi + 1)).eraseIdx spi
            = t.pieces.take spi ++ t.pieces.drop (epi + 1) :=
          eraseIdx_at_append _ _ hAlen.symm
        have hL1len : (t.pieces.take spi ++ P1 :: t.pieces.drop (epi + 1)).length
            = spi + 1 + (t.pieces.drop (epi + 1)).length := by
          rw [List.length_append, List.length_cons, hAlen]
          omega
        rw [hR, hfold, hendIdx, hLg1, hLg0, hLlen]
        by_cases hq2 : P2.length = 0
        · by_cases hq1 : P1.length = 0
          · -- both edge remainders are empty: both pieces are removed
            have hlk0 : last_keep = [] := byteLen_eq_zero (by omega)
            have hclk0 : count_line_breaks last_keep = 0 := by
              rw [hlk0]
              rfl
            have hfk0 : first_keep = [] := byteLen_eq_zero (by omega)
            have hcfk0 : count_line_breaks first_keep = 0 := by
              rw [hfk0]
              rfl
            rw [if_pos ⟨hq1, by omega, by omega⟩]
            rw [if_pos ⟨hq2, by omega⟩]
            simp only [List.cons_append, List.nil_append]
            rw [sortDesc2_pair, if_pos (Nat.le_succ spi)]
            simp only [removeIdxs, List.foldl_cons, List.foldl_nil]
            rw [if_pos (show spi + 1 < (t.pieces.take spi ++ P1 :: P2
                :: t.pieces.drop (epi + 1)).length by rw [hLlen]; omega)]
            rw [hEr1]
            rw [if_pos (show spi < (t.pieces.take spi ++ P1
                :: t.pieces.drop (epi + 1)).length by rw [hL1len]; omega)]
            rw [hEr0']
            refine ⟨by trivial, by trivial, by trivial, by trivial, ?_, ?_, ?_, ?_⟩
            · intro p hp
              have hp' : p ∈ t.pieces.take spi ++ t.pieces.drop (epi + 1) := hp
              exact hvsub p (List.mem_append.mp hp')
            · show sumLen (t.pieces.take spi ++ t.pieces.drop (epi + 1))
                + byteLen (v1 ++ (FM ++ u2)) = sumLen t.pieces
              rw [sumLen_append, byteLen_append, byteLen_append]
              omega
            · show sumBreaks (t.pieces.take spi ++ t.pieces.drop (epi + 1))
                + count_line_breaks (v1 ++ (FM ++ u2)) = sumBreaks t.pieces
              rw [sumBreaks_append, count_line_breaks_append, count_line_breaks_append]
              omega
            · show flatTexts t (t.pieces.take spi ++ t.pieces.drop (epi + 1))
                = (FA ++ first_keep) ++ (last_keep ++ FB)
              rw [flatTexts_append, ← hFA, ← hFB, hfk0, hlk0]
              simp
          · -- only the tail remainder is empty: the end piece is removed
            have hlk0 : last_keep = [] := byteLen_eq_zero (by omega)
            have hclk0 : count_line_breaks last_keep = 0 := by
              rw [hlk0]
              rfl
            rw [if_neg (fun hc => hq1 hc.1)]
            rw [if_pos ⟨hq2, by omega⟩]
            rw [sortDesc2_single]
            simp only [removeIdxs, List.foldl_cons, List.foldl_nil]
            rw [if_pos (show spi + 1 < (t.pieces.take spi ++ P1 :: P2
                :: t.pieces.drop (epi + 1)).length by rw [hLlen]; omega)]
            rw [hEr1]
            refine ⟨by trivial, by trivial, by trivial, by trivial, ?_, ?_, ?_, ?_⟩
            · intro p hp
              have hp' : p ∈ t.pieces.take spi ++ P1 :: t.pieces.drop (epi + 1) := hp
              rcases List.mem_append.mp hp' with hl | hc
              · exact hvsub p (Or.inl hl)
              · rcases List.mem_cons.mp hc with rfl | hc2
                · exact ⟨first_keep, hptP1, hP1br⟩
                · exact hvsub p (Or.inr hc2)
            · show sumLen (t.pieces.take spi ++ P1 :: t.pieces.drop (epi + 1))
                + byteLen (v1 ++ (FM ++ u2)) = sumLen t.pieces
              rw [sumLen_append, sumLen_cons, byteLen_append, byteLen_append]
              omega
            · show sumBreaks (t.pieces.take spi ++ P1 :: t.pieces.drop (epi + 1))
                + count_line_breaks (v1 ++ (FM ++ u2)) = sumBreaks t.pieces
              rw [sumBreaks_append, sumBreaks_cons, count_line_breaks_append,
                count_line_breaks_append]
              omega
            · show flatTexts t (t.pieces.take spi ++ P1 :: t.pieces.drop (epi + 1))
                = (FA ++ first_keep) ++ (last_keep ++ FB)
              rw [flatTexts_append, flatTexts_cons, hptdP1, ← hFA, ← hFB, hlk0]
              simp
        · by_cases hq1 : P1.length = 0
          · -- only the head remainder is empty: the start piece is removed
            have hfk0 : first_keep = [] := byteLen_eq_zero (by omega)
            have hcfk0 : count_line_breaks first_keep = 0 := by
              rw [hfk0]
              rfl
            rw [if_pos ⟨hq1, by omega, by omega⟩]
            rw [if_neg (fun hc => hq2 hc.1)]
            simp only [List.nil_append]
            rw [sortDesc2_single]
            simp only [removeIdxs, List.foldl_cons, List.foldl_nil]
            rw [if_pos (show spi < (t.pieces.take spi ++ P1 :: P2
                :: t.pieces.drop (epi + 1)).length by rw [hLlen]; omega)]
            rw [hEr0]
            refine ⟨by trivial, by trivial, by trivial, by trivial, ?_, ?_, ?_, ?_⟩
            · intro p hp
              have hp' : p ∈ t.pieces.take spi ++ P2 :: t.pieces.drop (epi + 1) := hp
              rcases List.mem_append.mp hp' with hl | hc
              · exact hvsub p (Or.inl hl)
              · rcases List.mem_cons.mp hc with rfl | hc2
                · exact ⟨last_keep, hptP2, hP2br⟩
                · exact hvsub p (Or.inr hc2)
            · show sumLen (t.pieces.take spi ++ P2 :: t.pieces.drop (epi + 1))
                + byteLen (v1 ++ (FM ++ u2)) = sumLen t.pieces
              rw [sumLen_append, sumLen_cons, byteLen_append, byteLen_append]
              omega
            · show sumBreaks (t.pieces.take spi ++ P2 :: t.pieces.drop (epi + 1))
                + count_line_breaks (v1 ++ (FM ++ u2)) = sumBreaks t.pieces
              rw [sumBreaks_append, sumBreaks_cons, count_line_breaks_append,
                count_line_breaks_append]
              omega
            · show flatTexts t (t.pieces.take spi ++ P2 :: t.pieces.drop (epi + 1))
                = (FA ++ first_keep) ++ (last_keep ++ FB)
              rw [flatTexts_append, flatTexts_cons, hptdP2, ← hFA, ← hFB, hfk0]
              simp
          · -- both remainders survive
            rw [if_neg (fun hc => hq1 hc.1)]
            rw [if_neg (fun hc => hq2 hc.1)]
            rw [sortDesc2_nil]
            simp only [removeIdxs, List.foldl_nil]
            refine ⟨by trivial, by trivial, by trivial, by trivial, ?_, ?_, ?_, ?_⟩
            · intro p hp
              have hp' : p ∈ t.pieces.take spi ++ P1 :: P2 :: t.pieces.drop (epi + 1) := hp
              rcases List.mem_append.mp hp' with hl | hc
              · exact hvsub p (Or.inl hl)
              · rcases List.mem_cons.mp hc with rfl | hc2
                · exact ⟨first_keep, hptP1, hP1br⟩
                · rcases List.mem_cons.mp hc2 with rfl | hc3
                  · exact ⟨last_keep, hptP2, hP2br⟩
                  · exact hvsub p (Or.inr hc3)
            · show sumLen (t.pieces.take spi ++ P1 :: P2 :: t.pieces.drop (epi + 1))
                + byteLen (v1 ++ (FM ++ u2)) = sumLen t.pieces
              rw [sumLen_append, sumLen_cons, sumLen_cons, byteLen_append, byteLen_append]
              omega
            · show sumBreaks (t.pieces.take spi ++ P1 :: P2 :: t.pieces.drop (epi + 1))
                + count_line_breaks (v1 ++ (FM ++ u2)) = sumBreaks t.pieces
              rw [sumBreaks_append, sumBreaks_cons, sumBreaks_cons,
                count_line_breaks_append, count_line_breaks_append]
              omega
            · show flatTexts t (t.pieces.take spi ++ P1 :: P2 :: t.pieces.drop (epi + 1))
                = (FA ++ first_keep) ++ (last_keep ++ FB)
              rw [flatTexts_append, flatTexts_cons, flatTexts_cons, hptdP1, hptdP2,
                ← hFA, ← hFB]
              simp

/-- Correctness of `Table::delete` on success: the invariant is preserved,
the new document is the old one with the byte range
`[start, start + length)` spliced out, the totals drop by the deleted
text's length and line-break count, and the buffers are untouched. -/
theorem delete_ok {t : Table} (hInv : Inv t) {start length : Nat} {t2 : Table}
    (hok : t.delete start length = Res.ok t2) :
    Inv t2 ∧ start + length ≤ t.total_length ∧
    (∃ A M B, byteTake start (docText t) = some A ∧
      sliceBytes (docText t) start (start + length) = some M ∧
      byteDrop (start + length) (docText t) = some B ∧
      docText t2 = A ++ B ∧
      t2.total_length = t.total_length - length ∧
      t2.total_lines = t.total_lines - count_line_breaks M) ∧
    t2.original = t.original ∧ t2.add_buffer = t.add_buffer := by
  simp only [Table.delete] at hok
  split at hok
  · cases hok
  · rename_i hguard
    split at hok
    · cases hok
    · rename_i deletedLines hdl
      split at hok
      · cases hok
      · cases hok
      · rename_i t1 hmid
        have hsplit : ∃ A M B, byteTake start (docText t) = some A ∧
            sliceBytes (docText t) start (start + length) = some M ∧
            byteDrop (start + length) (docText t) = some B ∧
            t1.original = t.original ∧ t1.add_buffer = t.add_buffer ∧
            t1.total_length = t.total_length ∧ t1.total_lines = t.total_lines ∧
            (∀ p ∈ t1.pieces, ∃ s, pieceText t p = some s
              ∧ p.line_breaks = count_line_breaks s) ∧
            sumLen t1.pieces + byteLen M = sumLen t.pieces ∧
            sumBreaks t1.pieces + count_line_breaks M = sumBreaks t.pieces ∧
            flatTexts t t1.pieces = A ++ B := by
          by_cases hfe : t.find_piece_containing_offset start
              = t.find_piece_containing_offset (start + length)
          · rw [if_pos hfe] at hmid
            exact delete_within_ok hInv (by omega) (by omega) hmid
          · rw [if_neg hfe] at hmid
            exact delete_across_ok hInv (by omega) (by omega) hfe hmid
        obtain ⟨A, M, B, hA, hM, hB, hOrig, hAdd, hTl1, hLn1, hValid, hSum, hBr, hFlat⟩ :=
          hsplit
        have hMlen : byteLen M = length := by
          have := sliceBytes_byteLen hM
          omega
        have hdlval : deletedLines = count_line_breaks M := by
          have hg : t.get_text start (start + length - start) = some M := by
            rw [show start + length - start = length by omega]
            exact get_text_model hInv (by omega) hM
          rw [Table.count_line_breaks_in_range, hg] at hdl
          simp only [Option.map_some'] at hdl
          exact (Option.some_inj.mp hdl).symm
        have htltl := hInv.tl
        have htlln := hInv.lines
        by_cases hemp : t1.pieces = []
        · rw [if_pos hemp] at hok
          simp only [] at hok
          rw [if_pos hemp] at hok
          cases hok
          rw [hemp] at hSum hBr hFlat
          rw [sumLen_nil] at hSum
          rw [sumBreaks_nil] at hBr
          rw [flatTexts_nil] at hFlat
          refine ⟨⟨?_, ?_, ?_⟩, by omega, ⟨A, M, B, hA, hM, hB, ?_, ?_, ?_⟩, hOrig, hAdd⟩
          · intro p hp
            have hp' : p ∈ t1.pieces := hp
            rw [hemp] at hp'
            cases hp'
          · show t1.total_length - length = sumLen t1.pieces
            rw [hemp, sumLen_nil]
            omega
          · show 1 = 1 + sumBreaks t1.pieces
            rw [hemp, sumBreaks_nil]
          · show docText { { t1 with total_length := t1.total_length - length, total_lines := t1.total_lines - deletedLines } with total_lines := 1 } = A ++ B
            rw [docText_eq_flatTexts]
            show flatTexts _ t1.pieces = A ++ B
            rw [hemp, flatTexts_nil, ← hFlat]
          · show t1.total_length - length = t.total_length - length
            omega
          · show (1 : Nat) = t.total_lines - count_line_breaks M
            omega
        · rw [if_neg hemp] at hok
          simp only [] at hok
          rw [if_neg hemp] at hok
          cases hok
          have ho2 : ({ t1 with total_length := t1.total_length - length, total_lines := t1.total_lines - deletedLines } : Table).original = t.original := hOrig
          have ha2 : ({ t1 with total_length := t1.total_length - length, total_lines := t1.total_lines - deletedLines } : Table).add_buffer = t.add_buffer := hAdd
          have hInv2 : Inv { t1 with total_length := t1.total_length - length, total_lines := t1.total_lines - deletedLines } := by
            refine ⟨?_, ?_, ?_⟩
            · intro p hp
              have hp' : p ∈ t1.pieces := hp
              obtain ⟨s, hs, hbs⟩ := hValid p hp'
              refine ⟨s, ?_, hbs⟩
              rw [pieceText_congr ho2 ha2]
              exact hs
            · show t1.total_length - length = sumLen t1.pieces
              omega
            · show t1.total_lines - deletedLines = 1 + sumBreaks t1.pieces
              omega
          obtain ⟨hI3, hD3, hT3, hL3, hO3, hA3⟩ :=
            coalesce_preserves hInv2 (t.find_piece_containing_offset start)
          have hd2 : docText { t1 with total_length := t1.total_length - length, total_lines := t1.total_lines - deletedLines } = A ++ B := by
            rw [docText_eq_flatTexts, flatTexts_congr ho2 ha2]
            exact hFlat
          refine ⟨hI3, by omega, ⟨A, M, B, hA, hM, hB, ?_, ?_, ?_⟩, ?_, ?_⟩
          · rw [hD3]
            exact hd2
          · rw [hT3]
            show t1.total_length - length = t.total_length - length
            omega
          · rw [hL3]
            show t1.total_lines - deletedLines = t.total_lines - count_line_breaks M
            omega
          · rw [hO3]
            exact ho2
          · rw [hA3]
            exact ha2

/-! ### New tables, edit sequences, and the plain-string splice model -/

theorem pieceText_new (s : Str) :
    pieceText (Table.new s) (⟨ID.Original, 0, byteLen s, count_line_breaks s⟩ : Piece)
      = some s := by
  show sliceBytes s 0 (0 + byteLen s) = some s
  rw [Nat.zero_add]
  exact sliceBytes_full s

theorem Inv_new (s : Str) : Inv (Table.new s) := by
  refine ⟨?_, ?_, ?_⟩
  · intro p hp
    have hp' : p = ⟨ID.Original, 0, byteLen s, count_line_breaks s⟩ := by
      rcases List.mem_singleton.mp hp with rfl
      rfl
    subst hp'
    exact ⟨s, pieceText_new s, rfl⟩
  · show byteLen s = sumLen [⟨ID.Original, 0, byteLen s, count_line_breaks s⟩]
    rw [sumLen_cons, sumLen_nil]
    rfl
  · show count_line_breaks s + 1
      = 1 + sumBreaks [⟨ID.Original, 0, byteLen s, count_line_breaks s⟩]
    rw [sumBreaks_cons, sumBreaks_nil]
    show count_line_breaks s + 1 = 1 + (count_line_breaks s + 0)
    omega

theorem docText_new (s : Str) : docText (Table.new s) = s := by
  rw [docText_eq_flatTexts]
  show flatTexts (Table.new s) [⟨ID.Original, 0, byteLen s, count_line_breaks s⟩] = s
  rw [flatTexts_cons, flatTexts_nil, List.append_nil, pieceTextD, pieceText_new s]
  rfl

/-- One editing call of the public API. -/
inductive Op where
  | insert (offset : Nat) (text : Str)
  | delete (start length : Nat)
  deriving Repr, DecidableEq

/-- Apply one call to a table. -/
def applyOp (t : Table) : Op → Res
  | Op.insert offset text => t.insert offset text
  | Op.delete start length => t.delete start length

/-- Run a sequence of calls, requiring every one to return `Ok`. -/
def runOps (t : Table) : List Op → Option Table
  | [] => some t
  | op :: rest =>
    match applyOp t op with
    | Res.ok t1 => runOps t1 rest
    | _ => none

/-- Apply one call to a plain string by splicing. -/
def applyModel (s : Str) : Op → Option Str
  | Op.insert offset text => spliceInsert s offset text
  | Op.delete start length => spliceDelete s start length

/-- Run a sequence of calls on a plain string by splicing. -/
def runModel (s : Str) : List Op → Option Str
  | [] => some s
  | op :: rest =>
    match applyModel s op with
    | some s1 => runModel s1 rest
    | none => none

theorem runModel_cons {s s1 : Str} {op : Op} {rest : List Op}
    (h : applyModel s op = some s1) :
    runModel s (op :: rest) = runModel s1 rest := by
  rw [runModel, h]

/-- Tables reachable from `Table::new` by successful edits. -/
inductive Reach : Table → Prop where
  | new (s : Str) : Reach (Table.new s)
  | insert {t t' : Table} {o : Nat} {text : Str} (h : Reach t)
      (hok : t.insert o text = Res.ok t') : Reach t'
  | delete {t t' : Table} {s l : Nat} (h : Reach t)
      (hok : t.delete s l = Res.ok t') : Reach t'

theorem Reach_Inv {t : Table} (h : Reach t) : Inv t := by
  induction h with
  | new s => exact Inv_new s
  | insert h hok ih => exact (insert_ok ih hok).1
  | delete h hok ih => exact (delete_ok ih hok).1

theorem applyOp_model {t t1 : Table} (hInv : Inv t) {op : Op}
    (hok : applyOp t op = Res.ok t1) :
    Inv t1 ∧ applyModel (docText t) op = some (docText t1) := by
  cases op with
  | insert offset text =>
    obtain ⟨hI, -, ⟨A, B, hA, hB, hD⟩, -⟩ := insert_ok hInv hok
    refine ⟨hI, ?_⟩
    show spliceInsert (docText t) offset text = some (docText t1)
    rw [spliceInsert, hA, hB, hD]
  | delete start length =>
    obtain ⟨hI, -, ⟨A, M, B, hA, hM, hB, hD, -⟩, -⟩ := delete_ok hInv hok
    refine ⟨hI, ?_⟩
    show spliceDelete (docText t) start length = some (docText t1)
    rw [spliceDelete, hA, hB, hD]

theorem runOps_model {ops : List Op} :
    ∀ {t t' : Table}, Inv t → runOps t ops = some t' →
      Inv t' ∧ runModel (docText t) ops = some (docText t') := by
  induction ops with
  | nil =>
    intro t t' hInv h
    cases h
    exact ⟨hInv, rfl⟩
  | cons op rest ih =>
    intro t t' hInv h
    rw [runOps] at h
    split at h
    · rename_i t1 hstep
      obtain ⟨hI1, hm⟩ := applyOp_model hInv hstep
      obtain ⟨hI', hm'⟩ := ih hI1 h
      refine ⟨hI', ?_⟩
      rw [runModel_cons hm]
      exact hm'
    · cases h

/-! ### Absence of panics in `delete` and `get_text` -/

theorem boundary_zero (s : Str) : IsBoundary s 0 := by
  show (byteDrop 0 s).isSome = true
  rw [byteDrop_zero]
  rfl

theorem getPiece_set_other {l : List Piece} {i j : Nat} (hij : i ≠ j) (hj : j < l.length)
    (x : Piece) : getPiece (l.set i x) j = getPiece l j := by
  rw [getPiece, getPiece, List.getD_eq_getElem _ _ (by simpa using hj),
    List.getD_eq_getElem _ _ hj]
  exact List.getElem_set_ne hij _

theorem get_text_some {t : Table} (hInv : Inv t) {s l : Nat}
    (hb1 : IsBoundary (docText t) s) (hb2 : IsBoundary (docText t) (s + l)) :
    ∃ u, t.get_text s l = some u := by
  by_cases h : s + l > t.total_length
  · exact ⟨[], by rw [Table.get_text, if_pos h]⟩
  · obtain ⟨u, hu⟩ := sliceBytes_isSome_of_boundaries hb1 hb2 (by omega)
    exact ⟨u, get_text_model hInv (by omega) hu⟩

theorem delete_within_no_panic {t : Table} (hInv : Inv t) {a e : Nat}
    (hae : a ≤ e) (he : e ≤ t.total_length)
    (hb1 : IsBoundary (docText t) a) (hb2 : IsBoundary (docText t) e) :
    t.delete_within_piece (t.find_piece_containing_offset a) a e ≠ Res.panic := by
  intro hpanic
  set i := t.find_piece_containing_offset a with hidef
  simp only [Table.delete_within_piece] at hpanic
  split at hpanic
  · cases hpanic
  · rename_i hilt
    push_neg at hilt
    split at hpanic
    · cases hpanic
    · rename_i hguard
      push_neg at hguard
      obtain ⟨h1, h2⟩ := hguard
      set piece := getPiece t.pieces i with hpiecedef
      have halt : a < t.total_length := by
        rcases Nat.lt_or_ge a t.total_length with hcase | hcase
        · exact hcase
        · exfalso
          have hatl : a = t.total_length := by omega
          rcases Nat.eq_zero_or_pos t.total_length with h0 | hpos
          · have hfz := find_tl_zero hInv h0
            have ha0 : a = 0 := by omega
            rw [hidef, ha0] at hilt
            omega
          · have hlast : i = t.pieces.length - 1 := by
              rw [hidef]
              exact find_eq_last (by omega) hatl
            have hsucc := sumLen_take_succ hilt
            rw [← hpiecedef] at hsucc
            have hjp1 : i + 1 = t.pieces.length := by
              have hne2 : t.pieces ≠ [] := pieces_ne_nil_of_tl_pos hInv hpos
              have := List.length_pos.mpr hne2
              omega
            rw [hjp1, List.take_length] at hsucc
            have htl := hInv.tl
            rw [Table.get_piece_start_offset] at h1
            omega
      obtain ⟨-, hps1, hps2, -⟩ := find_spec_lt hInv halt
      rw [← hidef] at hps1 hps2
      rw [← hpiecedef] at hps2
      obtain ⟨ptext, hpt, hbr⟩ := hInv.valid piece (getPiece_mem hilt)
      rw [pieceText] at hpt
      have hptlen : byteLen ptext = piece.length := by
        have := sliceBytes_byteLen hpt
        omega
      obtain ⟨hdoc, hflatl⟩ := doc_decomp hInv hilt
      rw [← hpiecedef] at hdoc
      have hptD : pieceTextD t piece = ptext := by
        rw [pieceTextD, pieceText, hpt]
        rfl
      rw [hptD] at hdoc
      have hmid : sliceBytes (docText t) (t.get_piece_start_offset i)
          (t.get_piece_start_offset i + piece.length) = some ptext := by
        have hm := sliceBytes_append_mid (flatTexts t (t.pieces.take i)) ptext
          (flatTexts t (t.pieces.drop (i + 1)))
        rw [hflatl, hptlen] at hm
        rw [hdoc]
        exact hm
      have hbS : IsBoundary ptext (a - t.get_piece_start_offset i) := by
        refine boundary_sub hmid ?_ (by omega)
        rw [show t.get_piece_start_offset i + (a - t.get_piece_start_offset i) = a by omega]
        exact hb1
      have hbE : IsBoundary ptext (e - t.get_piece_start_offset i) := by
        refine boundary_sub hmid ?_ (by omega)
        rw [show t.get_piece_start_offset i + (e - t.get_piece_start_offset i) = e by omega]
        exact hb2
      obtain ⟨d, hd⟩ := sliceBytes_isSome_of_boundaries hbS hbE (by omega)
      have hdmain : sliceBytes (t.buf piece.source)
          (piece.start + (a - t.get_piece_start_offset i))
          (piece.start + (e - t.get_piece_start_offset i)) = some d :=
        sliceBytes_sub_some hpt hd
      obtain ⟨dL, hdL⟩ :=
        sliceBytes_isSome_of_boundaries (boundary_zero ptext) hbS (Nat.zero_le _)
      have hdLbuf : sliceBytes (t.buf piece.source) piece.start
          (piece.start + (a - t.get_piece_start_offset i)) = some dL := by
        have h := sliceBytes_sub_some hpt hdL
        rw [Nat.add_zero] at h
        exact h
      have hbLen : IsBoundary ptext piece.length := by
        rw [← hptlen]
        exact boundary_byteLen ptext
      obtain ⟨dR, hdR⟩ := sliceBytes_isSome_of_boundaries hbE hbLen (by omega)
      have hdRbuf : sliceBytes (t.buf piece.source)
          (piece.start + (e - t.get_piece_start_offset i))
          (piece.start + piece.length) = some dR :=
        sliceBytes_sub_some hpt hdR
      rw [hdmain] at hpanic
      simp only [] at hpanic
      split at hpanic
      · cases hpanic
      · split at hpanic
        · cases hpanic
        · split at hpanic
          · cases hpanic
          · rw [hdRbuf, hdLbuf] at hpanic
            simp only [] at hpanic
            cases hpanic

theorem delete_across_no_panic {t : Table} (hInv : Inv t) {a e : Nat}
    (hae : a ≤ e) (he : e ≤ t.total_length)
    (hne : t.find_piece_containing_offset a ≠ t.find_piece_containing_offset e)
    (hb1 : IsBoundary (docText t) a) (hb2 : IsBoundary (docText t) e) :
    t.delete_across_pieces (t.find_piece_containing_offset a)
      (t.find_piece_containing_offset e) a e ≠ Res.panic := by
  intro hpanic
  set spi := t.find_piece_containing_offset a with hspidef
  set epi := t.find_piece_containing_offset e with hepidef
  have haelt : a < e := by
    rcases Nat.lt_or_ge a e with h | h
    · exact h
    · exact absurd (by rw [hspidef, hepidef, show a = e by omega]) hne
  have halt : a < t.total_length := by omega
  obtain ⟨hsl, hsp1, hsp2, -⟩ := find_spec_lt hInv halt
  rw [← hspidef] at hsl hsp1 hsp2
  have hpsoepi : t.get_piece_start_offset epi = sumLen (t.pieces.take epi) := rfl
  have hepifacts : epi < t.pieces.length ∧ t.get_piece_start_offset epi ≤ e ∧
      e ≤ t.get_piece_start_offset epi + (getPiece t.pieces epi).length := by
    rcases Nat.lt_or_ge e t.total_length with hcase | hcase
    · obtain ⟨h1, h2, h3, -⟩ := find_spec_lt hInv hcase
      rw [← hepidef] at h1 h2 h3
      exact ⟨h1, h2, by omega⟩
    · have hetl : e = t.total_length := by omega
      have hlast : epi = t.pieces.length - 1 := by
        rw [hepidef]
        exact find_eq_last (by omega) hetl
      have hnn : t.pieces ≠ [] := pieces_ne_nil_of_tl_pos hInv (by omega)
      have hlenpos : 0 < t.pieces.length := List.length_pos.mpr hnn
      have hel : epi < t.pieces.length := by omega
      have hsucc := sumLen_take_succ hel
      have hfull : epi + 1 = t.pieces.length := by omega
      rw [hfull, List.take_length] at hsucc
      have htl := hInv.tl
      have hmono := sumLen_take_mono t.pieces (Nat.le_of_lt hel)
      rw [List.take_length] at hmono
      exact ⟨hel, by rw [hpsoepi]; omega, by rw [hpsoepi]; omega⟩
  obtain ⟨hel, hep1, hep2⟩ := hepifacts
  obtain ⟨s1, hpt1, hbr1⟩ := hInv.valid (getPiece t.pieces spi) (getPiece_mem hsl)
  rw [pieceText] at hpt1
  have hs1len : byteLen s1 = (getPiece t.pieces spi).length := by
    have := sliceBytes_byteLen hpt1
    omega
  obtain ⟨s2, hpt2, hbr2⟩ := hInv.valid (getPiece t.pieces epi) (getPiece_mem hel)
  rw [pieceText] at hpt2
  have hs2len : byteLen s2 = (getPiece t.pieces epi).length := by
    have := sliceBytes_byteLen hpt2
    omega
  obtain ⟨hdoc1, hflatl1⟩ := doc_decomp hInv hsl
  have hptD1 : pieceTextD t (getPiece t.pieces spi) = s1 := by
    rw [pieceTextD, pieceText, hpt1]
    rfl
  rw [hptD1] at hdoc1
  have hmid1 : sliceBytes (docText t) (t.get_piece_start_offset spi)
      (t.get_piece_start_offset spi + (getPiece t.pieces spi).length) = some s1 := by
    have hm := sliceBytes_append_mid (flatTexts t (t.pieces.take spi)) s1
      (flatTexts t (t.pieces.drop (spi + 1)))
    rw [hflatl1, hs1len] at hm
    rw [hdoc1]
    exact hm
  have hbF : IsBoundary s1 (a - t.get_piece_start_offset spi) := by
    refine boundary_sub hmid1 ?_ (by omega)
    rw [show t.get_piece_start_offset spi + (a - t.get_piece_start_offset spi) = a by omega]
    exact hb1
  obtain ⟨dF, hdF⟩ :=
    sliceBytes_isSome_of_boundaries (boundary_zero s1) hbF (Nat.zero_le _)
  have hdFbuf : sliceBytes (t.buf (getPiece t.pieces spi).source)
      (getPiece t.pieces spi).start
      ((getPiece t.pieces spi).start + (a - t.get_piece_start_offset spi)) = some dF := by
    have h := sliceBytes_sub_some hpt1 hdF
    rw [Nat.add_zero] at h
    exact h
  obtain ⟨hdoc2, hflatl2⟩ := doc_decomp hInv hel
  have hptD2 : pieceTextD t (getPiece t.pieces epi) = s2 := by
    rw [pieceTextD, pieceText, hpt2]
    rfl
  rw [hptD2] at hdoc2
  have hmid2 : sliceBytes (docText t) (t.get_piece_start_offset epi)
      (t.get_piece_start_offset epi + (getPiece t.pieces epi).length) = some s2 := by
    have hm := sliceBytes_append_mid (flatTexts t (t.pieces.take epi)) s2
      (flatTexts t (t.pieces.drop (epi + 1)))
    rw [hflatl2, hs2len] at hm
    rw [hdoc2]
    exact hm
  have hbL : IsBoundary s2 (e - t.get_piece_start_offset epi) := by
    refine boundary_sub hmid2 ?_ (by omega)
    rw [show t.get_piece_start_offset epi + (e - t.get_piece_start_offset epi) = e by omega]
    exact hb2
  have hbLen2 : IsBoundary s2 (getPiece t.pieces epi).length := by
    rw [← hs2len]
    exact boundary_byteLen s2
  obtain ⟨dL, hdL⟩ := sliceBytes_isSome_of_boundaries hbL hbLen2 (by omega)
  have hdLbuf : sliceBytes (t.buf (getPiece t.pieces epi).source)
      ((getPiece t.pieces epi).start + (e - t.get_piece_start_offset epi))
      ((getPiece t.pieces epi).start + (e - t.get_piece_start_offset epi)
        + ((getPiece t.pieces epi).length - (e - t.get_piece_start_offset epi)))
      = some dL := by
    rw [show (getPiece t.pieces epi).start + (e - t.get_piece_start_offset epi)
        + ((getPiece t.pieces epi).length - (e - t.get_piece_start_offset epi))
      = (getPiece t.pieces epi).start + (getPiece t.pieces epi).length by omega]
    exact sliceBytes_sub_some hpt2 hdL
  simp only [Table.delete_across_pieces] at hpanic
  rw [if_neg (by push_neg; omega)] at hpanic
  rw [hdFbuf] at hpanic
  simp only [] at hpanic
  rw [getPiece_set_other (by omega) hel] at hpanic
  rw [hdLbuf] at hpanic
  simp only [] at hpanic
  cases hpanic

theorem delete_no_panic {t : Table} (hInv : Inv t) {start length : Nat}
    (hb1 : IsBoundary (docText t) start)
    (hb2 : IsBoundary (docText t) (start + length)) :
    t.delete start length ≠ Res.panic := by
  intro hpanic
  simp only [Table.delete] at hpanic
  split at hpanic
  · cases hpanic
  · rename_i hguard
    push_neg at hguard
    obtain ⟨M, hMs⟩ := sliceBytes_isSome_of_boundaries hb1 hb2 (by omega)
    have hct : t.count_line_breaks_in_range start (start + length)
        = some (count_line_breaks M) := by
      rw [Table.count_line_breaks_in_range,
        show start + length - start = length by omega,
        get_text_model hInv (by omega) hMs]
      rfl
    rw [hct] at hpanic
    simp only [] at hpanic
    split at hpanic
    · rename_i hdisp
      by_cases hfe : t.find_piece_containing_offset start
          = t.find_piece_containing_offset (start + length)
      · rw [if_pos hfe] at hdisp
        exact delete_within_no_panic hInv (by omega) (by omega) hb1 hb2 hdisp
      · rw [if_neg hfe] at hdisp
        exact delete_across_no_panic hInv (by omega) (by omega) hfe hb1 hb2 hdisp
    · cases hpanic
    · rename_i t1 hdisp
      by_cases hemp : t1.pieces = []
      · rw [if_pos hemp] at hpanic
        simp only [] at hpanic
        rw [if_pos hemp] at hpanic
        cases hpanic
      · rw [if_neg hemp] at hpanic
        simp only [] at hpanic
        rw [if_neg hemp] at hpanic
        cases hpanic

/-! ### `delete`: error frame -/

theorem delete_within_err_eq {t : Table} {i a e : Nat} {t2 : Table}
    (h : t.delete_within_piece i a e = Res.err t2) : t2 = t := by
  simp only [Table.delete_within_piece] at h
  split at h
  · cases h
    rfl
  · split at h
    · cases h
      rfl
    · split at h
      · cases h
      · split at h
        · cases h
        · split at h
          · cases h
          · split at h
            · cases h
            · split at h
              · cases h
              · cases h

theorem delete_across_err_eq {t : Table} {i j a e : Nat} {t2 : Table}
    (h : t.delete_across_pieces i j a e = Res.err t2) : t2 = t := by
  simp only [Table.delete_across_pieces] at h
  split at h
  · cases h
    rfl
  · split at h
    · cases h
    · split at h
      · cases h
      · cases h

theorem delete_err_eq {t : Table} {s l : Nat} {t2 : Table}
    (h : t.delete s l = Res.err t2) : t2 = t := by
  simp only [Table.delete] at h
  split at h
  · cases h
    rfl
  · split at h
    · cases h
    · split at h
      · cases h
      · rename_i x hdisp
        cases h
        by_cases hfe : t.find_piece_containing_offset s
            = t.find_piece_containing_offset (s + l)
        · rw [if_pos hfe] at hdisp
          exact delete_within_err_eq hdisp
        · rw [if_neg hfe] at hdisp
          exact delete_across_err_eq hdisp
      · rename_i t1 hdisp
        by_cases hemp : t1.pieces = []
        · rw [if_pos hemp] at h
          simp only [] at h
          rw [if_pos hemp] at h
          cases h
        · rw [if_neg hemp] at h
          simp only [] at h
          rw [if_neg hemp] at h
          cases h

theorem delete_err_of_gt {t : Table} {s l : Nat} (h : t.total_length < s + l) :
    t.delete s l = Res.err t := by
  simp only [Table.delete]
  rw [if_pos (by omega)]

/-! ### The claims -/

/-- C1: for every initial text `T` and every sequence of `insert`/`delete`
calls that all return `Ok`, `get_text(0, total_length)` on the resulting
table equals the result of applying the same edits to `T` by plain string
splicing. -/
theorem C1_edits_match_splicing {T : Str} {ops : List Op} {t2 : Table}
    (h : runOps (Table.new T) ops = some t2) :
    ∃ s, runModel T ops = some s ∧ t2.get_text 0 t2.total_length = some s := by
  obtain ⟨hI, hm⟩ := runOps_model (Inv_new T) h
  rw [docText_new] at hm
  exact ⟨docText t2, hm, get_text_full hI⟩

theorem C1_witness :
    ∃ s, runModel ['a', 'b'] [Op.insert 1 ['X'], Op.delete 0 1] = some s ∧
      (⟨['a', 'b'], ['X'], [⟨ID.Add, 0, 1, 0⟩, ⟨ID.Original, 1, 1, 0⟩], 2, 1⟩ : Table).get_text 0 (⟨['a', 'b'], ['X'], [⟨ID.Add, 0, 1, 0⟩, ⟨ID.Original, 1, 1, 0⟩], 2, 1⟩ : Table).total_length = some s :=
  C1_edits_match_splicing (by decide)

/-- C2: the claim that `delete(start, length)` fails exactly when
`start + length > total_length` is wrong.  On the one-byte table built
from "a", `delete 1 0` satisfies `1 + 0 ≤ total_length`, yet it returns an
error (the offset 1 is past the interior of the last piece, so
`delete_within_piece` rejects it); the table is returned unchanged. -/
theorem C2_delete_errs_within_bounds :
    (Table.new ['a']).delete 1 0 = Res.err (Table.new ['a']) ∧
    1 + 0 ≤ (Table.new ['a']).total_length := by
  decide

/-- C3: after every successful `insert` or `delete` on a table reachable
from `Table::new`, `total_length` equals the byte length of
`get_text(0, total_length)` and `total_lines - 1` equals the number of
newline characters in it. -/
theorem C3_totals_agree_with_text {t t2 : Table} (hR : Reach t)
    (hok : (∃ o text, t.insert o text = Res.ok t2) ∨ (∃ s l, t.delete s l = Res.ok t2)) :
    ∃ d, t2.get_text 0 t2.total_length = some d ∧
      t2.total_length = byteLen d ∧ t2.total_lines - 1 = count_line_breaks d := by
  have hInv := Reach_Inv hR
  have hI2 : Inv t2 := by
    rcases hok with ⟨o, text, hk⟩ | ⟨s, l, hk⟩
    · exact (insert_ok hInv hk).1
    · exact (delete_ok hInv hk).1
  refine ⟨docText t2, get_text_full hI2, (byteLen_docText hI2).symm, ?_⟩
  rw [count_docText hI2]
  have := hI2.lines
  omega

theorem C3_witness :
    ∃ d, (⟨['a'], ['b'], [⟨ID.Original, 0, 1, 0⟩, ⟨ID.Add, 0, 1, 0⟩], 2, 1⟩ : Table).get_text 0 (⟨['a'], ['b'], [⟨ID.Original, 0, 1, 0⟩, ⟨ID.Add, 0, 1, 0⟩], 2, 1⟩ : Table).total_length = some d ∧
      (⟨['a'], ['b'], [⟨ID.Original, 0, 1, 0⟩, ⟨ID.Add, 0, 1, 0⟩], 2, 1⟩ : Table).total_length = byteLen d ∧ (⟨['a'], ['b'], [⟨ID.Original, 0, 1, 0⟩, ⟨ID.Add, 0, 1, 0⟩], 2, 1⟩ : Table).total_lines - 1 = count_line_breaks d :=
  C3_totals_agree_with_text (Reach.new ['a']) (Or.inl ⟨1, ['b'], by decide⟩)

/-- C4: for offsets strictly beyond the document end `offset_to_position`
does not return the end-of-document position: on the table built from
"a\nb" (`total_length = 3`), the end-of-document position is `(1, 1)`
(returned for offset 3), while offset 4 returns `(0, 0)`. -/
theorem C4_beyond_end_returns_origin :
    (Table.new ['a', '\n', 'b']).total_length = 3 ∧
    (Table.new ['a', '\n', 'b']).offset_to_position 3 = some ⟨1, 1⟩ ∧
    (Table.new ['a', '\n', 'b']).offset_to_position 4 = some ⟨0, 0⟩ := by
  decide

/-- C5: the column computed by `offset_to_position` depends on how the
document is divided into pieces: the inner loop re-initialises its
`line_start` to the current offset at every piece boundary, so the column
is measured from the start of the current piece instead of the current
line.  Inserting "X" at offset 1 of "ab" yields a three-piece table
spelling "aXb"; offset 2 — two bytes into line 0 — is reported at column
0, while the same document stored as a single piece reports column 2. -/
theorem C5_column_depends_on_pieces :
    (Table.new ['a', 'b']).insert 1 ['X'] = Res.ok (⟨['a', 'b'], ['X'], [⟨ID.Original, 0, 1, 0⟩, ⟨ID.Add, 0, 1, 0⟩, ⟨ID.Original, 1, 1, 0⟩], 3, 1⟩ : Table) ∧
    (⟨['a', 'b'], ['X'], [⟨ID.Original, 0, 1, 0⟩, ⟨ID.Add, 0, 1, 0⟩, ⟨ID.Original, 1, 1, 0⟩], 3, 1⟩ : Table).get_text 0 3 = some ['a', 'X', 'b'] ∧
    (⟨['a', 'b'], ['X'], [⟨ID.Original, 0, 1, 0⟩, ⟨ID.Add, 0, 1, 0⟩, ⟨ID.Original, 1, 1, 0⟩], 3, 1⟩ : Table).offset_to_position 2 = some ⟨0, 0⟩ ∧
    (Table.new ['a', 'X', 'b']).offset_to_position 2 = some ⟨0, 2⟩ := by
  decide

/-- C6: `position_to_offset` is not the inverse of `offset_to_position` on
character boundaries: `offset_to_position` measures columns in bytes while
`position_to_offset` advances the column by one per character.  On the
table built from "éa" (where 'é' occupies two bytes) the boundary offset 2
maps to position `(0, 2)`, which maps back to offset 3. -/
theorem C6_round_trip_fails :
    (Table.new ['é', 'a']).offset_to_position 2 = some ⟨0, 2⟩ ∧
    (Table.new ['é', 'a']).position_to_offset ⟨0, 2⟩ = some 3 ∧
    IsBoundary (docText (Table.new ['é', 'a'])) 2 ∧
    2 ≤ (Table.new ['é', 'a']).total_length := by
  decide

/-- C7: `get_text(start, length)` with `start + length > total_length`
returns the empty string rather than failing. -/
theorem C7_out_of_range_get_text_empty {t : Table} {start length : Nat}
    (h : start + length > t.total_length) : t.get_text start length = some [] := by
  rw [Table.get_text, if_pos h]

theorem C7_witness :
    5 + 0 > (Table.new ['a']).total_length ∧ (Table.new ['a']).get_text 5 0 = some [] :=
  ⟨by decide, C7_out_of_range_get_text_empty (by decide)⟩

/-- C8: `delete(x, 0)` is not always a no-op: at an interior offset it
splits the containing piece.  On the one-piece table built from "ab",
`delete 1 0` succeeds but returns a table whose piece list now holds two
pieces, so the table differs from the original. -/
theorem C8_zero_length_delete_mutates :
    (Table.new ['a', 'b']).delete 1 0 = Res.ok (⟨['a', 'b'], [], [⟨ID.Original, 0, 1, 0⟩, ⟨ID.Original, 1, 1, 0⟩], 2, 1⟩ : Table) ∧
    (⟨['a', 'b'], [], [⟨ID.Original, 0, 1, 0⟩, ⟨ID.Original, 1, 1, 0⟩], 2, 1⟩ : Table) ≠ Table.new ['a', 'b'] ∧
    1 + 0 ≤ (Table.new ['a', 'b']).total_length := by
  decide

/-- C9: the post-insert coalescing does not merge the new piece with its
contiguous same-source predecessor when typing at the end of the document:
`coalesce_pieces_around` is called with the index of the piece that
contained the offset before the split, not with the new piece's index.
Appending "b" and then "c" to "a" yields three pieces, where the second
and third are contiguous slices of the add buffer yet remain unmerged. -/
theorem C9_no_merge_when_typing_at_end :
    (Table.new ['a']).insert 1 ['b'] = Res.ok (⟨['a'], ['b'], [⟨ID.Original, 0, 1, 0⟩, ⟨ID.Add, 0, 1, 0⟩], 2, 1⟩ : Table) ∧
    (⟨['a'], ['b'], [⟨ID.Original, 0, 1, 0⟩, ⟨ID.Add, 0, 1, 0⟩], 2, 1⟩ : Table).insert 2 ['c'] = Res.ok (⟨['a'], ['b', 'c'], [⟨ID.Original, 0, 1, 0⟩, ⟨ID.Add, 0, 1, 0⟩, ⟨ID.Add, 1, 1, 0⟩], 3, 1⟩ : Table) ∧
    (getPiece (⟨['a'], ['b', 'c'], [⟨ID.Original, 0, 1, 0⟩, ⟨ID.Add, 0, 1, 0⟩, ⟨ID.Add, 1, 1, 0⟩], 3, 1⟩ : Table).pieces 1).source = (getPiece (⟨['a'], ['b', 'c'], [⟨ID.Original, 0, 1, 0⟩, ⟨ID.Add, 0, 1, 0⟩, ⟨ID.Add, 1, 1, 0⟩], 3, 1⟩ : Table).pieces 2).source ∧
    (getPiece (⟨['a'], ['b', 'c'], [⟨ID.Original, 0, 1, 0⟩, ⟨ID.Add, 0, 1, 0⟩, ⟨ID.Add, 1, 1, 0⟩], 3, 1⟩ : Table).pieces 1).start + (getPiece (⟨['a'], ['b', 'c'], [⟨ID.Original, 0, 1, 0⟩, ⟨ID.Add, 0, 1, 0⟩, ⟨ID.Add, 1, 1, 0⟩], 3, 1⟩ : Table).pieces 1).length
      = (getPiece (⟨['a'], ['b', 'c'], [⟨ID.Original, 0, 1, 0⟩, ⟨ID.Add, 0, 1, 0⟩, ⟨ID.Add, 1, 1, 0⟩], 3, 1⟩ : Table).pieces 2).start ∧
    (⟨['a'], ['b', 'c'], [⟨ID.Original, 0, 1, 0⟩, ⟨ID.Add, 0, 1, 0⟩, ⟨ID.Add, 1, 1, 0⟩], 3, 1⟩ : Table).pieces.length = 3 := by
  decide

/-- C10: on any table reachable through the public API, when every offset
passed lies on a character boundary of the document, `insert`, `delete`
and `get_text` never reach the panicking slice branch of the embedding. -/
theorem C10_no_panics {t : Table} (hR : Reach t) :
    (∀ o text, IsBoundary (docText t) o → t.insert o text ≠ Res.panic) ∧
    (∀ s l, IsBoundary (docText t) s → IsBoundary (docText t) (s + l) →
      t.delete s l ≠ Res.panic) ∧
    (∀ s l, IsBoundary (docText t) s → IsBoundary (docText t) (s + l) →
      t.get_text s l ≠ none) := by
  have hInv := Reach_Inv hR
  refine ⟨?_, ?_, ?_⟩
  · intro o text hb hpan
    rcases Nat.lt_or_ge t.total_length o with ho | ho
    · rw [insert_err_of_gt text ho] at hpan
      cases hpan
    · obtain ⟨t2, h⟩ := insert_no_panic hInv text ho hb
      rw [h] at hpan
      cases hpan
  · intro s l hb1 hb2
    exact delete_no_panic hInv hb1 hb2
  · intro s l hb1 hb2 hnone
    obtain ⟨u, hu⟩ := get_text_some hInv hb1 hb2
    rw [hu] at hnone
    cases hnone

theorem C10_witness :
    IsBoundary (docText (Table.new ['a'])) 1 ∧
    (Table.new ['a']).insert 1 ['b'] ≠ Res.panic :=
  ⟨by decide, (C10_no_panics (Reach.new ['a'])).1 1 ['b'] (by decide)⟩

/-- C2 (amended): `insert` fails exactly when `offset > total_length`;
`delete` fails whenever `start + length > total_length` (but also in some
in-bounds cases, see the counterexample); whenever either operation
returns an error, the table it hands back is exactly the table it was
called on. -/
theorem C2_error_frame (t : Table) :
    (∀ o text t2, t.insert o text = Res.err t2 → t2 = t ∧ t.total_length < o) ∧
    (∀ o text, t.total_length < o → t.insert o text = Res.err t) ∧
    (∀ s l, t.total_length < s + l → t.delete s l = Res.err t) ∧
    (∀ s l t2, t.delete s l = Res.err t2 → t2 = t) := by
  refine ⟨?_, ?_, ?_, ?_⟩
  · intro o text t2 h
    obtain ⟨h1, h2⟩ := insert_err h
    exact ⟨h2, h1⟩
  · intro o text h
    exact insert_err_of_gt text h
  · intro s l h
    exact delete_err_of_gt h
  · intro s l t2 h
    exact delete_err_eq h

theorem C2_witness :
    (Table.new ['a']).total_length < 5 + 0 ∧
    (Table.new ['a']).delete 5 0 = Res.err (Table.new ['a']) :=
  ⟨by decide, (C2_error_frame (Table.new ['a'])).2.2.1 5 0 (by decide)⟩

/-- C4 (amended): on every table, every offset strictly greater than
`total_length` maps to `Position(0, 0)` — not the end-of-document
position, which offset `= total_length` does return (`(1, 1)` on "a\nb").
Nor is the operation failure-free: the final column computation
`offset - last_line_start` is a `usize` subtraction that underflows (a
panic in debug builds, `none` in the model) when the offset lies inside a
multi-byte character that precedes a newline, as at offset 1 of "é\na". -/
theorem C4_beyond_end_behavior :
    (∀ (t : Table) (o : Nat), o > t.total_length → t.offset_to_position o = some ⟨0, 0⟩) ∧
    (Table.new ['a', '\n', 'b']).offset_to_position 3 = some ⟨1, 1⟩ ∧
    (Table.new ['é', '\n', 'a']).offset_to_position 1 = none := by
  refine ⟨?_, by decide, by decide⟩
  intro t o h
  rw [Table.offset_to_position, if_pos h]

theorem C4_witness :
    4 > (Table.new ['a', '\n', 'b']).total_length ∧
    (Table.new ['a', '\n', 'b']).offset_to_position 4 = some ⟨0, 0⟩ :=
  ⟨by decide, C4_beyond_end_behavior.1 (Table.new ['a', '\n', 'b']) 4 (by decide)⟩

/-- C8 (amended): when `delete(x, 0)` succeeds on a well-formed table it
preserves the document text, both totals and both buffers — but not
necessarily the piece division (see the counterexample). -/
theorem C8_zero_delete_preserves_content {t : Table} (hInv : Inv t) {x : Nat}
    {t2 : Table} (h : t.delete x 0 = Res.ok t2) :
    docText t2 = docText t ∧ t2.total_length = t.total_length ∧
    t2.total_lines = t.total_lines ∧ t2.original = t.original ∧
    t2.add_buffer = t.add_buffer := by
  obtain ⟨-, -, ⟨A, M, B, hA, hM, hB, hD, hT, hL⟩, hO, hAdd⟩ := delete_ok hInv h
  simp only [Nat.add_zero] at hA hM hB hT hL
  have hM0 : M = [] := byteLen_eq_zero (by have := sliceBytes_byteLen hM; omega)
  obtain ⟨v, hdoc1, hAl⟩ := byteTake_eq_some_iff.mp hA
  obtain ⟨p, hdoc2, hpl⟩ := byteDrop_eq_some_iff.mp hB
  have hAB : docText t = A ++ B := by
    have h3 : A ++ v = p ++ B := by rw [← hdoc1, hdoc2]
    obtain ⟨hap, hvb⟩ := append_eq_of_byteLen_eq h3 (by omega)
    rw [hdoc1, hap, hvb]
  refine ⟨by rw [hD, hAB], by omega, ?_, hO, hAdd⟩
  rw [hL, hM0]
  show t.total_lines - 0 = t.total_lines
  omega

theorem C8_witness :
    (Table.new ['a', 'b']).delete 1 0 = Res.ok (⟨['a', 'b'], [], [⟨ID.Original, 0, 1, 0⟩, ⟨ID.Original, 1, 1, 0⟩], 2, 1⟩ : Table) ∧
    docText (⟨['a', 'b'], [], [⟨ID.Original, 0, 1, 0⟩, ⟨ID.Original, 1, 1, 0⟩], 2, 1⟩ : Table) = docText (Table.new ['a', 'b']) ∧
    (⟨['a', 'b'], [], [⟨ID.Original, 0, 1, 0⟩, ⟨ID.Original, 1, 1, 0⟩], 2, 1⟩ : Table).total_length = (Table.new ['a', 'b']).total_length ∧
    (⟨['a', 'b'], [], [⟨ID.Original, 0, 1, 0⟩, ⟨ID.Original, 1, 1, 0⟩], 2, 1⟩ : Table).total_lines = (Table.new ['a', 'b']).total_lines ∧
    (⟨['a', 'b'], [], [⟨ID.Original, 0, 1, 0⟩, ⟨ID.Original, 1, 1, 0⟩], 2, 1⟩ : Table).original = (Table.new ['a', 'b']).original ∧
    (⟨['a', 'b'], [], [⟨ID.Original, 0, 1, 0⟩, ⟨ID.Original, 1, 1, 0⟩], 2, 1⟩ : Table).add_buffer = (Table.new ['a', 'b']).add_buffer :=
  ⟨by decide, C8_zero_delete_preserves_content (Inv_new ['a', 'b'])
    (show (Table.new ['a', 'b']).delete 1 0 = Res.ok (⟨['a', 'b'], [], [⟨ID.Original, 0, 1, 0⟩, ⟨ID.Original, 1, 1, 0⟩], 2, 1⟩ : Table) from by decide)⟩

/-- C9 (amended): `coalesce_pieces_around i` does merge pieces `i - 1` and
`i` when they are contiguous slices of the same buffer; but `insert` calls
it with the index of the piece that contained the offset before the split,
so the insert that creates a piece does not merge it with its contiguous
predecessor (see the counterexample: after appending "b" and then "c" to
"a", the two add-buffer pieces are contiguous yet unmerged). -/
theorem C9_coalesce_merges_adjacent {t : Table} {i : Nat}
    (h2 : 2 ≤ t.pieces.length) (h0 : 0 < i) (hlen : i < t.pieces.length)
    (hsrc : (getPiece t.pieces (i - 1)).source = (getPiece t.pieces i).source)
    (hcont : (getPiece t.pieces (i - 1)).start + (getPiece t.pieces (i - 1)).length
      = (getPiece t.pieces i).start) :
    (t.coalesce_pieces_around i).pieces
      = t.pieces.take (i - 1)
        ++ (⟨(getPiece t.pieces (i - 1)).source, (getPiece t.pieces (i - 1)).start,
            (getPiece t.pieces (i - 1)).length + (getPiece t.pieces i).length,
            (getPiece t.pieces (i - 1)).line_breaks + (getPiece t.pieces i).line_breaks⟩
          : Piece)
        :: t.pieces.drop (i + 1) := by
  rw [Table.coalesce_pieces_around, if_neg (by push_neg; omega)]
  rw [if_pos ⟨hsrc, hcont⟩]
  show (t.pieces.set (i - 1) _).eraseIdx i = _
  set MP : Piece := ⟨(getPiece t.pieces (i - 1)).source, (getPiece t.pieces (i - 1)).start,
    (getPiece t.pieces (i - 1)).length + (getPiece t.pieces i).length,
    (getPiece t.pieces (i - 1)).line_breaks + (getPiece t.pieces i).line_breaks⟩
    with hMPdef
  have hi1 : i - 1 < t.pieces.length := by omega
  have hd1 : t.pieces.drop (i - 1) = getPiece t.pieces (i - 1) :: t.pieces.drop i := by
    rw [getPiece, List.getD_eq_getElem t.pieces _ hi1, List.drop_eq_getElem_cons hi1,
      show i - 1 + 1 = i by omega]
  have hd2 : t.pieces.drop i = getPiece t.pieces i :: t.pieces.drop (i + 1) := by
    rw [getPiece, List.getD_eq_getElem t.pieces _ hlen]
    exact List.drop_eq_getElem_cons hlen
  have hdecomp : t.pieces = t.pieces.take (i - 1)
      ++ getPiece t.pieces (i - 1) :: getPiece t.pieces i :: t.pieces.drop (i + 1) := by
    conv_lhs => rw [← List.take_append_drop (i - 1) t.pieces]
    rw [hd1, hd2]
  have hAlen : (t.pieces.take (i - 1)).length = i - 1 := by
    rw [List.length_take]
    omega
  have hset : t.pieces.set (i - 1) MP
      = t.pieces.take (i - 1) ++ MP :: getPiece t.pieces i :: t.pieces.drop (i + 1) := by
    conv_lhs => rw [hdecomp]
    exact set_at_append _ _ _ hAlen.symm
  rw [hset]
  rw [show t.pieces.take (i - 1) ++ MP :: getPiece t.pieces i :: t.pieces.drop (i + 1)
    = (t.pieces.take (i - 1) ++ [MP]) ++ getPiece t.pieces i :: t.pieces.drop (i + 1)
    by simp]
  rw [eraseIdx_at_append _ _ (by
    simp only [List.length_append, List.length_cons, List.length_nil, hAlen]
    omega)]
  simp

theorem C9_witness :
    ((⟨['a'], ['b', 'c'], [⟨ID.Original, 0, 1, 0⟩, ⟨ID.Add, 0, 1, 0⟩, ⟨ID.Add, 1, 1, 0⟩], 3, 1⟩ : Table).coalesce_pieces_around 2).pieces
      = (⟨['a'], ['b', 'c'], [⟨ID.Original, 0, 1, 0⟩, ⟨ID.Add, 0, 1, 0⟩, ⟨ID.Add, 1, 1, 0⟩], 3, 1⟩ : Table).pieces.take 1
        ++ (⟨(getPiece (⟨['a'], ['b', 'c'], [⟨ID.Original, 0, 1, 0⟩, ⟨ID.Add, 0, 1, 0⟩, ⟨ID.Add, 1, 1, 0⟩], 3, 1⟩ : Table).pieces 1).source, (getPiece (⟨['a'], ['b', 'c'], [⟨ID.Original, 0, 1, 0⟩, ⟨ID.Add, 0, 1, 0⟩, ⟨ID.Add, 1, 1, 0⟩], 3, 1⟩ : Table).pieces 1).start,
            (getPiece (⟨['a'], ['b', 'c'], [⟨ID.Original, 0, 1, 0⟩, ⟨ID.Add, 0, 1, 0⟩, ⟨ID.Add, 1, 1, 0⟩], 3, 1⟩ : Table).pieces 1).length + (getPiece (⟨['a'], ['b', 'c'], [⟨ID.Original, 0, 1, 0⟩, ⟨ID.Add, 0, 1, 0⟩, ⟨ID.Add, 1, 1, 0⟩], 3, 1⟩ : Table).pieces 2).length,
            (getPiece (⟨['a'], ['b', 'c'], [⟨ID.Original, 0, 1, 0⟩, ⟨ID.Add, 0, 1, 0⟩, ⟨ID.Add, 1, 1, 0⟩], 3, 1⟩ : Table).pieces 1).line_breaks + (getPiece (⟨['a'], ['b', 'c'], [⟨ID.Original, 0, 1, 0⟩, ⟨ID.Add, 0, 1, 0⟩, ⟨ID.Add, 1, 1, 0⟩], 3, 1⟩ : Table).pieces 2).line_breaks⟩
          : Piece)
        :: (⟨['a'], ['b', 'c'], [⟨ID.Original, 0, 1, 0⟩, ⟨ID.Add, 0, 1, 0⟩, ⟨ID.Add, 1, 1, 0⟩], 3, 1⟩ : Table).pieces.drop 3 :=
  C9_coalesce_merges_adjacent (by decide) (by decide) (by decide) (by decide) (by decide)

/-! ### Round trip of `offset_to_position` and `position_to_offset` on a
fresh single-piece ASCII table -/

theorem ascii_byteLen {s : Str} (hA : ∀ c ∈ s, c.utf8Size = 1) : byteLen s = s.length := by
  induction s with
  | nil => rfl
  | cons c rest ih =>
    rw [byteLen_cons, List.length_cons, hA c (List.mem_cons_self c rest),
      ih (fun x hx => hA x (List.mem_cons_of_mem c hx))]
    omega

theorem o2p_p2o_chars_lt :
    ∀ (s : Str), (∀ c ∈ s, c.utf8Size = 1) → ∀ (offset i line ls : Nat),
      ls ≤ i → i ≤ offset → offset < i + s.length →
      ∃ pos, o2pChars offset 0 s i line ls ls = Sum.inl pos ∧
        line ≤ pos.line ∧ (pos.line = line → i - ls ≤ pos.column) ∧
        p2oChars pos s line (i - ls) i = Sum.inl offset := by
  intro s
  induction s with
  | nil =>
    intro hA offset i line ls h1 h2 h3
    rw [List.length_nil] at h3
    omega
  | cons c rest ih =>
    intro hA offset i line ls h1 h2 h3
    have hc1 : c.utf8Size = 1 := hA c (List.mem_cons_self c rest)
    have hArest : ∀ x ∈ rest, x.utf8Size = 1 :=
      fun x hx => hA x (List.mem_cons_of_mem c hx)
    by_cases hio : i = offset
    · subst hio
      rw [o2pChars, if_pos (by omega)]
      refine ⟨⟨line, i - ls⟩, rfl, le_refl _, fun _ => le_refl _, ?_⟩
      rw [p2oChars, if_pos ⟨rfl, rfl⟩]
    · have hlt : i < offset := by omega
      rw [o2pChars, if_neg (by omega)]
      by_cases hcn : c = '\n'
      · rw [if_pos hcn, hc1, show (0 : Nat) + i + 1 = i + 1 from by omega]
        obtain ⟨pos, hrec, hl1, hl2, hp⟩ := ih hArest offset (i + 1) (line + 1) (i + 1)
          (le_refl _) (by omega) (by rw [List.length_cons] at h3; omega)
        refine ⟨pos, hrec, by omega, fun hplin => by omega, ?_⟩
        have hguard : ¬(line = pos.line ∧ i - ls = pos.column) := by
          rintro ⟨ha, -⟩
          omega
        rw [p2oChars, if_neg hguard, if_pos hcn, hc1]
        rw [Nat.sub_self] at hp
        exact hp
      · rw [if_neg hcn, hc1]
        obtain ⟨pos, hrec, hl1, hl2, hp⟩ := ih hArest offset (i + 1) line ls
          (by omega) (by omega) (by rw [List.length_cons] at h3; omega)
        refine ⟨pos, hrec, hl1, ?_, ?_⟩
        · intro hplin
          have := hl2 hplin
          omega
        · have hguard : ¬(line = pos.line ∧ i - ls = pos.column) := by
            rintro ⟨ha, hb⟩
            have := hl2 ha.symm
            omega
          rw [p2oChars, if_neg hguard, if_neg hcn, hc1]
          rw [show i - ls + 1 = i + 1 - ls by omega]
          exact hp

theorem o2p_p2o_chars_end :
    ∀ (s : Str), (∀ c ∈ s, c.utf8Size = 1) → ∀ (offset i line ls : Nat),
      ls ≤ i → offset = i + s.length →
      ∃ lf lsf, o2pChars offset 0 s i line ls ls = Sum.inr (lf, lsf) ∧
        line ≤ lf ∧ ls ≤ lsf ∧ lsf ≤ offset ∧ (lf = line → lsf = ls) ∧
        ∃ a b d, p2oChars ⟨lf, offset - lsf⟩ s line (i - ls) i = Sum.inr (a, b, d) := by
  intro s
  induction s with
  | nil =>
    intro hA offset i line ls h1 h2
    rw [List.length_nil] at h2
    exact ⟨line, ls, rfl, le_refl _, le_refl _, by omega, fun _ => rfl,
      line, i - ls, i, rfl⟩
  | cons c rest ih =>
    intro hA offset i line ls h1 h2
    have hc1 : c.utf8Size = 1 := hA c (List.mem_cons_self c rest)
    have hArest : ∀ x ∈ rest, x.utf8Size = 1 :=
      fun x hx => hA x (List.mem_cons_of_mem c hx)
    have hlt : i < offset := by
      rw [List.length_cons] at h2
      omega
    rw [o2pChars, if_neg (by omega)]
    by_cases hcn : c = '\n'
    · rw [if_pos hcn, hc1, show (0 : Nat) + i + 1 = i + 1 from by omega]
      obtain ⟨lf, lsf, hrec, hl1, hl2, hl3, hl4, a, b, d, hp⟩ :=
        ih hArest offset (i + 1) (line + 1) (i + 1) (le_refl _)
          (by rw [List.length_cons] at h2; omega)
      refine ⟨lf, lsf, hrec, by omega, by omega, hl3, fun h => by omega, a, b, d, ?_⟩
      have hguard : ¬(line = (⟨lf, offset - lsf⟩ : Position).line
          ∧ i - ls = (⟨lf, offset - lsf⟩ : Position).column) := by
        rintro ⟨ha, -⟩
        have : lf = line := ha.symm
        omega
      rw [p2oChars, if_neg hguard, if_pos hcn, hc1]
      rw [Nat.sub_self] at hp
      exact hp
    · rw [if_neg hcn, hc1]
      obtain ⟨lf, lsf, hrec, hl1, hl2, hl3, hl4, a, b, d, hp⟩ :=
        ih hArest offset (i + 1) line ls (by omega)
          (by rw [List.length_cons] at h2; omega)
      refine ⟨lf, lsf, hrec, hl1, hl2, hl3, hl4, a, b, d, ?_⟩
      have hguard : ¬(line = (⟨lf, offset - lsf⟩ : Position).line
          ∧ i - ls = (⟨lf, offset - lsf⟩ : Position).column) := by
        rintro ⟨ha, hb⟩
        have hlfl : lf = line := ha.symm
        have hlsf : lsf = ls := hl4 hlfl
        have hcol : i - ls = offset - lsf := hb
        omega
      rw [p2oChars, if_neg hguard, if_neg hcn, hc1]
      rw [show i - ls + 1 = i + 1 - ls by omega]
      exact hp

/-- C6 (amended): on a freshly created single-piece table whose text is
ASCII (every character one byte), `position_to_offset` inverts
`offset_to_position` for every offset up to the total length.  (On
multi-piece or multi-byte documents the round trip fails, see the
counterexample.) -/
theorem C6_fresh_ascii_round_trip {s : Str} (hA : ∀ c ∈ s, c.utf8Size = 1)
    {offset : Nat} (ho : offset ≤ (Table.new s).total_length) :
    ∃ pos, (Table.new s).offset_to_position offset = some pos ∧
      (Table.new s).position_to_offset pos = some offset := by
  have htl : (Table.new s).total_length = byteLen s := rfl
  have hlen : byteLen s = s.length := ascii_byteLen hA
  rw [Table.offset_to_position, if_neg (by omega)]
  show ∃ pos, o2pPieces (Table.new s) offset
    [⟨ID.Original, 0, byteLen s, count_line_breaks s⟩] 0 0 0 = some pos ∧ _
  rw [o2pPieces, pieceText_new s]
  simp only []
  rcases Nat.lt_or_ge offset s.length with hcase | hcase
  · obtain ⟨pos, ho2p, -, -, hp2o⟩ := o2p_p2o_chars_lt s hA offset 0 0 0
      (le_refl 0) (Nat.zero_le _) (by omega)
    rw [ho2p]
    simp only []
    refine ⟨pos, rfl, ?_⟩
    show p2oPieces (Table.new s) pos
      [⟨ID.Original, 0, byteLen s, count_line_breaks s⟩] 0 0 0 = some offset
    rw [p2oPieces, pieceText_new s]
    simp only []
    rw [Nat.sub_self] at hp2o
    rw [hp2o]
  · have hoeq : offset = 0 + s.length := by omega
    obtain ⟨lf, lsf, ho2p, -, -, hle, -, a, b, d, hp2o⟩ :=
      o2p_p2o_chars_end s hA offset 0 0 0 (le_refl 0) hoeq
    rw [ho2p]
    simp only []
    rw [o2pPieces, if_pos hle]
    refine ⟨⟨lf, offset - lsf⟩, rfl, ?_⟩
    show p2oPieces (Table.new s) ⟨lf, offset - lsf⟩
      [⟨ID.Original, 0, byteLen s, count_line_breaks s⟩] 0 0 0 = some offset
    rw [p2oPieces, pieceText_new s]
    simp only []
    rw [Nat.sub_self] at hp2o
    rw [hp2o]
    simp only []
    rw [p2oPieces]
    rw [show (Table.new s).total_length = offset by rw [htl, hlen]; omega]

theorem C6_amended_witness :
    (∀ c ∈ ['a', '\n', 'b'], c.utf8Size = 1) ∧
    ∃ pos, (Table.new ['a', '\n', 'b']).offset_to_position 2 = some pos ∧
      (Table.new ['a', '\n', 'b']).position_to_offset pos = some 2 :=
  ⟨by decide, C6_fresh_ascii_round_trip (by decide) (by decide)⟩

end Spec2Proof